import Mathlib

/-
Verification development for the YouTube campaign-scoring repository.

Shallow embedding of:
  * the enumerations of `api/models.py`,
  * the scoring helpers of `api/services/scoring_engine.py`
    (`_determine_recommendation`, `_determine_brand_suitability`,
    `_coerce_float`, `_coerce_topics`, `_normalize_emotion`,
    `_payload_from_llm`, the emotion-score lines of `_heuristic_nlp`,
    and the persistence upsert of `score_video`),
  * the keyword rotation selector
    `YouTubeService._select_keywords_for_rotation` of
    `api/services/youtube_service.py`,
  * the batch loop of `batch_score_videos` in `api/routers/scoring.py`.

Python floats are embedded as exact rationals (ℚ), Python `None`/JSON
values as the inductive `PyVal`, raised exceptions as `Except`/`Option`.
-/

namespace YT

/-! ## Enumerations (api/models.py) -/

/-- `KeywordType` enum. Python member values: `"core"`, `"long-tail"`,
`"related"`, `"intent-based"`. -/
inductive KeywordType where
  | core
  | longTail
  | related
  | intentBased
deriving DecidableEq, Repr

instance : Fintype KeywordType :=
  ⟨⟨{.core, .longTail, .related, .intentBased}, by decide⟩, by intro x; cases x <;> decide⟩

/-- The `.value` string of each `KeywordType` member. -/
def KeywordType.value : KeywordType → String
  | .core => "core"
  | .longTail => "long-tail"
  | .related => "related"
  | .intentBased => "intent-based"

/-- `BrandSafetyStatus` enum; `notSafe` embeds the Python member with
value string `"unsafe"`. -/
inductive BrandSafetyStatus where
  | safe
  | review
  | notSafe
deriving DecidableEq, Repr

def BrandSafetyStatus.value : BrandSafetyStatus → String
  | .safe => "safe"
  | .review => "review"
  | .notSafe => "unsafe"

/-- `BrandSuitability` enum. -/
inductive BrandSuitability where
  | high
  | medium
  | low
deriving DecidableEq, Repr

def BrandSuitability.value : BrandSuitability → String
  | .high => "high"
  | .medium => "medium"
  | .low => "low"

/-- `Sentiment` enum. -/
inductive Sentiment where
  | positive
  | neutral
  | negative
deriving DecidableEq, Repr

def Sentiment.value : Sentiment → String
  | .positive => "positive"
  | .neutral => "neutral"
  | .negative => "negative"

/-- `TargetingRecommendation` enum. -/
inductive TargetingRecommendation where
  | strongMatch
  | moderateMatch
  | weakMatch
  | avoid
deriving DecidableEq, Repr

def TargetingRecommendation.value : TargetingRecommendation → String
  | .strongMatch => "strong_match"
  | .moderateMatch => "moderate_match"
  | .weakMatch => "weak_match"
  | .avoid => "avoid"

/-! ## Python JSON-like values -/

/-- Untyped values appearing in an LLM JSON payload (Python objects after
`json.loads`): `None`, booleans, numbers (embedded exactly as ℚ), strings
and lists. -/
inductive PyVal where
  | none
  | bool (b : Bool)
  | num (q : ℚ)
  | str (s : String)
  | list (xs : List PyVal)

/-- Python truthiness of a `PyVal` (`if value:`). -/
def pyTruthy : PyVal → Bool
  | .none => false
  | .bool b => b
  | .num q => q != 0
  | .str s => s != ""
  | .list xs => !xs.isEmpty

/-- Python `str.lower()` (character-wise; the repository's inputs are
ASCII). Implemented on the character list so that proofs can evaluate it. -/
def pyLower (s : String) : String := String.mk (s.toList.map Char.toLower)

/-- Python `str.strip()`: remove leading and trailing whitespace. -/
def pyStrip (s : String) : String :=
  String.mk
    (((s.toList.dropWhile Char.isWhitespace).reverse.dropWhile
      Char.isWhitespace).reverse)

/-- Value of a list of decimal digit characters, `Option.none` if the list is
empty or contains a non-digit. -/
def digitsVal : List Char → Option ℕ
  | [] => Option.none
  | cs => cs.foldl
      (fun acc c =>
        acc.bind fun n => if c.isDigit then some (n * 10 + (c.toNat - '0'.toNat)) else Option.none)
      (some 0)

/-- Parse a decimal string of the shape `[+|-]digits[.digits]` (at least one
digit overall) into an exact rational, as Python `float(str)` accepts; other
strings (e.g. `"abc"`) fail. Exponent and infinity/NaN forms are not
modelled. -/
def parseDecimal (s : String) : Option ℚ :=
  let cs := (pyStrip s).toList
  let (sign, rest) :=
    match cs with
    | '-' :: t => ((-1 : ℚ), t)
    | '+' :: t => ((1 : ℚ), t)
    | t => ((1 : ℚ), t)
  let intPart := rest.takeWhile (· ≠ '.')
  let fracPart := rest.drop intPart.length
  match fracPart with
  | [] =>
    (digitsVal intPart).map fun n => sign * n
  | '.' :: fracDigits =>
    if intPart = [] ∧ fracDigits = [] then Option.none
    else
      let i : ℚ := ((digitsVal intPart).getD 0 : ℕ)
      let okInt : Bool := intPart.isEmpty || (digitsVal intPart).isSome
      let okFrac : Bool := fracDigits.isEmpty || (digitsVal fracDigits).isSome
      if okInt && okFrac then
        let f : ℚ := ((digitsVal fracDigits).getD 0 : ℕ)
        some (sign * (i + f / (10 : ℚ) ^ fracDigits.length))
      else Option.none
  | _ => Option.none

/-- Python `float(value)` as a fallible conversion: numbers and booleans
convert, numeric strings parse, everything else (`None`, lists,
non-numeric strings) raises. -/
def pyFloat : PyVal → Option ℚ
  | .num q => some q
  | .bool b => some (if b then 1 else 0)
  | .str s => parseDecimal s
  | _ => Option.none

/-- Python `str(value)` for payload list items; only the string case is
exercised by realistic payloads. -/
def pyStr : PyVal → String
  | .str s => s
  | .num q => toString q
  | .bool b => if b then "True" else "False"
  | .none => "None"
  | .list _ => "[...]"

/-! ## ScoringEngine: fixed lexicons -/

/-- `ScoringEngine.POSITIVE_TERMS`. -/
def POSITIVE_TERMS : List String :=
  ["best", "ultimate", "win", "exciting", "innovative", "amazing", "love",
   "top", "guide", "review", "how"]

/-- `ScoringEngine.NEGATIVE_TERMS`. -/
def NEGATIVE_TERMS : List String :=
  ["hate", "worst", "fail", "angry", "problem", "bad", "tragic", "disaster",
   "break", "complaint"]

/-- `ScoringEngine.EMOTION_OPTIONS` (the 9-value closed vocabulary). -/
def EMOTION_OPTIONS : List String :=
  ["joyful", "excited", "inspired", "nostalgic", "calm", "serious",
   "critical", "persuasive", "neutral"]

/-- The synonym table inside `ScoringEngine._normalize_emotion`. -/
def EMOTION_SYNONYMS : List (String × String) :=
  [("happy", "joyful"), ("cheerful", "joyful"), ("exciting", "excited"),
   ("energetic", "excited"), ("motivated", "inspired"),
   ("emotional", "nostalgic"), ("relaxed", "calm"), ("informative", "serious"),
   ("negative", "critical"), ("sales", "persuasive")]

/-! ## ScoringEngine: tokenizer and emotion score (`_tokenize`, `_heuristic_nlp`) -/

/-- Characters matched by the token regex `[a-z0-9]+` (applied to lowercased
text). -/
def isTokenChar (c : Char) : Bool :=
  ('a' ≤ c && c ≤ 'z') || ('0' ≤ c && c ≤ '9')

/-- Splits a character list into maximal runs of token characters; `acc`
holds the current run reversed. -/
def tokenizeChars : List Char → List Char → List String
  | [], acc => if acc.isEmpty then [] else [String.mk acc.reverse]
  | c :: rest, acc =>
    if isTokenChar c then tokenizeChars rest (c :: acc)
    else if acc.isEmpty then tokenizeChars rest []
    else String.mk acc.reverse :: tokenizeChars rest []

/-- `ScoringEngine._tokenize`: `re.findall(r"[a-z0-9]+", text.lower())`. -/
def tokenize (text : String) : List String :=
  tokenizeChars (pyLower text).toList []

/-- `sum(1 for token in video_tokens if token in POSITIVE_TERMS)`. -/
def positiveHits (tokens : List String) : ℕ :=
  (tokens.filter (POSITIVE_TERMS.contains ·)).length

/-- `sum(1 for token in video_tokens if token in NEGATIVE_TERMS)`. -/
def negativeHits (tokens : List String) : ℕ :=
  (tokens.filter (NEGATIVE_TERMS.contains ·)).length

/-- Lines 148–151 of `scoring_engine.py`:
`total_hits = positive_hits + negative_hits or 1` followed by
`emotion_score = min(1.0, max(0.1, (positive_hits + 1) / (total_hits + 1)))`,
computed over the tokens of the aggregated video text. -/
def heuristicEmotionScore (videoText : String) : ℚ :=
  let video_tokens := tokenize videoText
  let positive_hits := positiveHits video_tokens
  let negative_hits := negativeHits video_tokens
  let total_hits : ℕ :=
    if positive_hits + negative_hits = 0 then 1 else positive_hits + negative_hits
  min 1 (max (1 / 10) (((positive_hits : ℚ) + 1) / ((total_hits : ℚ) + 1)))

/-- Modelled from the spec claim's words (not the source): the formula
`clamp((positive_hits+1)/(positive_hits+negative_hits+1), floor 0.1, ceiling
1.0)` that §4.2 asserts for `emotion_score`. -/
def claimedEmotionScore (videoText : String) : ℚ :=
  let video_tokens := tokenize videoText
  let positive_hits := positiveHits video_tokens
  let negative_hits := negativeHits video_tokens
  min 1 (max (1 / 10)
    (((positive_hits : ℚ) + 1) / ((positive_hits : ℚ) + (negative_hits : ℚ) + 1)))

/-! ## ScoringEngine: decision tables (`_determine_recommendation`,
`_determine_brand_suitability`, `_heuristic_brand_safety` rules) -/

/-- `ScoringEngine._determine_recommendation` (lines 202–219). -/
def determineRecommendation (contextual_score : ℚ)
    (brand_suitability : BrandSuitability)
    (brand_safety_status : BrandSafetyStatus) :
    TargetingRecommendation × ℚ :=
  if brand_safety_status = .notSafe then (.avoid, 0)
  else if contextual_score ≥ 0.8 ∧ brand_suitability = .high then
    (.strongMatch, 1.35)
  else if contextual_score ≥ 0.6 ∧
      (brand_suitability = .high ∨ brand_suitability = .medium) then
    (.moderateMatch, 1.1)
  else if contextual_score ≥ 0.4 then (.weakMatch, 0.9)
  else (.avoid, 0)

/-- Modelled from the spec's words (§4.4 rule table, first match wins), to be
compared with the source-derived `determineRecommendation`. -/
def recommendationRuleTable (contextual_score : ℚ)
    (suitability : BrandSuitability) (brand_safety : BrandSafetyStatus) :
    TargetingRecommendation × ℚ :=
  if brand_safety = .notSafe then (.avoid, 0)
  else if 0.8 ≤ contextual_score ∧ suitability = .high then (.strongMatch, 1.35)
  else if 0.6 ≤ contextual_score ∧ suitability ∈ [BrandSuitability.high, .medium] then
    (.moderateMatch, 1.1)
  else if 0.4 ≤ contextual_score then (.weakMatch, 0.9)
  else (.avoid, 0)

/-- `ScoringEngine._determine_brand_suitability` (lines 221–230). -/
def determineBrandSuitability (contextual_score : ℚ)
    (brand_safety_status : BrandSafetyStatus) (sentiment : Sentiment) :
    BrandSuitability :=
  if brand_safety_status = .notSafe then .low
  else if contextual_score ≥ 0.75 ∧ sentiment = .positive then .high
  else if contextual_score ≥ 0.5 then .medium
  else .low

/-! ## ScoringEngine: payload coercion helpers -/

/-- `ScoringEngine._enum_value`: strip + lowercase a string and match it
against the member value strings; anything else gives no match (the caller's
default). -/
def enumValue {E : Type} (members : List E) (value : E → String)
    (v : PyVal) : Option E :=
  match v with
  | .str s => members.find? (fun m => value m == pyLower (pyStrip s))
  | _ => Option.none

/-- `ScoringEngine._coerce_float`: `float(value)` then clamp, any exception
gives the default. -/
def coerceFloat (v : PyVal) (default : ℚ) (lo hi : ℚ) : ℚ :=
  match pyFloat v with
  | some num => max lo (min hi num)
  | Option.none => default

/-- `ScoringEngine._coerce_topics`. -/
def coerceTopics (v : PyVal) (fallback : List String) : List String :=
  match v with
  | .list xs =>
    let cleaned := (xs.filter pyTruthy).map pyStr
    if cleaned.isEmpty then fallback else cleaned.take 3
  | .str s =>
    if pyStrip s ≠ "" then
      let parts := ((s.splitOn ",").map pyStrip).filter (· ≠ "")
      if parts.isEmpty then fallback else parts.take 3
    else fallback
  | _ => fallback

/-- `ScoringEngine._normalize_emotion` (lines 317–338). -/
def normalizeEmotion (v : PyVal) (fallback : String) : String :=
  match v with
  | .str s =>
    let cleaned := pyLower (pyStrip s)
    if EMOTION_OPTIONS.contains cleaned then cleaned
    else
      match EMOTION_SYNONYMS.lookup cleaned with
      | some mapped => mapped
      | Option.none => if EMOTION_OPTIONS.contains fallback then fallback else "neutral"
  | _ => if EMOTION_OPTIONS.contains fallback then fallback else "neutral"

/-- Boolean test deciding whether `_normalize_emotion` finds a direct or
synonym match for a raw value (the complement of the claim's
"neither one of the 9 closed-vocabulary values nor a key of the synonym
table, or non-string"). -/
def emotionMatchable (v : PyVal) : Bool :=
  match v with
  | .str s =>
    let cleaned := pyLower (pyStrip s)
    EMOTION_OPTIONS.contains cleaned || (EMOTION_SYNONYMS.lookup cleaned).isSome
  | _ => false

/-! ## ScoringEngine: payload normalization (`_payload_from_llm`) -/

/-- Round-half-to-even to the nearest integer (Python `round` semantics on
exact values). -/
def roundHalfEven (q : ℚ) : ℤ :=
  let f := ⌊q⌋
  let frac := q - f
  if frac < 1 / 2 then f
  else if frac > 1 / 2 then f + 1
  else if f % 2 = 0 then f else f + 1

/-- Python `round(x, 2)` on the exact rational embedding. -/
def round2 (q : ℚ) : ℚ := (roundHalfEven (q * 100) : ℚ) / 100

/-- The heuristic feature dictionary produced by `_heuristic_nlp`, as consumed
by `_payload_from_llm` (field values arbitrary here; `_payload_from_llm` is
quantified over them). -/
structure HeuristicFeatures where
  semantic_similarity_score : ℚ
  intent_score : ℚ
  interest_score : ℚ
  emotion_score : ℚ
  sentiment : Sentiment
  tone : String
  key_topics : List String
  key_entities : List String
  intent_type : String
  interest_topics : List String
  emotion_type : String

/-- The dictionary returned by `_payload_from_llm` (and stored by
`score_video`). Fields the code passes through raw `or`-expressions keep the
untyped `PyVal` type. -/
structure ScorePayload where
  semantic_similarity_score : ℚ
  intent_score : ℚ
  interest_score : ℚ
  emotion_score : ℚ
  intent_type : PyVal
  interest_topics : List String
  emotion_type : String
  contextual_score : ℚ
  brand_safety_status : BrandSafetyStatus
  brand_suitability : BrandSuitability
  sentiment : Sentiment
  tone : PyVal
  key_entities : PyVal
  key_topics : PyVal
  targeting_recommendation : TargetingRecommendation
  suggested_bid_modifier : ℚ
  reasoning : PyVal

/-- `llm_payload.get(key)` (dict lookup, `None` when absent). -/
def payloadGet (p : List (String × PyVal)) (k : String) : PyVal :=
  (p.lookup k).getD .none

/-- `llm_payload.get(key, default)`. -/
def payloadGetD (p : List (String × PyVal)) (k : String) (d : PyVal) : PyVal :=
  (p.lookup k).getD d

/-- `ScoringEngine._build_reasoning_placeholder` (string contents abridged;
no claim depends on the exact text). -/
def buildReasoningPlaceholder (contextual_score : ℚ)
    (recommendation : TargetingRecommendation) : String :=
  "Contextual score " ++ toString contextual_score ++ " justifies " ++
    recommendation.value ++
    " based on semantic overlap, intent alignment, and emotional fit."

/-- `ScoringEngine._payload_from_llm` (lines 437–509). The only statement in
the body that can raise is the bare
`float(llm_payload.get("suggested_bid_modifier", 1.0))` on line 480 (every
other numeric field goes through the guarded `_coerce_float`); that raise is
embedded as `Except.error ()`. -/
def payloadFromLLM (llm_payload : List (String × PyVal))
    (heuristic : HeuristicFeatures) : Except Unit ScorePayload :=
  let semantic := coerceFloat (payloadGet llm_payload "semantic_similarity_score")
    heuristic.semantic_similarity_score 0 1
  let intent := coerceFloat (payloadGet llm_payload "intent_score")
    heuristic.intent_score 0 1
  let interest := coerceFloat (payloadGet llm_payload "interest_score")
    heuristic.interest_score 0 1
  let emotion := coerceFloat (payloadGet llm_payload "emotion_score")
    heuristic.emotion_score 0 1
  let contextual := coerceFloat (payloadGet llm_payload "contextual_score")
    (semantic * 0.4 + intent * 0.25 + interest * 0.2 + emotion * 0.15) 0 1
  let brand_safety :=
    (enumValue [BrandSafetyStatus.safe, .review, .notSafe] BrandSafetyStatus.value
      (payloadGet llm_payload "brand_safety_status")).getD .safe
  let sentiment :=
    (enumValue [Sentiment.positive, .neutral, .negative] Sentiment.value
      (payloadGet llm_payload "sentiment")).getD heuristic.sentiment
  let brand_suitability :=
    (enumValue [BrandSuitability.high, .medium, .low] BrandSuitability.value
      (payloadGet llm_payload "brand_suitability")).getD
      (determineBrandSuitability contextual brand_safety sentiment)
  let rec? :=
    enumValue [TargetingRecommendation.strongMatch, .moderateMatch, .weakMatch, .avoid]
      TargetingRecommendation.value (payloadGet llm_payload "targeting_recommendation")
  match pyFloat (payloadGetD llm_payload "suggested_bid_modifier" (.num 1)) with
  | Option.none => .error ()
  | some bid0 =>
    let recBid : TargetingRecommendation × ℚ :=
      match rec? with
      | Option.none => determineRecommendation contextual brand_suitability brand_safety
      | some r => (r, bid0)
    let intentTypeVal := payloadGet llm_payload "intent_type"
    let toneVal := payloadGet llm_payload "tone"
    let keyEntitiesVal := payloadGet llm_payload "key_entities"
    let keyTopicsVal := payloadGet llm_payload "key_topics"
    let reasoningVal := payloadGet llm_payload "reasoning"
    .ok
      { semantic_similarity_score := semantic
        intent_score := intent
        interest_score := interest
        emotion_score := emotion
        intent_type :=
          if pyTruthy intentTypeVal then intentTypeVal else .str heuristic.intent_type
        interest_topics :=
          coerceTopics (payloadGet llm_payload "interest_topics") heuristic.interest_topics
        emotion_type :=
          normalizeEmotion (payloadGet llm_payload "emotion_type") heuristic.emotion_type
        contextual_score := contextual
        brand_safety_status := brand_safety
        brand_suitability := brand_suitability
        sentiment := sentiment
        tone := if pyTruthy toneVal then toneVal else .str heuristic.tone
        key_entities :=
          if pyTruthy keyEntitiesVal then keyEntitiesVal
          else .list (heuristic.key_entities.map .str)
        key_topics :=
          if pyTruthy keyTopicsVal then keyTopicsVal
          else .list (heuristic.key_topics.map .str)
        targeting_recommendation := recBid.1
        suggested_bid_modifier := round2 (max 0 (min 2 recBid.2))
        reasoning :=
          if pyTruthy reasoningVal then reasoningVal
          else .str (buildReasoningPlaceholder contextual recBid.1) }

/-! ## score_video persistence upsert (lines 646–686) -/

/-- One row of the `video_scores` table relevant to the upsert: the
`(campaign_id, video_id)` key, the stored payload, and `scored_at`. -/
structure ScoreRecord where
  campaign_id : ℕ
  video_id : ℕ
  payload : ScorePayload
  scored_at : ℕ

/-- The filter `VideoScore.video_id == video.id, VideoScore.campaign_id ==
campaign.id`. -/
def scoreMatches (c v : ℕ) (r : ScoreRecord) : Bool :=
  r.video_id == v && r.campaign_id == c

/-- Overwrite every payload field and `scored_at` on the first matching
record (the `setattr` loop of `score_video`). -/
def updateFirst (store : List ScoreRecord) (c v : ℕ) (p : ScorePayload)
    (now : ℕ) : List ScoreRecord :=
  match store with
  | [] => []
  | r :: rest =>
    if scoreMatches c v r then { r with payload := p, scored_at := now } :: rest
    else r :: updateFirst rest c v p now

/-- The sequential semantics of the `score_video` persistence step: query the
first record for the `(campaign, video)` pair; overwrite it in place when
present, insert a fresh record otherwise. (The `IntegrityError` retry branch
only fires on a concurrent first-insert race, which cannot occur in this
sequential embedding.) -/
def upsertScore (store : List ScoreRecord) (c v : ℕ) (p : ScorePayload)
    (now : ℕ) : List ScoreRecord :=
  if (store.find? (scoreMatches c v)).isSome then updateFirst store c v p now
  else store ++ [⟨c, v, p, now⟩]

/-! ## Batch scoring (`batch_score_videos` in api/routers/scoring.py) -/

/-- One success entry of the batch response. -/
structure BatchEntry where
  video_id : String
  contextual_score : ℚ
  brand_suitability : BrandSuitability
deriving DecidableEq, Repr

/-- One error entry of the batch response. -/
structure BatchErrorEntry where
  video_id : String
  error : String
deriving DecidableEq, Repr

/-- The `data` object of the batch response. -/
structure BatchData where
  results : List BatchEntry
  errors : List BatchErrorEntry
deriving DecidableEq, Repr

/-- The loop of `batch_score_videos`: each video id is resolved and scored
independently (`scoreOf` bundles `_get_video` + `score_video`, either of
which may raise); an exception is caught and recorded as an error entry and
the loop continues with the remaining ids. -/
def batchScoreVideos (video_ids : List String)
    (scoreOf : String → Except String (ℚ × BrandSuitability)) : BatchData :=
  match video_ids with
  | [] => ⟨[], []⟩
  | vid :: rest =>
    let r := batchScoreVideos rest scoreOf
    match scoreOf vid with
    | .ok (c, s) => ⟨⟨vid, c, s⟩ :: r.results, r.errors⟩
    | .error e => ⟨r.results, ⟨vid, e⟩ :: r.errors⟩

/-- A batch scorer used for the concrete three-video scenario: the second
video raises a provider error, the others succeed. -/
def sampleBatchScorer : String → Except String (ℚ × BrandSuitability) :=
  fun vid =>
    if vid = "video2" then .error "provider error"
    else .ok (1 / 2, .high)

/-- Whether a per-video scoring call succeeded. -/
def exceptIsOk : Except String (ℚ × BrandSuitability) → Bool
  | .ok _ => true
  | .error _ => false

/-- A concrete heuristic feature set used as a test vector. -/
def sampleHeuristic : HeuristicFeatures :=
  ⟨1 / 2, 1 / 2, 1 / 2, 1 / 2, .neutral, "analytical and balanced",
    ["tech"], ["phone"], "commercial", ["tech"], "joyful"⟩

/-- A concrete stored payload used as a test vector. -/
def samplePayloadA : ScorePayload :=
  ⟨1 / 4, 1 / 4, 1 / 4, 1 / 4, .str "commercial", ["tech"], "joyful", 1 / 4,
    .safe, .medium, .neutral, .str "analytical and balanced", .list [],
    .list [], .weakMatch, 9 / 10, .str "first run"⟩

/-- A second concrete payload, distinct from `samplePayloadA`. -/
def samplePayloadB : ScorePayload :=
  ⟨3 / 4, 3 / 4, 3 / 4, 3 / 4, .str "informational", ["news"], "excited",
    3 / 4, .review, .high, .positive, .str "warm and conversational",
    .list [], .list [], .strongMatch, 27 / 20, .str "second run"⟩

/-! ## Keyword rotation selector
(`YouTubeService._select_keywords_for_rotation`, youtube_service.py 59–190) -/

/-- A `Keyword` row as used by the selector. `total_results` embeds
`kw.total_results or 0`; `last_fetched_at` embeds
`kw.last_fetched_at or datetime.min` as an ordinal (0 = never fetched). -/
structure Keyword where
  id : ℕ
  keyword_type : KeywordType
  total_results : ℕ
  last_fetched_at : ℕ
  relevance_score : ℚ
deriving DecidableEq, Repr

/-- Ascending comparison on the priority key
`(total_results, last_fetched_at, -relevance_score)`
(`keyword_priority_key`). -/
def keywordPriorityLe (a b : Keyword) : Bool :=
  decide (a.total_results < b.total_results ∨
    (a.total_results = b.total_results ∧
      (a.last_fetched_at < b.last_fetched_at ∨
        (a.last_fetched_at = b.last_fetched_at ∧
          -a.relevance_score ≤ -b.relevance_score))))

/-- `keywords_by_type[t]` before sorting (defaultdict filled in input
order). -/
def bucketOf (keywords : List Keyword) (t : KeywordType) : List Keyword :=
  keywords.filter (fun kw => kw.keyword_type == t)

/-- `keywords_by_type[t]` after the stable ascending sort by
`keyword_priority_key`. -/
def sortedBucket (keywords : List Keyword) (t : KeywordType) : List Keyword :=
  (bucketOf keywords t).mergeSort keywordPriorityLe

/-- `ordered_types = [CORE, RELATED, INTENT_BASED, LONG_TAIL]`. -/
def orderedTypes : List KeywordType := [.core, .related, .intentBased, .longTail]

/-- `available_types`: the ordered types with a non-empty bucket.
(`extra_types` is always empty because `ordered_types` lists every
`KeywordType` member.) -/
def availableTypes (keywords : List Keyword) : List KeywordType :=
  orderedTypes.filter (fun t => !(bucketOf keywords t).isEmpty)

/-- `normalized_weights`: uniform `1/len(available_types)` when the clamped
weight sum is non-positive, else `max(weights[t], 0) / positive_weight_sum`.
A weight map omitting a type is embedded as `weights t = 0`
(`weights.get(kw_type, 0.0)`). -/
def normalizedWeights (keywords : List Keyword) (weights : KeywordType → ℚ) :
    KeywordType → ℚ :=
  let avail := availableTypes keywords
  let S := (avail.map (fun t => max (weights t) 0)).sum
  if S ≤ 0 then fun _ => 1 / (avail.length : ℚ)
  else fun t => max (weights t) 0 / S

/-- `desired = max_keyword_budget * normalized_weights.get(kw_type, 0.0)`. -/
def desiredShare (keywords : List Keyword) (weights : KeywordType → ℚ)
    (budget : ℕ) (t : KeywordType) : ℚ :=
  (budget : ℚ) * normalizedWeights keywords weights t

/-- `base_take = min(len(keywords_by_type[kw_type]), int(desired))`
(truncation toward zero equals the floor for the non-negative `desired`).
Types outside `available_types` have empty buckets, hence base 0. -/
def baseAlloc (keywords : List Keyword) (weights : KeywordType → ℚ)
    (budget : ℕ) : KeywordType → ℕ :=
  fun t => min (bucketOf keywords t).length
    (⌊desiredShare keywords weights budget t⌋.toNat)

/-- The `fractional_allocation` list `[(desired - base_take, kw_type), ...]`
built over `available_types`. -/
def fracList (keywords : List Keyword) (weights : KeywordType → ℚ)
    (budget : ℕ) : List (ℚ × KeywordType) :=
  (availableTypes keywords).map fun t =>
    (desiredShare keywords weights budget t - (baseAlloc keywords weights budget t : ℚ), t)

/-- Descending tuple comparison used by
`fractional_allocation.sort(reverse=True)`: Python compares the
`(fraction, KeywordType)` tuples, the second component by its enum value
string. -/
def fracGe (a b : ℚ × KeywordType) : Bool :=
  decide (b.1 < a.1) || (decide (a.1 = b.1) && !decide (a.2.value < b.2.value))

/-- Pointwise increment of an allocation map. -/
def bumpAlloc (alloc : KeywordType → ℕ) (t : KeywordType) : KeywordType → ℕ :=
  Function.update alloc t (alloc t + 1)

/-- The remainder-distribution `while` loop (lines 134–143): cycle over the
sorted fractional list, incrementing a type's allocation when its bucket has
spare capacity, until the slots or the iteration budget
(`max(len(fractional_allocation) * 5, 1)`) run out. `fuel` is the number of
iterations left. -/
def remainderLoop (fa : List (ℚ × KeywordType)) (capacity : KeywordType → ℕ) :
    ℕ → ℕ → ℕ → (KeywordType → ℕ) → (KeywordType → ℕ) × ℕ
  | 0, _, remaining, alloc => (alloc, remaining)
  | fuel + 1, idx, remaining, alloc =>
    if remaining = 0 ∨ fa.isEmpty then (alloc, remaining)
    else
      let t := ((fa.get? (idx % fa.length)).getD (0, .core)).2
      if alloc t < capacity t then
        remainderLoop fa capacity fuel (idx + 1) (remaining - 1) (bumpAlloc alloc t)
      else
        remainderLoop fa capacity fuel (idx + 1) remaining alloc

/-- Allocation state after the base assignment plus the remainder loop
(lines 118–143): returns the allocation map and the remaining slot count. -/
def allocAfterRemainder (keywords : List Keyword) (weights : KeywordType → ℚ)
    (budget : ℕ) : (KeywordType → ℕ) × ℕ :=
  let base := baseAlloc keywords weights budget
  let assigned := ((availableTypes keywords).map base).sum
  let remaining := budget - assigned
  if 0 < remaining then
    let fa := (fracList keywords weights budget).mergeSort fracGe
    remainderLoop fa (fun t => (bucketOf keywords t).length)
      (max (5 * fa.length) 1) 0 remaining base
  else (base, remaining)

/-- Descending comparison by `(normalized weight, bucket size)` used by the
graceful-fallback `sorted(..., reverse=True)` (lines 147–151). -/
def fallbackGe (keywords : List Keyword) (weights : KeywordType → ℚ)
    (a b : KeywordType) : Bool :=
  let nw := normalizedWeights keywords weights
  decide (nw b < nw a) ||
    (decide (nw a = nw b) &&
      decide ((bucketOf keywords b).length ≤ (bucketOf keywords a).length))

/-- `prioritized_types` of the graceful fallback. -/
def prioritizedTypes (keywords : List Keyword) (weights : KeywordType → ℚ) :
    List KeywordType :=
  (availableTypes keywords).mergeSort (fallbackGe keywords weights)

/-- The graceful-fallback fill (lines 146–155): walk the prioritized types,
giving each as many of the remaining slots as its bucket capacity allows. -/
def fallbackFill (capacity : KeywordType → ℕ) :
    List KeywordType → (KeywordType → ℕ) → ℕ → (KeywordType → ℕ) × ℕ
  | [], alloc, remaining => (alloc, remaining)
  | t :: rest, alloc, remaining =>
    let give := min remaining (capacity t - alloc t)
    fallbackFill capacity rest (Function.update alloc t (alloc t + give))
      (remaining - give)

/-- The complete per-type allocation computed by lines 108–155 (base
assignment, remainder loop, graceful fallback). -/
def finalAlloc (keywords : List Keyword) (weights : KeywordType → ℚ)
    (budget : ℕ) : KeywordType → ℕ :=
  let st := allocAfterRemainder keywords weights budget
  if 0 < st.2 then
    (fallbackFill (fun t => (bucketOf keywords t).length)
      (prioritizedTypes keywords weights) st.1 st.2).1
  else st.1

/-- Append a keyword unless its id was already selected (the
`selected_ids` dedup of the selection phase). -/
def addIfNew (selected : List Keyword) (kw : Keyword) : List Keyword :=
  if (selected.map Keyword.id).contains kw.id then selected else selected ++ [kw]

/-- The selection phase (lines 158–169): walk `available_types` in order,
taking each sorted bucket's first `min(allocation, len(bucket))` members,
deduplicated by id. -/
def selectPhase (keywords : List Keyword) (alloc : KeywordType → ℕ) :
    List Keyword :=
  (availableTypes keywords).foldl
    (fun sel t =>
      (((sortedBucket keywords t).take
        (min (alloc t) (sortedBucket keywords t).length)).foldl addIfNew sel))
    []

/-- Key order of `keywords_by_type.items()`: the types in order of first
occurrence in the input list. -/
def firstOccurrenceTypes (keywords : List Keyword) : List KeywordType :=
  (keywords.map Keyword.keyword_type).foldl
    (fun acc t => if acc.contains t then acc else acc ++ [t]) []

/-- The top-up loop body (lines 177–185): append leftover keywords not yet
selected until `remaining_needed` reaches zero. -/
def takeNeeded : ℕ → List Keyword → List Keyword → List Keyword
  | _, [], sel => sel
  | need, kw :: rest, sel =>
    if (sel.map Keyword.id).contains kw.id then takeNeeded need rest sel
    else if need ≤ 1 then sel ++ [kw]
    else takeNeeded (need - 1) rest (sel ++ [kw])

/-- The top-up phase (lines 171–185): when the selection fell short of the
budget, fill from the per-bucket leftovers re-sorted by priority key. -/
def topUp (keywords : List Keyword) (alloc : KeywordType → ℕ) (budget : ℕ)
    (selected : List Keyword) : List Keyword :=
  if selected.length < budget then
    let leftovers :=
      ((firstOccurrenceTypes keywords).flatMap
        fun t => (sortedBucket keywords t).drop (alloc t)).mergeSort
        keywordPriorityLe
    takeNeeded (budget - selected.length) leftovers selected
  else selected

/-- `YouTubeService._select_keywords_for_rotation`: returns the selected
keywords and the selection-mix summary, or the message of the `ValueError`
the Python code raises. -/
def selectKeywordsForRotation (keywords : List Keyword)
    (max_keyword_budget : ℕ) (weights : KeywordType → ℚ) :
    Except String (List Keyword × (KeywordType → ℕ)) :=
  if keywords.isEmpty then .error "No active keywords found for campaign"
  else
    let budget := min keywords.length max_keyword_budget
    if budget = 0 then .error "No eligible keywords available for selection"
    else if (availableTypes keywords).isEmpty then
      .error "Unable to select keywords for fetch request"
    else
      let alloc := finalAlloc keywords weights budget
      let selected := topUp keywords alloc budget (selectPhase keywords alloc)
      if selected.isEmpty then .error "Unable to select keywords for fetch request"
      else
        .ok (selected,
          fun t => (selected.filter (fun kw => kw.keyword_type == t)).length)

/-- A concrete keyword list used as a test vector (three core, two related,
one intent-based keyword, pairwise-distinct ids). -/
def sampleKeywords : List Keyword :=
  [⟨0, .core, 5, 3, 9 / 10⟩, ⟨1, .core, 0, 7, 1 / 2⟩, ⟨2, .core, 0, 7, 4 / 5⟩,
   ⟨3, .related, 2, 1, 3 / 10⟩, ⟨4, .related, 0, 0, 1 / 2⟩,
   ⟨5, .intentBased, 0, 0, 1 / 4⟩]

/-- A concrete weight map used as a test vector. -/
def sampleWeights : KeywordType → ℚ :=
  fun t => match t with
  | .core => 1 / 2
  | .related => 1 / 4
  | .intentBased => 1 / 8
  | .longTail => 0

/-- The sample weight map with the core weight raised and all other
weights unchanged. -/
def sampleWeightsBoosted : KeywordType → ℚ :=
  fun t => match t with
  | .core => 2
  | .related => 1 / 4
  | .intentBased => 1 / 8
  | .longTail => 0

/-- One core keyword and nine related keywords: the capacity-capped input
refuting the uniform-fallback deviation bound. -/
def skewedKeywords : List Keyword :=
  [⟨0, .core, 0, 0, 1 / 2⟩, ⟨1, .related, 0, 0, 1 / 2⟩,
   ⟨2, .related, 0, 0, 1 / 2⟩, ⟨3, .related, 0, 0, 1 / 2⟩,
   ⟨4, .related, 0, 0, 1 / 2⟩, ⟨5, .related, 0, 0, 1 / 2⟩,
   ⟨6, .related, 0, 0, 1 / 2⟩, ⟨7, .related, 0, 0, 1 / 2⟩,
   ⟨8, .related, 0, 0, 1 / 2⟩, ⟨9, .related, 0, 0, 1 / 2⟩]

/-- Two core and two related keywords: a capacity-respecting uniform-fallback
test vector. -/
def balancedKeywords : List Keyword :=
  [⟨0, .core, 0, 0, 1 / 2⟩, ⟨1, .core, 0, 1, 1 / 2⟩,
   ⟨2, .related, 0, 0, 1 / 2⟩, ⟨3, .related, 0, 1, 1 / 2⟩]

/-! ## Characterization helpers for the remainder loop and fallback fill
These definitions restate the visiting order of the two allocation loops as
explicit data (offer sequences, prefix lists, demand sums) so that the loops
can be reasoned about positionally. -/

/-- One capacity-capped acceptance pass over an explicit offer sequence:
each offered type takes one slot when its bucket still has spare room and
slots remain (the loop body of lines 137–143). -/
def acceptOffers (capacity : KeywordType → ℕ) :
    List KeywordType → (KeywordType → ℕ) → ℕ → (KeywordType → ℕ) × ℕ
  | [], alloc, remaining => (alloc, remaining)
  | t :: rest, alloc, remaining =>
    if remaining = 0 then (alloc, remaining)
    else if alloc t < capacity t then
      acceptOffers capacity rest (bumpAlloc alloc t) (remaining - 1)
    else acceptOffers capacity rest alloc remaining

/-- The cyclic sequence of types the remainder loop visits, starting at
index `idx`, for a given iteration budget. -/
def offerSeq (fa : List (ℚ × KeywordType)) : ℕ → ℕ → List KeywordType
  | _, 0 => []
  | idx, fuel + 1 =>
    ((fa.get? (idx % fa.length)).getD (0, KeywordType.core)).2 ::
      offerSeq fa (idx + 1) fuel

/-- The loop-plus-fallback composite on explicit orders: `M` full passes
over the cycle order `p`, then the fallback fill in order `fb`. -/
def phases (capacity : KeywordType → ℕ) (p fb : List KeywordType) (M : ℕ)
    (base : KeywordType → ℕ) (rem : ℕ) : (KeywordType → ℕ) × ℕ :=
  let st := acceptOffers capacity (List.replicate M p).flatten base rem
  fallbackFill capacity fb st.1 st.2

/-- Total acceptance demand of `c` passes: each type can take one slot per
pass while its spare room lasts. -/
def cycleDemand (p : List KeywordType) (capacity base : KeywordType → ℕ)
    (c : ℕ) : ℕ :=
  (p.map (fun t => min (capacity t - base t) c)).sum

/-- The types listed strictly before `t0`. -/
def predTypes (P : List KeywordType) (t0 : KeywordType) : List KeywordType :=
  P.takeWhile (fun u => !(u == t0))

/-- How many types before `t0` in the order `p` satisfy `pr`. -/
def rankOf (p : List KeywordType) (t0 : KeywordType)
    (pr : KeywordType → Bool) : ℕ :=
  (predTypes p t0).countP pr

/-! # Theorems -/

/-! ## C4: recommendation decision table -/

/-- C4: for every contextual score, brand suitability and brand safety
status, `_determine_recommendation` is exactly the §4.4 ordered rule table
evaluated first-match-wins; in particular `(0.85, HIGH, SAFE)` gives
`(STRONG_MATCH, 1.35)` and `(0.3, LOW, SAFE)` gives `(AVOID, 0.0)`. -/
theorem determine_recommendation_is_rule_table :
    (∀ (c : ℚ) (s : BrandSuitability) (b : BrandSafetyStatus),
      determineRecommendation c s b = recommendationRuleTable c s b) ∧
    determineRecommendation 0.85 .high .safe = (.strongMatch, 1.35) ∧
    determineRecommendation 0.3 .low .safe = (.avoid, 0) := by
  refine ⟨fun c s b => ?_, by with_unfolding_all decide,
    by with_unfolding_all decide⟩
  unfold determineRecommendation recommendationRuleTable
  cases s <;> cases b <;> simp [ge_iff_le]

/-! ## C5: heuristic emotion score -/

/-- C5 counterexample: on a video text with zero positive and zero negative
lexicon hits (e.g. `"zzz"`), the code's `total_hits = positive + negative or
1` makes the emotion score `(0+1)/(1+1) = 1/2`, while the claimed formula
`clamp((p+1)/(p+n+1), 0.1, 1.0)` gives `1`. -/
theorem heuristic_emotion_score_zero_hit_counterexample :
    heuristicEmotionScore "zzz" = 1 / 2 ∧ claimedEmotionScore "zzz" = 1 ∧
    heuristicEmotionScore "zzz" ≠ claimedEmotionScore "zzz" := by
  refine ⟨by with_unfolding_all decide, by with_unfolding_all decide,
    by with_unfolding_all decide⟩

/-- C5 amended: the heuristic emotion score equals
`clamp((positive_hits+1) / (max(positive_hits+negative_hits, 1) + 1),
floor 0.1, ceiling 1.0)` — the denominator uses
`max(positive_hits+negative_hits, 1) + 1`, not
`positive_hits+negative_hits+1`; the two only differ when both hit counts
are zero, where the code yields 1/2. -/
theorem heuristic_emotion_score_formula (videoText : String) :
    heuristicEmotionScore videoText =
      min 1 (max (1 / 10)
        (((positiveHits (tokenize videoText) : ℚ) + 1) /
          ((max (positiveHits (tokenize videoText) +
            negativeHits (tokenize videoText)) 1 : ℕ) + 1))) := by
  simp only [heuristicEmotionScore]
  rcases Nat.eq_zero_or_pos
      (positiveHits (tokenize videoText) + negativeHits (tokenize videoText)) with h | h
  · rw [if_pos h, h]
    norm_num
  · rw [if_neg (Nat.pos_iff_ne_zero.mp h), Nat.max_eq_left h]

/-! ## C9: emotion-type normalization fallback -/

/-- C9 counterexample: an unmatched emotion value does not normalize to
`"neutral"` — it falls back to the caller-supplied heuristic value when that
value is in the closed vocabulary: `_normalize_emotion("grumpy", "joyful") =
"joyful" ≠ "neutral"`. -/
theorem normalize_emotion_unmatched_counterexample :
    normalizeEmotion (.str "grumpy") "joyful" = "joyful" ∧
    normalizeEmotion (.str "grumpy") "joyful" ≠ "neutral" := by
  refine ⟨by decide, by decide⟩

/-- C9 amended: for every raw value that (after trimming and lowercasing)
matches neither the 9-value vocabulary nor a synonym key, and for every
non-string value, `_normalize_emotion` returns the fallback argument when
that fallback is in the vocabulary, else `"neutral"`. -/
theorem normalize_emotion_unmatched (v : PyVal) (fallback : String)
    (h : emotionMatchable v = false) :
    normalizeEmotion v fallback =
      if EMOTION_OPTIONS.contains fallback then fallback else "neutral" := by
  cases v with
  | str s =>
    simp only [emotionMatchable, Bool.or_eq_false_iff] at h
    obtain ⟨h1, h2⟩ := h
    cases hl : EMOTION_SYNONYMS.lookup (pyLower (pyStrip s)) with
    | some m => rw [hl] at h2; simp at h2
    | none => simp only [normalizeEmotion, h1, Bool.false_eq_true, if_false, hl]
  | none => rfl
  | bool b => rfl
  | num q => rfl
  | list xs => rfl

/-- Witness for the C9 amended theorem at a concrete non-string input. -/
theorem normalize_emotion_unmatched_witness :
    emotionMatchable (.num 3) = false ∧
    normalizeEmotion (.num 3) "bogus" =
      (if EMOTION_OPTIONS.contains "bogus" then "bogus" else "neutral") :=
  ⟨by decide, normalize_emotion_unmatched (.num 3) "bogus" (by decide)⟩

/-! ## C3: the payload normalizer is not total (code bug) -/

/-- C3: the normalization step is not exception-free — with a payload whose
`suggested_bid_modifier` is the non-numeric string `"abc"`, the bare
`float(...)` on line 480 of `scoring_engine.py` raises (embedded as
`Except.error`), even though every other numeric field goes through the
guarded `_coerce_float`. -/
theorem payload_from_llm_raises_on_nonnumeric_bid :
    payloadFromLLM [("suggested_bid_modifier", .str "abc")] sampleHeuristic =
      .error () := by
  rfl

/-! ## C10: explicit LLM recommendation bypasses the decision table -/

/-- C10: whenever the payload's `targeting_recommendation` matches one of the
four enum values (case-insensitively), the §4.4 table is bypassed: the
recommendation is taken from the payload and the bid modifier is the
payload's `suggested_bid_modifier` (default 1.0 when absent) clamped to
[0, 2] and rounded to 2 decimals; in particular a payload recommending
`"avoid"` without a bid modifier yields `(avoid, 1.0)`, not the table's
`(avoid, 0.0)`. -/
theorem payload_from_llm_recommendation_bypass :
    (∀ (p : List (String × PyVal)) (h : HeuristicFeatures)
        (r : TargetingRecommendation) (q : ℚ),
      enumValue [TargetingRecommendation.strongMatch, .moderateMatch, .weakMatch, .avoid]
          TargetingRecommendation.value (payloadGet p "targeting_recommendation") = some r →
      pyFloat (payloadGetD p "suggested_bid_modifier" (.num 1)) = some q →
      ∃ out, payloadFromLLM p h = .ok out ∧
        out.targeting_recommendation = r ∧
        out.suggested_bid_modifier = round2 (max 0 (min 2 q))) ∧
    (∃ out,
      payloadFromLLM [("targeting_recommendation", .str "avoid")] sampleHeuristic =
        .ok out ∧
      out.targeting_recommendation = .avoid ∧ out.suggested_bid_modifier = 1) := by
  constructor
  · intro p h r q h1 h2
    simp only [payloadFromLLM, h1, h2]
    exact ⟨_, rfl, rfl, rfl⟩
  · exact ⟨_, rfl, rfl, by with_unfolding_all decide⟩

/-- Witness for C10 at a concrete payload carrying both keys. -/
theorem payload_from_llm_recommendation_bypass_witness :
    ∃ out,
      payloadFromLLM
        [("targeting_recommendation", .str " Moderate_Match "),
         ("suggested_bid_modifier", .num (3 / 2))] sampleHeuristic = .ok out ∧
      out.targeting_recommendation = .moderateMatch ∧
      out.suggested_bid_modifier = round2 (max 0 (min 2 (3 / 2))) :=
  payload_from_llm_recommendation_bypass.1 _ sampleHeuristic .moderateMatch
    (3 / 2) (by decide) rfl

/-! ## C8: batch isolation -/

/-- C8: the batch loop processes every video independently — a failure on one
video is recorded as an error entry while all other videos are still
processed, the response carries both lists, and with 3 ids where the second
raises a provider error the result holds 2 successes and 1 error. -/
theorem batch_score_videos_isolation :
    (∀ (ids : List String) (scoreOf : String → Except String (ℚ × BrandSuitability)),
      (batchScoreVideos ids scoreOf).results.length +
        (batchScoreVideos ids scoreOf).errors.length = ids.length ∧
      (batchScoreVideos ids scoreOf).results.map BatchEntry.video_id =
        ids.filter (fun vid => exceptIsOk (scoreOf vid)) ∧
      (batchScoreVideos ids scoreOf).errors.map BatchErrorEntry.video_id =
        ids.filter (fun vid => !exceptIsOk (scoreOf vid))) ∧
    (batchScoreVideos ["video1", "video2", "video3"] sampleBatchScorer).results.length = 2 ∧
    (batchScoreVideos ["video1", "video2", "video3"] sampleBatchScorer).errors =
      [⟨"video2", "provider error"⟩] := by
  refine ⟨fun ids scoreOf => ?_, by with_unfolding_all decide,
    by with_unfolding_all decide⟩
  induction ids with
  | nil => exact ⟨rfl, rfl, rfl⟩
  | cons vid rest ih =>
    obtain ⟨ih1, ih2, ih3⟩ := ih
    cases hv : scoreOf vid with
    | ok val =>
      obtain ⟨c, s⟩ := val
      refine ⟨?_, ?_, ?_⟩ <;>
        simp [batchScoreVideos, hv, exceptIsOk, ih1, ih2, ih3, List.filter_cons]
      omega
    | error e =>
      refine ⟨?_, ?_, ?_⟩ <;>
        simp [batchScoreVideos, hv, exceptIsOk, ih1, ih2, ih3, List.filter_cons]
      omega

/-! ## Selector lemmas: sums and weights -/

/-- Summing a constant over a list. -/
theorem list_sum_map_const {α : Type} (L : List α) (c : ℚ) :
    (L.map (fun _ => c)).sum = L.length * c := by
  induction L with
  | nil => simp
  | cons a rest ih => simp [ih]; ring

/-- Division distributes over a list sum. -/
theorem list_sum_map_div {α : Type} (L : List α) (f : α → ℚ) (c : ℚ) :
    (L.map (fun t => f t / c)).sum = (L.map f).sum / c := by
  induction L with
  | nil => simp
  | cons a rest ih => simp [ih, add_div]

/-- Multiplication by a constant distributes over a list sum. -/
theorem list_sum_map_mul {α : Type} (L : List α) (f : α → ℚ) (c : ℚ) :
    (L.map (fun t => c * f t)).sum = c * (L.map f).sum := by
  induction L with
  | nil => simp
  | cons a rest ih => simp [ih, mul_add]

/-- Dropping zero-valued entries does not change a sum. -/
theorem list_sum_filter_of_zero {α : Type} (L : List α) (p : α → Bool)
    (f : α → ℕ) (h : ∀ t ∈ L, p t = false → f t = 0) :
    ((L.filter p).map f).sum = (L.map f).sum := by
  induction L with
  | nil => rfl
  | cons a rest ih =>
    have ih' := ih (fun t ht => h t (List.mem_cons_of_mem a ht))
    cases ha : p a with
    | true => simp [List.filter_cons, ha, ih']
    | false => simp [List.filter_cons, ha, ih', h a (List.mem_cons_self a rest)]

/-- Updating a map at one element of a duplicate-free list shifts its sum by
the update amount. -/
theorem sum_map_update_add (T : List KeywordType) (hT : T.Nodup)
    (f : KeywordType → ℕ) (t₀ : KeywordType) (ht : t₀ ∈ T) (v : ℕ) :
    (T.map (Function.update f t₀ (f t₀ + v))).sum = (T.map f).sum + v := by
  induction T with
  | nil => cases ht
  | cons t rest ih =>
    rcases List.mem_cons.mp ht with rfl | hmem
    · have hrest : t₀ ∉ rest := (List.nodup_cons.mp hT).1
      have : rest.map (Function.update f t₀ (f t₀ + v)) = rest.map f :=
        List.map_congr_left fun x hx =>
          Function.update_noteq (fun (hxt : x = t₀) => hrest (hxt ▸ hx)) _ f
      simp [this, Function.update_same]
      omega
    · have hne : t ≠ t₀ := fun he => (List.nodup_cons.mp hT).1 (he ▸ hmem)
      have ihr := ih (List.nodup_cons.mp hT).2 hmem
      simp [Function.update_noteq hne, ihr]
      omega

/-- Every keyword type occurs in `ordered_types`. -/
theorem mem_orderedTypes (t : KeywordType) : t ∈ orderedTypes := by
  cases t <;> decide

/-- `available_types` has no duplicates. -/
theorem availableTypes_nodup (kws : List Keyword) :
    (availableTypes kws).Nodup :=
  List.Nodup.filter _ (by decide)

/-- Membership in `available_types` is exactly non-emptiness of the type's
bucket. -/
theorem mem_availableTypes (kws : List Keyword) (t : KeywordType) :
    t ∈ availableTypes kws ↔ bucketOf kws t ≠ [] := by
  simp [availableTypes, List.mem_filter, mem_orderedTypes,
    List.isEmpty_iff]

/-- A keyword belongs to the bucket of its own type. -/
theorem mem_bucketOf_self (kws : List Keyword) (kw : Keyword)
    (h : kw ∈ kws) : kw ∈ bucketOf kws kw.keyword_type := by
  simp [bucketOf, List.mem_filter, h]

/-- `available_types` is non-empty whenever the keyword list is. -/
theorem availableTypes_ne_nil (kws : List Keyword) (h : kws ≠ []) :
    availableTypes kws ≠ [] := by
  obtain ⟨kw, rest, rfl⟩ := List.exists_cons_of_ne_nil h
  intro hav
  have : kw.keyword_type ∈ availableTypes (kw :: rest) :=
    (mem_availableTypes _ _).mpr
      (List.ne_nil_of_mem (mem_bucketOf_self _ kw (List.mem_cons_self kw rest)))
  simp [hav] at this

/-- The bucket lengths over `ordered_types` partition the keyword count. -/
theorem sum_bucket_lengths_ordered (kws : List Keyword) :
    (orderedTypes.map (fun t => (bucketOf kws t).length)).sum = kws.length := by
  induction kws with
  | nil => rfl
  | cons kw rest ih =>
    simp only [orderedTypes, List.map_cons, List.map_nil, List.sum_cons,
      List.sum_nil, bucketOf] at ih ⊢
    cases h : kw.keyword_type <;>
      simp [List.filter_cons, h] <;> omega

/-- The bucket lengths over `available_types` sum to the keyword count. -/
theorem sum_bucket_lengths (kws : List Keyword) :
    ((availableTypes kws).map (fun t => (bucketOf kws t).length)).sum =
      kws.length := by
  unfold availableTypes
  rw [list_sum_filter_of_zero _ _ _ ?_, sum_bucket_lengths_ordered]
  intro t _ hp
  have hp' : (bucketOf kws t).isEmpty = true := by
    cases hb : (bucketOf kws t).isEmpty <;> simp [hb] at hp ⊢
  simp [List.isEmpty_iff.mp hp']

/-- Normalized weights are non-negative. -/
theorem normalizedWeights_nonneg (kws : List Keyword) (w : KeywordType → ℚ)
    (t : KeywordType) : 0 ≤ normalizedWeights kws w t := by
  unfold normalizedWeights
  split
  · positivity
  · next hS =>
    have : (0 : ℚ) < ((availableTypes kws).map (fun t => max (w t) 0)).sum :=
      lt_of_not_le hS
    exact div_nonneg (le_max_right _ _) (le_of_lt this)

/-- Normalized weights sum to 1 over the available types. -/
theorem sum_normalizedWeights (kws : List Keyword) (w : KeywordType → ℚ)
    (h : availableTypes kws ≠ []) :
    ((availableTypes kws).map (normalizedWeights kws w)).sum = 1 := by
  unfold normalizedWeights
  by_cases hS : ((availableTypes kws).map (fun t => max (w t) 0)).sum ≤ 0
  · rw [if_pos hS, list_sum_map_const]
    have hlen : ((availableTypes kws).length : ℚ) ≠ 0 := by
      simpa using h
    field_simp
  · rw [if_neg hS, list_sum_map_div, div_self (fun h0 => hS (le_of_eq h0))]

/-- The base allocation never exceeds the bucket capacity. -/
theorem baseAlloc_le_cap (kws : List Keyword) (w : KeywordType → ℚ) (b : ℕ)
    (t : KeywordType) : baseAlloc kws w b t ≤ (bucketOf kws t).length :=
  Nat.min_le_left _ _

/-- The base allocations sum to at most the budget. -/
theorem sum_baseAlloc_le (kws : List Keyword) (w : KeywordType → ℚ) (b : ℕ)
    (h : availableTypes kws ≠ []) :
    ((availableTypes kws).map (baseAlloc kws w b)).sum ≤ b := by
  have step1 : ((availableTypes kws).map (baseAlloc kws w b)).sum ≤
      ((availableTypes kws).map
        (fun t => (⌊desiredShare kws w b t⌋.toNat))).sum :=
    List.sum_le_sum fun t _ => Nat.min_le_right _ _
  have hnn : ∀ t, (0 : ℚ) ≤ desiredShare kws w b t := fun t =>
    mul_nonneg (Nat.cast_nonneg b) (normalizedWeights_nonneg kws w t)
  have step2 : (((availableTypes kws).map
      (fun t => (⌊desiredShare kws w b t⌋.toNat))).sum : ℚ) ≤ (b : ℚ) := by
    rw [Nat.cast_list_sum, List.map_map]
    have hle : ((availableTypes kws).map
        ((fun n : ℕ => (n : ℚ)) ∘ fun t => (⌊desiredShare kws w b t⌋.toNat))).sum ≤
        ((availableTypes kws).map (desiredShare kws w b)).sum := by
      apply List.sum_le_sum
      intro t _
      simp only [Function.comp]
      have hfl : (0 : ℤ) ≤ ⌊desiredShare kws w b t⌋ :=
        Int.floor_nonneg.mpr (hnn t)
      have hcast : ((⌊desiredShare kws w b t⌋.toNat : ℕ) : ℚ) =
          ((⌊desiredShare kws w b t⌋ : ℤ) : ℚ) := by
        exact_mod_cast congrArg (fun z : ℤ => (z : ℚ))
          (Int.toNat_of_nonneg hfl)
      rw [hcast]
      exact Int.floor_le _
    have hsum : ((availableTypes kws).map (desiredShare kws w b)).sum = b := by
      unfold desiredShare
      rw [list_sum_map_mul, sum_normalizedWeights kws w h, mul_one]
    rw [hsum] at hle
    exact hle
  have := step2
  rw [← Nat.cast_le (α := ℚ)]
  exact le_trans (by exact_mod_cast step1) step2

/-! ## Selector lemmas: the remainder loop and the fallback fill -/

/-- The entry the remainder loop inspects is a member of the fractional
list. -/
theorem remainderLoop_entry_mem (fa : List (ℚ × KeywordType)) (idx : ℕ)
    (hlen : 0 < fa.length) :
    (fa.get? (idx % fa.length)).getD (0, KeywordType.core) ∈ fa := by
  have hlt : idx % fa.length < fa.length := Nat.mod_lt _ hlen
  rw [List.get?_eq_get hlt]
  simpa using List.get_mem fa _

/-- Invariant of the remainder-distribution loop: capacities are respected,
the allocated total plus the remaining slots is conserved, and types outside
`T` are untouched. -/
theorem remainderLoop_invariant (fa : List (ℚ × KeywordType))
    (cap : KeywordType → ℕ) (T : List KeywordType) (hT : T.Nodup)
    (hfa : ∀ e ∈ fa, e.2 ∈ T) :
    ∀ (fuel idx rem : ℕ) (alloc : KeywordType → ℕ),
      (∀ t, alloc t ≤ cap t) →
      (∀ t, (remainderLoop fa cap fuel idx rem alloc).1 t ≤ cap t) ∧
      ((T.map (remainderLoop fa cap fuel idx rem alloc).1).sum +
        (remainderLoop fa cap fuel idx rem alloc).2 = (T.map alloc).sum + rem) ∧
      (∀ t, t ∉ T → (remainderLoop fa cap fuel idx rem alloc).1 t = alloc t) := by
  intro fuel
  induction fuel with
  | zero =>
    intro idx rem alloc hcap
    exact ⟨hcap, rfl, fun _ _ => rfl⟩
  | succ fuel ih =>
    intro idx rem alloc hcap
    by_cases hstop : rem = 0 ∨ fa.isEmpty
    · have hred : remainderLoop fa cap (fuel + 1) idx rem alloc = (alloc, rem) := by
        simp only [remainderLoop, if_pos hstop]
      rw [hred]
      exact ⟨hcap, rfl, fun _ _ => rfl⟩
    · have hfane : ¬ fa.isEmpty = true := fun h => hstop (Or.inr h)
      have hlen : 0 < fa.length := by
        cases fa
        · simp at hfane
        · simp
      have hmem := remainderLoop_entry_mem fa idx hlen
      have htT := hfa _ hmem
      simp only [remainderLoop, if_neg hstop]
      by_cases hc : alloc ((fa.get? (idx % fa.length)).getD (0, KeywordType.core)).2 <
          cap ((fa.get? (idx % fa.length)).getD (0, KeywordType.core)).2
      · rw [if_pos hc]
        have hcap' : ∀ t, bumpAlloc alloc
            ((fa.get? (idx % fa.length)).getD (0, KeywordType.core)).2 t ≤ cap t := by
          intro t
          unfold bumpAlloc
          by_cases ht : t = ((fa.get? (idx % fa.length)).getD (0, KeywordType.core)).2
          · subst ht
            rw [Function.update_same]
            omega
          · rw [Function.update_noteq ht]
            exact hcap t
        obtain ⟨i1, i2, i3⟩ := ih (idx + 1) (rem - 1)
          (bumpAlloc alloc ((fa.get? (idx % fa.length)).getD (0, KeywordType.core)).2) hcap'
        refine ⟨i1, ?_, ?_⟩
        · rw [i2]
          have hrem : rem ≠ 0 := fun h => hstop (Or.inl h)
          have hsum := sum_map_update_add T hT alloc
            ((fa.get? (idx % fa.length)).getD (0, KeywordType.core)).2 htT 1
          unfold bumpAlloc
          omega
        · intro t htn
          rw [i3 t htn]
          apply Function.update_noteq
          intro h
          rw [h] at htn
          exact htn htT
      · rw [if_neg hc]
        exact ih (idx + 1) rem alloc hcap

/-- Invariant of the graceful-fallback fill: capacities are respected, the
total is conserved, untouched types keep their allocation, the remaining
count never grows, and afterwards either no slot remains or every visited
type is at capacity. -/
theorem fallbackFill_invariant (cap : KeywordType → ℕ) (T : List KeywordType)
    (hT : T.Nodup) :
    ∀ (P : List KeywordType), P.Nodup → (∀ t ∈ P, t ∈ T) →
    ∀ (alloc : KeywordType → ℕ) (rem : ℕ), (∀ t, alloc t ≤ cap t) →
      (∀ t, (fallbackFill cap P alloc rem).1 t ≤ cap t) ∧
      ((T.map (fallbackFill cap P alloc rem).1).sum +
        (fallbackFill cap P alloc rem).2 = (T.map alloc).sum + rem) ∧
      (∀ t, t ∉ P → (fallbackFill cap P alloc rem).1 t = alloc t) ∧
      (fallbackFill cap P alloc rem).2 ≤ rem ∧
      ((fallbackFill cap P alloc rem).2 = 0 ∨
        ∀ t ∈ P, (fallbackFill cap P alloc rem).1 t = cap t) := by
  intro P
  induction P with
  | nil =>
    intro _ _ alloc rem hcap
    exact ⟨hcap, rfl, fun _ _ => rfl, le_refl rem,
      Or.inr (fun t ht => absurd ht (List.not_mem_nil t))⟩
  | cons t₀ rest ih =>
    intro hP hPT alloc rem hcap
    simp only [fallbackFill]
    set g := min rem (cap t₀ - alloc t₀) with hg
    have hgive_le_rem : g ≤ rem := Nat.min_le_left _ _
    have hgive_le_cap : g ≤ cap t₀ - alloc t₀ := Nat.min_le_right _ _
    have hcap' : ∀ t, Function.update alloc t₀ (alloc t₀ + g) t ≤ cap t := by
      intro t
      by_cases ht : t = t₀
      · subst ht
        rw [Function.update_same]
        have hct := hcap t
        omega
      · rw [Function.update_noteq ht]
        exact hcap t
    obtain ⟨i1, i2, i3, i4, i5⟩ := ih (List.nodup_cons.mp hP).2
      (fun t ht => hPT t (List.mem_cons_of_mem _ ht))
      (Function.update alloc t₀ (alloc t₀ + g)) (rem - g) hcap'
    have ht₀T : t₀ ∈ T := hPT t₀ (List.mem_cons_self _ _)
    have hsum := sum_map_update_add T hT alloc t₀ ht₀T g
    refine ⟨i1, ?_, ?_, ?_, ?_⟩
    · rw [i2]
      omega
    · intro t htn
      have htr : t ∉ rest := fun h => htn (List.mem_cons_of_mem _ h)
      rw [i3 t htr]
      apply Function.update_noteq
      intro h
      rw [h] at htn
      exact htn (List.mem_cons_self t₀ rest)
    · have hb : rem - g ≤ rem := Nat.sub_le _ _
      omega
    · rcases i5 with h0 | hall
      · exact Or.inl h0
      · by_cases hres : (fallbackFill cap rest
            (Function.update alloc t₀ (alloc t₀ + g)) (rem - g)).2 = 0
        · exact Or.inl hres
        · refine Or.inr (fun t ht => ?_)
          rcases List.mem_cons.mp ht with rfl | hmem
          · have ht₀rest : t ∉ rest := (List.nodup_cons.mp hP).1
            rw [i3 t ht₀rest, Function.update_same]
            by_cases hge : cap t - alloc t ≤ rem
            · have hgc : g = cap t - alloc t := Nat.min_eq_right hge
              have hct := hcap t
              omega
            · exfalso
              have hgr : g = rem := by
                rw [hg]
                exact Nat.min_eq_left (by omega)
              omega
          · exact hall t hmem

/-- Every fractional-list entry's type is an available type. -/
theorem fracList_snd_mem (kws : List Keyword) (w : KeywordType → ℚ) (b : ℕ) :
    ∀ e ∈ (fracList kws w b).mergeSort fracGe, e.2 ∈ availableTypes kws := by
  intro e he
  rw [List.mem_mergeSort] at he
  obtain ⟨t, ht, rfl⟩ := List.mem_map.mp he
  exact ht

/-- The allocation after the base assignment and the remainder loop respects
bucket capacities and, together with the leftover slots, accounts exactly
for the budget. -/
theorem allocAfterRemainder_spec (kws : List Keyword) (w : KeywordType → ℚ)
    (b : ℕ) (hne : kws ≠ []) :
    (∀ t, (allocAfterRemainder kws w b).1 t ≤ (bucketOf kws t).length) ∧
    ((availableTypes kws).map (allocAfterRemainder kws w b).1).sum +
      (allocAfterRemainder kws w b).2 = b ∧
    (∀ t, t ∉ availableTypes kws →
      (allocAfterRemainder kws w b).1 t = baseAlloc kws w b t) := by
  have havail := availableTypes_ne_nil kws hne
  have hbase_le := sum_baseAlloc_le kws w b havail
  unfold allocAfterRemainder
  by_cases hrem : 0 < b - ((availableTypes kws).map (baseAlloc kws w b)).sum
  · rw [if_pos hrem]
    obtain ⟨i1, i2, i3⟩ := remainderLoop_invariant
      ((fracList kws w b).mergeSort fracGe)
      (fun t => (bucketOf kws t).length) (availableTypes kws)
      (availableTypes_nodup kws) (fracList_snd_mem kws w b)
      (max (5 * ((fracList kws w b).mergeSort fracGe).length) 1) 0
      (b - ((availableTypes kws).map (baseAlloc kws w b)).sum)
      (baseAlloc kws w b) (baseAlloc_le_cap kws w b)
    exact ⟨i1, by rw [i2]; omega, i3⟩
  · rw [if_neg hrem]
    refine ⟨baseAlloc_le_cap kws w b, ?_, fun _ _ => rfl⟩
    simp only []
    omega

/-- `prioritized_types` is a permutation of `available_types`. -/
theorem prioritizedTypes_perm (kws : List Keyword) (w : KeywordType → ℚ) :
    List.Perm (prioritizedTypes kws w) (availableTypes kws) :=
  List.mergeSort_perm _ _

/-- The complete allocation of lines 108–155: every bucket capacity is
respected and the allocations over the available types sum to exactly the
budget. -/
theorem finalAlloc_spec (kws : List Keyword) (w : KeywordType → ℚ) (b : ℕ)
    (hne : kws ≠ []) (hble : b ≤ kws.length) :
    (∀ t, finalAlloc kws w b t ≤ (bucketOf kws t).length) ∧
    ((availableTypes kws).map (finalAlloc kws w b)).sum = b := by
  obtain ⟨a1, a2, _⟩ := allocAfterRemainder_spec kws w b hne
  unfold finalAlloc
  by_cases hrem : 0 < (allocAfterRemainder kws w b).2
  · rw [if_pos hrem]
    obtain ⟨i1, i2, i3, i4, i5⟩ := fallbackFill_invariant
      (fun t => (bucketOf kws t).length) (availableTypes kws)
      (availableTypes_nodup kws) (prioritizedTypes kws w)
      ((prioritizedTypes_perm kws w).nodup_iff.mpr (availableTypes_nodup kws))
      (fun t ht => (prioritizedTypes_perm kws w).mem_iff.mp ht)
      (allocAfterRemainder kws w b).1 (allocAfterRemainder kws w b).2 a1
    refine ⟨i1, ?_⟩
    rcases i5 with h0 | hall
    · omega
    · -- every available type is at capacity, so the allocation exhausts the
      -- entire keyword supply, which is at least the budget
      have hfull : ((availableTypes kws).map
          (fallbackFill (fun t => (bucketOf kws t).length)
            (prioritizedTypes kws w) (allocAfterRemainder kws w b).1
            (allocAfterRemainder kws w b).2).1).sum =
          ((availableTypes kws).map (fun t => (bucketOf kws t).length)).sum := by
        rw [List.map_congr_left (fun t ht =>
          hall t ((prioritizedTypes_perm kws w).mem_iff.mpr ht))]
      have hsupply := sum_bucket_lengths kws
      omega
  · rw [if_neg hrem]
    exact ⟨a1, by omega⟩

/-! ## Selector lemmas: the selection phase -/

/-- Members of a sorted bucket have the bucket's type and come from the
input list. -/
theorem mem_sortedBucket (kws : List Keyword) (t : KeywordType) (kw : Keyword)
    (h : kw ∈ sortedBucket kws t) : kw.keyword_type = t ∧ kw ∈ kws := by
  unfold sortedBucket at h
  rw [List.mem_mergeSort] at h
  obtain ⟨hm, hp⟩ := List.mem_filter.mp h
  exact ⟨by simpa using hp, hm⟩

/-- A sorted bucket inherits duplicate-free ids from the input list. -/
theorem sortedBucket_ids_nodup (kws : List Keyword) (t : KeywordType)
    (hids : (kws.map Keyword.id).Nodup) :
    ((sortedBucket kws t).map Keyword.id).Nodup := by
  have hperm : List.Perm ((sortedBucket kws t).map Keyword.id)
      ((bucketOf kws t).map Keyword.id) :=
    (List.mergeSort_perm _ _).map _
  refine hperm.nodup_iff.mpr ?_
  exact ((List.filter_sublist kws).map Keyword.id).nodup hids

/-- Two keywords of the input list with equal ids are equal. -/
theorem keyword_id_inj (kws : List Keyword)
    (hids : (kws.map Keyword.id).Nodup) {a b : Keyword}
    (ha : a ∈ kws) (hb : b ∈ kws) (hab : a.id = b.id) : a = b :=
  List.inj_on_of_nodup_map hids ha hb hab

/-- The per-type prefixes of the sorted buckets, concatenated in type
order. -/
def bucketTakes (kws : List Keyword) (alloc : KeywordType → ℕ)
    (L : List KeywordType) : List Keyword :=
  (L.map fun t =>
    (sortedBucket kws t).take (min (alloc t) (sortedBucket kws t).length)).flatten

/-- Any member of the concatenated bucket prefixes comes from the input list
and carries one of the listed types. -/
theorem mem_bucketTakes (kws : List Keyword) (alloc : KeywordType → ℕ)
    (L : List KeywordType) (kw : Keyword) (h : kw ∈ bucketTakes kws alloc L) :
    ∃ t ∈ L, kw.keyword_type = t ∧ kw ∈ kws := by
  unfold bucketTakes at h
  obtain ⟨l', hl', hkw⟩ := List.mem_flatten.mp h
  obtain ⟨t, ht, rfl⟩ := List.mem_map.mp hl'
  have hb := mem_sortedBucket kws t kw (List.mem_of_mem_take hkw)
  exact ⟨t, ht, hb.1, hb.2⟩

/-- With globally distinct ids and distinct types, the concatenated bucket
prefixes have duplicate-free ids. -/
theorem bucketTakes_ids_nodup (kws : List Keyword) (alloc : KeywordType → ℕ)
    (hids : (kws.map Keyword.id).Nodup) :
    ∀ (L : List KeywordType), L.Nodup →
    ((bucketTakes kws alloc L).map Keyword.id).Nodup := by
  intro L
  induction L with
  | nil =>
    intro _
    simp [bucketTakes]
  | cons t rest ih =>
    intro hL
    simp only [bucketTakes, List.map_cons, List.flatten_cons, List.map_append]
    rw [List.nodup_append]
    refine ⟨?_, ih (List.nodup_cons.mp hL).2, ?_⟩
    · exact List.Nodup.sublist
        (((sortedBucket kws t).take_sublist _).map Keyword.id)
        (sortedBucket_ids_nodup kws t hids)
    · intro x hx hx'
      obtain ⟨kw, hkw, rfl⟩ := List.mem_map.mp hx
      obtain ⟨kw', hkw', hid⟩ := List.mem_map.mp hx'
      obtain ⟨ht1, hmem1⟩ := mem_sortedBucket kws t kw
        (List.mem_of_mem_take hkw)
      obtain ⟨t', ht', ht2, hmem2⟩ := mem_bucketTakes kws alloc rest kw'
        (by simpa [bucketTakes] using hkw')
      have heq : kw' = kw := keyword_id_inj kws hids hmem2 hmem1 hid
      rw [heq, ht1] at ht2
      subst ht2
      exact (List.nodup_cons.mp hL).1 ht'

/-- When no id repeats, the dedup-append fold is a plain append. -/
theorem foldl_addIfNew (L : List Keyword) : ∀ (sel : List Keyword),
    ((sel ++ L).map Keyword.id).Nodup → L.foldl addIfNew sel = sel ++ L := by
  induction L with
  | nil =>
    intro sel _
    simp
  | cons kw rest ih =>
    intro sel h
    have hnotin : kw.id ∉ sel.map Keyword.id := by
      rw [List.map_append, List.nodup_append] at h
      intro hin
      exact h.2.2 hin (by simp)
    have hstep : addIfNew sel kw = sel ++ [kw] := by
      unfold addIfNew
      rw [if_neg]
      simpa using hnotin
    rw [List.foldl_cons, hstep, ih (sel ++ [kw]) (by rwa [← List.append_cons])]
    rw [← List.append_cons]

/-- The selection phase (lines 158–169) emits exactly the concatenated bucket
prefixes whenever ids never collide. -/
theorem selectPhase_go (kws : List Keyword) (alloc : KeywordType → ℕ) :
    ∀ (L : List KeywordType) (sel : List Keyword),
      ((sel ++ bucketTakes kws alloc L).map Keyword.id).Nodup →
      L.foldl (fun sel t =>
        (((sortedBucket kws t).take
          (min (alloc t) (sortedBucket kws t).length)).foldl addIfNew sel)) sel =
        sel ++ bucketTakes kws alloc L := by
  intro L
  induction L with
  | nil =>
    intro sel _
    simp [bucketTakes]
  | cons t rest ih =>
    intro sel h
    have hBT : bucketTakes kws alloc (t :: rest) =
        (sortedBucket kws t).take (min (alloc t) (sortedBucket kws t).length) ++
        bucketTakes kws alloc rest := by
      simp [bucketTakes]
    rw [hBT, ← List.append_assoc] at h
    have hhead : ((sortedBucket kws t).take
        (min (alloc t) (sortedBucket kws t).length)).foldl addIfNew sel =
        sel ++ (sortedBucket kws t).take
          (min (alloc t) (sortedBucket kws t).length) :=
      foldl_addIfNew _ sel
        (List.Nodup.sublist
          ((List.sublist_append_left _ _).map Keyword.id) h)
    rw [List.foldl_cons, hhead, ih _ h, hBT, List.append_assoc]

/-- The selection phase output under globally distinct ids. -/
theorem selectPhase_eq_bucketTakes (kws : List Keyword)
    (alloc : KeywordType → ℕ) (hids : (kws.map Keyword.id).Nodup) :
    selectPhase kws alloc = bucketTakes kws alloc (availableTypes kws) := by
  unfold selectPhase
  have h := selectPhase_go kws alloc (availableTypes kws) []
    (by simpa using bucketTakes_ids_nodup kws alloc hids _ (availableTypes_nodup kws))
  simpa using h

/-- Length of the selection phase output: exactly the summed allocation. -/
theorem selectPhase_length (kws : List Keyword) (alloc : KeywordType → ℕ)
    (hids : (kws.map Keyword.id).Nodup)
    (hcap : ∀ t, alloc t ≤ (bucketOf kws t).length) :
    (selectPhase kws alloc).length = ((availableTypes kws).map alloc).sum := by
  rw [selectPhase_eq_bucketTakes kws alloc hids]
  unfold bucketTakes
  rw [List.length_flatten, List.map_map]
  congr 1
  apply List.map_congr_left
  intro t _
  simp only [Function.comp_apply, List.length_take]
  have hlen : (sortedBucket kws t).length = (bucketOf kws t).length := by
    simp [sortedBucket]
  have h1 : min (alloc t) ((bucketOf kws t).length) = alloc t :=
    Nat.min_eq_left (hcap t)
  rw [hlen, h1, h1]

/-- C2: for every non-empty keyword list with pairwise-distinct ids and every
budget `0 < b ≤ |keywords|`, `_select_keywords_for_rotation` succeeds and
returns a selection of exactly `b` keywords with pairwise-distinct ids. -/
theorem select_keywords_budget_conservation (kws : List Keyword) (b : ℕ)
    (w : KeywordType → ℚ) (hne : kws ≠ [])
    (hids : (kws.map Keyword.id).Nodup) (hb : 0 < b) (hble : b ≤ kws.length) :
    ∃ sel mix, selectKeywordsForRotation kws b w = .ok (sel, mix) ∧
      sel.length = b ∧ (sel.map Keyword.id).Nodup := by
  obtain ⟨hcap, hsum⟩ := finalAlloc_spec kws w b hne hble
  have hlen : (selectPhase kws (finalAlloc kws w b)).length = b := by
    rw [selectPhase_length kws _ hids hcap, hsum]
  have hnodup :
      ((selectPhase kws (finalAlloc kws w b)).map Keyword.id).Nodup := by
    rw [selectPhase_eq_bucketTakes kws _ hids]
    exact bucketTakes_ids_nodup kws _ hids _ (availableTypes_nodup kws)
  have htop : topUp kws (finalAlloc kws w b) b
      (selectPhase kws (finalAlloc kws w b)) =
      selectPhase kws (finalAlloc kws w b) := by
    unfold topUp
    rw [if_neg]
    rw [hlen]
    exact lt_irrefl b
  have hempty : kws.isEmpty = false := by
    cases kws
    · exact absurd rfl hne
    · rfl
  have hmin : min kws.length b = b := Nat.min_eq_right hble
  have havailne : (availableTypes kws).isEmpty = false := by
    cases hav : availableTypes kws
    · exact absurd hav (availableTypes_ne_nil kws hne)
    · rfl
  have hselne : (selectPhase kws (finalAlloc kws w b)).isEmpty = false := by
    cases hs : selectPhase kws (finalAlloc kws w b)
    · rw [hs] at hlen
      simp at hlen
      omega
    · rfl
  refine ⟨selectPhase kws (finalAlloc kws w b),
    (fun t => ((selectPhase kws (finalAlloc kws w b)).filter
      (fun kw => kw.keyword_type == t)).length), ?_, hlen, hnodup⟩
  simp only [selectKeywordsForRotation, hempty, Bool.false_eq_true, if_false,
    hmin]
  rw [if_neg (Nat.pos_iff_ne_zero.mp hb)]
  simp only [havailne, Bool.false_eq_true, if_false]
  rw [htop]
  simp only [hselne, Bool.false_eq_true, if_false]


/-- Witness for C2 at a concrete keyword list, budget and weight map. -/
theorem select_keywords_budget_conservation_witness :
    ∃ sel mix,
      selectKeywordsForRotation sampleKeywords 5 sampleWeights = .ok (sel, mix) ∧
      sel.length = 5 ∧ (sel.map Keyword.id).Nodup :=
  select_keywords_budget_conservation sampleKeywords 5 sampleWeights
    (by simp [sampleKeywords]) (by decide) (by decide) (by decide)

/-! ## Selector lemmas: the first pass of the remainder loop -/

/-- Summing a constant natural over a list. -/
theorem list_sum_map_const_nat {α : Type} (L : List α) (c : ℕ) :
    (L.map (fun _ => c)).sum = L.length * c := by
  induction L with
  | nil => simp
  | cons a rest ih => simp [ih, Nat.succ_mul, Nat.add_comm]

/-- When the remaining slot count fits into the rest of the fractional list
and every touched bucket has spare capacity, the remainder loop terminates
within its first pass, giving one extra slot to each of the next `rem`
entries. -/
theorem remainderLoop_first_pass (fa : List (ℚ × KeywordType))
    (cap : KeywordType → ℕ) (hnd : (fa.map Prod.snd).Nodup) :
    ∀ (rem idx fuel : ℕ) (alloc : KeywordType → ℕ),
      idx + rem ≤ fa.length → rem ≤ fuel →
      (∀ e ∈ (fa.drop idx).take rem, alloc e.2 < cap e.2) →
      (remainderLoop fa cap fuel idx rem alloc).2 = 0 ∧
      ∀ t, (remainderLoop fa cap fuel idx rem alloc).1 t =
        if t ∈ ((fa.drop idx).take rem).map Prod.snd then alloc t + 1
        else alloc t := by
  intro rem
  induction rem with
  | zero =>
    intro idx fuel alloc _ _ _
    cases fuel with
    | zero => exact ⟨rfl, fun t => by simp [remainderLoop]⟩
    | succ fl =>
      have hred : remainderLoop fa cap (fl + 1) idx 0 alloc = (alloc, 0) := by
        simp [remainderLoop]
      rw [hred]
      exact ⟨rfl, fun t => by simp⟩
  | succ r ih =>
    intro idx fuel alloc hidx hfuel hcap
    obtain ⟨fl, rfl⟩ : ∃ fl, fuel = fl + 1 := ⟨fuel - 1, by omega⟩
    have hlt : idx < fa.length := by omega
    have hfane : fa.isEmpty = false := by
      cases fa
      · simp at hlt
      · rfl
    have hentry : (fa.get? (idx % fa.length)).getD (0, KeywordType.core) =
        fa[idx] := by
      rw [Nat.mod_eq_of_lt hlt, List.get?_eq_getElem?,
        List.getElem?_eq_getElem hlt]
      rfl
    have hseg : (fa.drop idx).take (r + 1) =
        fa[idx] :: (fa.drop (idx + 1)).take r := by
      rw [List.drop_eq_getElem_cons hlt]
      rfl
    have hcapidx : alloc (fa[idx]).2 < cap (fa[idx]).2 := by
      apply hcap
      rw [hseg]
      exact List.mem_cons_self _ _
    have hsegnd : ((fa[idx] :: (fa.drop (idx + 1)).take r).map Prod.snd).Nodup := by
      rw [← hseg]
      exact List.Nodup.sublist
        ((((fa.drop idx).take_sublist (r + 1)).trans (fa.drop_sublist idx)).map
          Prod.snd) hnd
    have hheadnotin : (fa[idx]).2 ∉ ((fa.drop (idx + 1)).take r).map Prod.snd :=
      (List.nodup_cons.mp (by simpa using hsegnd)).1
    have hstep : remainderLoop fa cap (fl + 1) idx (r + 1) alloc =
        remainderLoop fa cap fl (idx + 1) r (bumpAlloc alloc (fa[idx]).2) := by
      simp only [remainderLoop]
      rw [if_neg (by simp [hfane]), hentry, if_pos hcapidx]
      simp
    have hcap' : ∀ e ∈ (fa.drop (idx + 1)).take r,
        bumpAlloc alloc (fa[idx]).2 e.2 < cap e.2 := by
      intro e he
      have hne : e.2 ≠ (fa[idx]).2 := fun h =>
        hheadnotin (h ▸ List.mem_map_of_mem Prod.snd he)
      unfold bumpAlloc
      rw [Function.update_noteq hne]
      exact hcap e (by rw [hseg]; exact List.mem_cons_of_mem _ he)
    obtain ⟨i1, i2⟩ := ih (idx + 1) fl (bumpAlloc alloc (fa[idx]).2)
      (by omega) (by omega) hcap'
    rw [hstep]
    refine ⟨i1, fun t => ?_⟩
    rw [i2 t, hseg]
    by_cases hthead : t = (fa[idx]).2
    · subst hthead
      rw [if_neg (by simpa using hheadnotin), if_pos (by simp)]
      unfold bumpAlloc
      rw [Function.update_same]
    · have hmem_iff : (t ∈ (fa[idx] :: (fa.drop (idx + 1)).take r).map Prod.snd) ↔
          (t ∈ ((fa.drop (idx + 1)).take r).map Prod.snd) := by
        simp only [List.map_cons, List.mem_cons]
        exact ⟨fun h => h.resolve_left hthead, Or.inr⟩
      have hbump : bumpAlloc alloc (fa[idx]).2 t = alloc t := by
        unfold bumpAlloc
        exact Function.update_noteq hthead _ _
      by_cases htm : t ∈ ((fa.drop (idx + 1)).take r).map Prod.snd
      · rw [if_pos htm, if_pos (hmem_iff.mpr htm), hbump]
      · rw [if_neg htm, if_neg (fun h => htm (hmem_iff.mp h)), hbump]

/-! ## C6: uniform fallback -/

/-- C6 counterexample: on one core keyword plus nine related keywords with
budget 10 and an all-zero weight map, the code allocates (1, 9) while the
uniform share is 5 per category — the related category deviates by 4, so the
claimed "at most 1" bound fails on capacity-capped buckets. -/
theorem uniform_fallback_counterexample :
    (availableTypes skewedKeywords).length = 2 ∧
    finalAlloc skewedKeywords (fun _ => 0) 10 .core = 1 ∧
    finalAlloc skewedKeywords (fun _ => 0) 10 .related = 9 ∧
    ¬ (∀ t ∈ availableTypes skewedKeywords,
        |(finalAlloc skewedKeywords (fun _ => 0) 10 t : ℚ) -
          (10 : ℚ) / ((availableTypes skewedKeywords).length : ℚ)| ≤ 1) := by
  refine ⟨by with_unfolding_all decide, by with_unfolding_all decide,
    by with_unfolding_all decide, by with_unfolding_all decide⟩

/-- C6 amended: with a weight map that is non-positive on every present
category, selection proceeds with the uniform normalized weight `1/k` over
the `k` present categories, and — provided every present category's bucket
can hold its uniform share (`b ≤ k·|bucket|`, i.e. `⌈b/k⌉ ≤ |bucket|`) —
each present category's allocated count differs from `b/k` by at most 1.
(Without the capacity hypothesis the bound fails, see the counterexample.) -/
theorem uniform_fallback_allocation (kws : List Keyword) (b : ℕ)
    (w : KeywordType → ℚ) (hne : kws ≠ []) (hb : 0 < b)
    (hble : b ≤ kws.length)
    (hzero : ∀ t ∈ availableTypes kws, w t ≤ 0)
    (hcapb : ∀ t ∈ availableTypes kws,
      b ≤ (availableTypes kws).length * (bucketOf kws t).length) :
    (∀ t, normalizedWeights kws w t =
      1 / ((availableTypes kws).length : ℚ)) ∧
    (∀ t ∈ availableTypes kws,
      |(finalAlloc kws w b t : ℚ) -
        (b : ℚ) / ((availableTypes kws).length : ℚ)| ≤ 1) := by
  have havail : availableTypes kws ≠ [] := availableTypes_ne_nil kws hne
  have hkpos : 0 < (availableTypes kws).length := List.length_pos.mpr havail
  have hS : ((availableTypes kws).map (fun t => max (w t) 0)).sum = 0 := by
    rw [List.map_congr_left (fun t ht => max_eq_right (hzero t ht))]
    rw [list_sum_map_const]
    ring
  have hunif : normalizedWeights kws w =
      fun _ => 1 / ((availableTypes kws).length : ℚ) := by
    unfold normalizedWeights
    rw [if_pos (le_of_eq hS)]
  refine ⟨fun t => by rw [hunif], ?_⟩
  have hdm : (availableTypes kws).length * (b / (availableTypes kws).length) +
      b % (availableTypes kws).length = b := Nat.div_add_mod b _
  have hmk : b % (availableTypes kws).length < (availableTypes kws).length :=
    Nat.mod_lt b hkpos
  have hq0 : ((b / (availableTypes kws).length : ℕ) : ℚ) ≤
      (b : ℚ) / ((availableTypes kws).length : ℚ) := by
    rw [le_div_iff (by exact_mod_cast hkpos)]
    exact_mod_cast Nat.div_mul_le_self b _
  have hq1 : (b : ℚ) / ((availableTypes kws).length : ℚ) <
      ((b / (availableTypes kws).length : ℕ) : ℚ) + 1 := by
    rw [div_lt_iff (by exact_mod_cast hkpos)]
    have hlt : b < (availableTypes kws).length *
        (b / (availableTypes kws).length) + (availableTypes kws).length := by
      omega
    calc (b : ℚ) < (((availableTypes kws).length *
          (b / (availableTypes kws).length) +
          (availableTypes kws).length : ℕ) : ℚ) := by exact_mod_cast hlt
      _ = (((b / (availableTypes kws).length : ℕ) : ℚ) + 1) *
          ((availableTypes kws).length : ℚ) := by push_cast; ring
  have hfloor : ⌊(b : ℚ) / ((availableTypes kws).length : ℚ)⌋ =
      ((b / (availableTypes kws).length : ℕ) : ℤ) := by
    rw [Int.floor_eq_iff]
    constructor
    · exact_mod_cast hq0
    · exact_mod_cast hq1
  have hdesired : ∀ t, desiredShare kws w b t =
      (b : ℚ) / ((availableTypes kws).length : ℚ) := by
    intro t
    unfold desiredShare
    rw [hunif, mul_one_div]
  have hcapf : ∀ t ∈ availableTypes kws,
      b / (availableTypes kws).length ≤ (bucketOf kws t).length :=
    fun t ht => Nat.div_le_of_le_mul (hcapb t ht)
  have hbase : ∀ t ∈ availableTypes kws,
      baseAlloc kws w b t = b / (availableTypes kws).length := by
    intro t ht
    unfold baseAlloc
    rw [hdesired, hfloor, Int.toNat_natCast]
    exact Nat.min_eq_right (hcapf t ht)
  have hsumb : ((availableTypes kws).map (baseAlloc kws w b)).sum =
      (availableTypes kws).length * (b / (availableTypes kws).length) := by
    rw [List.map_congr_left hbase, list_sum_map_const_nat]
  have hremval : b - ((availableTypes kws).map (baseAlloc kws w b)).sum =
      b % (availableTypes kws).length := by
    rw [hsumb]
    omega
  have hbound : ∀ n : ℕ, (n = b / (availableTypes kws).length ∨
      n = b / (availableTypes kws).length + 1) →
      |(n : ℚ) - (b : ℚ) / ((availableTypes kws).length : ℚ)| ≤ 1 := by
    intro n hn
    rw [abs_le]
    rcases hn with rfl | rfl
    · constructor <;> push_cast <;> linarith
    · constructor <;> push_cast <;> linarith
  by_cases hm0 : b % (availableTypes kws).length = 0
  · have hA : allocAfterRemainder kws w b = (baseAlloc kws w b, 0) := by
      unfold allocAfterRemainder
      rw [if_neg (by omega), hremval, hm0]
    have hF : finalAlloc kws w b = baseAlloc kws w b := by
      unfold finalAlloc
      rw [hA]
      simp
    intro t ht
    rw [hF, hbase t ht]
    exact hbound _ (Or.inl rfl)
  · have hfalen : ((fracList kws w b).mergeSort fracGe).length =
        (availableTypes kws).length := by
      rw [List.length_mergeSort]
      unfold fracList
      rw [List.length_map]
    have hfand : (((fracList kws w b).mergeSort fracGe).map Prod.snd).Nodup := by
      have hperm : List.Perm
          (((fracList kws w b).mergeSort fracGe).map Prod.snd)
          ((fracList kws w b).map Prod.snd) :=
        (List.mergeSort_perm _ _).map _
      have hsnd : (fracList kws w b).map Prod.snd = availableTypes kws := by
        unfold fracList
        rw [List.map_map]
        have hid : (Prod.snd ∘ fun t =>
            (desiredShare kws w b t - (baseAlloc kws w b t : ℚ), t)) =
            (id : KeywordType → KeywordType) := rfl
        rw [hid, List.map_id]
      rw [hperm.nodup_iff, hsnd]
      exact availableTypes_nodup kws
    have hcapfa : ∀ e ∈ (((fracList kws w b).mergeSort fracGe).drop 0).take
        (b % (availableTypes kws).length),
        baseAlloc kws w b e.2 < (bucketOf kws e.2).length := by
      intro e he
      rw [List.drop_zero] at he
      have hemem := List.mem_of_mem_take he
      have h2 : e.2 ∈ availableTypes kws := fracList_snd_mem kws w b e hemem
      rw [hbase e.2 h2]
      rcases Nat.lt_or_ge (b / (availableTypes kws).length)
          ((bucketOf kws e.2).length) with h | h
      · exact h
      · exfalso
        have hcapeq : (bucketOf kws e.2).length =
            b / (availableTypes kws).length := le_antisymm h (hcapf e.2 h2)
        have hcb := hcapb e.2 h2
        rw [hcapeq] at hcb
        omega
    obtain ⟨hp2, hp1⟩ := remainderLoop_first_pass
      ((fracList kws w b).mergeSort fracGe)
      (fun t => (bucketOf kws t).length) hfand
      (b % (availableTypes kws).length) 0
      (max (5 * ((fracList kws w b).mergeSort fracGe).length) 1)
      (baseAlloc kws w b) (by rw [hfalen]; omega)
      (le_trans (by rw [hfalen]; omega) (le_max_left _ _)) hcapfa
    have hA : allocAfterRemainder kws w b =
        remainderLoop ((fracList kws w b).mergeSort fracGe)
          (fun t => (bucketOf kws t).length)
          (max (5 * ((fracList kws w b).mergeSort fracGe).length) 1) 0
          (b % (availableTypes kws).length) (baseAlloc kws w b) := by
      unfold allocAfterRemainder
      rw [if_pos (by omega), hremval]
    have hF : ∀ t, finalAlloc kws w b t =
        (remainderLoop ((fracList kws w b).mergeSort fracGe)
          (fun t => (bucketOf kws t).length)
          (max (5 * ((fracList kws w b).mergeSort fracGe).length) 1) 0
          (b % (availableTypes kws).length) (baseAlloc kws w b)).1 t := by
      intro t
      unfold finalAlloc
      rw [hA, hp2]
      simp
    intro t ht
    rw [hF, hp1 t]
    by_cases hmem : t ∈ ((((fracList kws w b).mergeSort fracGe).drop 0).take
        (b % (availableTypes kws).length)).map Prod.snd
    · rw [if_pos hmem, hbase t ht]
      exact hbound _ (Or.inr rfl)
    · rw [if_neg hmem, hbase t ht]
      exact hbound _ (Or.inl rfl)

/-- Witness for the C6 amended theorem at a concrete balanced input. -/
theorem uniform_fallback_allocation_witness :
    (∀ t, normalizedWeights balancedKeywords (fun _ => 0) t =
      1 / ((availableTypes balancedKeywords).length : ℚ)) ∧
    (∀ t ∈ availableTypes balancedKeywords,
      |(finalAlloc balancedKeywords (fun _ => 0) 3 t : ℚ) -
        (3 : ℚ) / ((availableTypes balancedKeywords).length : ℚ)| ≤ 1) :=
  uniform_fallback_allocation balancedKeywords 3 (fun _ => 0)
    (by simp [balancedKeywords]) (by decide) (by decide)
    (fun t _ => le_refl 0) (by with_unfolding_all decide)

/-! ## C1: idempotent score upsert -/

/-- The freshly keyed record matches its own key. -/
theorem scoreMatches_mk (c v : ℕ) (p : ScorePayload) (t : ℕ) :
    scoreMatches c v ⟨c, v, p, t⟩ = true := by
  simp [scoreMatches]

/-- A matching record carries exactly the key's ids. -/
theorem scoreMatches_eq_ids {c v : ℕ} {r : ScoreRecord}
    (h : scoreMatches c v r = true) : r.campaign_id = c ∧ r.video_id = v := by
  simp only [scoreMatches, Bool.and_eq_true, beq_iff_eq] at h
  exact ⟨h.2, h.1⟩

/-- Overwriting all payload fields and the timestamp of a matching record
yields exactly the fresh record for the key. -/
theorem scoreMatches_overwrite {c v : ℕ} {r : ScoreRecord} (p : ScorePayload)
    (t : ℕ) (h : scoreMatches c v r = true) :
    ({ r with payload := p, scored_at := t } : ScoreRecord) = ⟨c, v, p, t⟩ := by
  obtain ⟨h1, h2⟩ := scoreMatches_eq_ids h
  cases r
  simp_all

/-- `updateFirst` preserves the number of matching records. -/
theorem updateFirst_countP (store : List ScoreRecord) (c v : ℕ)
    (p : ScorePayload) (t : ℕ) :
    (updateFirst store c v p t).countP (scoreMatches c v) =
      store.countP (scoreMatches c v) := by
  induction store with
  | nil => rfl
  | cons r rest ih =>
    by_cases h : scoreMatches c v r
    · simp [updateFirst, h, List.countP_cons, scoreMatches_overwrite p t h,
        scoreMatches_mk]
    · simp [updateFirst, h, List.countP_cons, ih]

/-- On a store holding exactly one matching record, `updateFirst` leaves
exactly the overwritten record as the key's content. -/
theorem updateFirst_filter (store : List ScoreRecord) (c v : ℕ)
    (p : ScorePayload) (t : ℕ)
    (h : store.countP (scoreMatches c v) = 1) :
    (updateFirst store c v p t).filter (scoreMatches c v) = [⟨c, v, p, t⟩] := by
  induction store with
  | nil => simp at h
  | cons r rest ih =>
    by_cases hr : scoreMatches c v r
    · have hrest : rest.countP (scoreMatches c v) = 0 := by
        rw [List.countP_cons, hr, if_pos rfl] at h
        omega
      have hfilter : rest.filter (scoreMatches c v) = [] :=
        List.filter_eq_nil_iff.mpr (List.countP_eq_zero.mp hrest)
      simp [updateFirst, hr, scoreMatches_overwrite p t hr, List.filter_cons,
        scoreMatches_mk, hfilter]
    · have hrest : rest.countP (scoreMatches c v) = 1 := by
        rw [List.countP_cons, if_neg hr] at h
        omega
      simp [updateFirst, hr, List.filter_cons, ih hrest]

/-- After an upsert against a store holding at most one record for the key,
the store holds exactly one record for the key. -/
theorem upsertScore_countP (store : List ScoreRecord) (c v : ℕ)
    (p : ScorePayload) (t : ℕ)
    (h : store.countP (scoreMatches c v) ≤ 1) :
    (upsertScore store c v p t).countP (scoreMatches c v) = 1 := by
  unfold upsertScore
  by_cases hf : (store.find? (scoreMatches c v)).isSome
  · rw [if_pos hf, updateFirst_countP]
    obtain ⟨r, hmem, hr⟩ := List.find?_isSome.mp hf
    have hpos : 0 < store.countP (scoreMatches c v) :=
      List.countP_pos_iff.mpr ⟨r, hmem, hr⟩
    omega
  · rw [if_neg hf]
    have h0 : store.countP (scoreMatches c v) = 0 := by
      rw [List.countP_eq_zero]
      intro a ha hpa
      exact hf (List.find?_isSome.mpr ⟨a, ha, hpa⟩)
    simp [List.countP_append, h0, List.countP_cons, scoreMatches_mk]

/-- C1: after any two successive `score_video` persistence steps for the same
`(campaign, video)` pair against a store holding at most one record for the
pair (the database uniqueness constraint), the store holds exactly one record
for the pair, and that record carries the second call's full payload and
timestamp — the second write replaces the first, never duplicating. -/
theorem score_video_upsert_idempotent (store : List ScoreRecord) (c v : ℕ)
    (p₁ p₂ : ScorePayload) (t₁ t₂ : ℕ)
    (h : store.countP (scoreMatches c v) ≤ 1) :
    (upsertScore (upsertScore store c v p₁ t₁) c v p₂ t₂).filter
      (scoreMatches c v) = [⟨c, v, p₂, t₂⟩] := by
  have h1 := upsertScore_countP store c v p₁ t₁ h
  have hsome : ((upsertScore store c v p₁ t₁).find? (scoreMatches c v)).isSome := by
    rw [List.find?_isSome]
    have hpos1 : 0 < (upsertScore store c v p₁ t₁).countP (scoreMatches c v) := by
      omega
    obtain ⟨a, ha, hpa⟩ := List.countP_pos_iff.mp hpos1
    exact ⟨a, ha, hpa⟩
  conv_lhs => rw [upsertScore, if_pos hsome]
  exact updateFirst_filter _ c v p₂ t₂ h1

/-- Witness for C1 on the empty store with two concrete payloads. -/
theorem score_video_upsert_idempotent_witness :
    (([] : List ScoreRecord).countP (scoreMatches 1 2) ≤ 1) ∧
    (upsertScore (upsertScore [] 1 2 samplePayloadA 10) 1 2 samplePayloadB 20).filter
      (scoreMatches 1 2) = [⟨1, 2, samplePayloadB, 20⟩] :=
  ⟨by simp,
    score_video_upsert_idempotent [] 1 2 samplePayloadA samplePayloadB 10 20
      (by simp)⟩

/-! ## C7 groundwork: the remainder loop as an offer sequence -/

/-- With no slots left, an acceptance pass changes nothing. -/
theorem acceptOffers_rem_zero (cap : KeywordType → ℕ) :
    ∀ (l : List KeywordType) (alloc : KeywordType → ℕ),
      acceptOffers cap l alloc 0 = (alloc, 0) := by
  intro l
  induction l with
  | nil => intro alloc; rfl
  | cons t rest ih => intro alloc; simp [acceptOffers]

/-- An acceptance pass over a concatenation is the two passes in
sequence. -/
theorem acceptOffers_append (cap : KeywordType → ℕ) :
    ∀ (l₁ l₂ : List KeywordType) (alloc : KeywordType → ℕ) (rem : ℕ),
      acceptOffers cap (l₁ ++ l₂) alloc rem =
        acceptOffers cap l₂ (acceptOffers cap l₁ alloc rem).1
          (acceptOffers cap l₁ alloc rem).2 := by
  intro l₁
  induction l₁ with
  | nil => intro l₂ alloc rem; rfl
  | cons t rest ih =>
    intro l₂ alloc rem
    by_cases hrem : rem = 0
    · subst hrem
      simp [acceptOffers, acceptOffers_rem_zero]
    · simp only [List.cons_append, acceptOffers, if_neg hrem]
      by_cases hc : alloc t < cap t
      · rw [if_pos hc, if_pos hc]
        exact ih l₂ (bumpAlloc alloc t) (rem - 1)
      · rw [if_neg hc, if_neg hc]
        exact ih l₂ alloc rem

/-- The visiting sequence only depends on the start index modulo the list
length. -/
theorem offerSeq_congr_mod (fa : List (ℚ × KeywordType)) :
    ∀ (fuel idx jdx : ℕ), idx % fa.length = jdx % fa.length →
      offerSeq fa idx fuel = offerSeq fa jdx fuel := by
  intro fuel
  induction fuel with
  | zero => intro idx jdx _; rfl
  | succ fuel ih =>
    intro idx jdx h
    simp only [offerSeq, h]
    rw [ih (idx + 1) (jdx + 1)]
    rw [Nat.add_mod idx 1, Nat.add_mod jdx 1, h]

/-- Splitting a visiting sequence at an iteration count. -/
theorem offerSeq_add (fa : List (ℚ × KeywordType)) :
    ∀ (a idx b : ℕ), offerSeq fa idx (a + b) =
      offerSeq fa idx a ++ offerSeq fa (idx + a) b := by
  intro a
  induction a with
  | zero => intro idx b; simp [offerSeq]
  | succ a ih =>
    intro idx b
    have h1 : a + 1 + b = (a + b) + 1 := by omega
    rw [h1]
    simp only [offerSeq, List.cons_append]
    rw [ih (idx + 1) b]
    have h2 : idx + 1 + a = idx + (a + 1) := by omega
    rw [h2]

/-- Within one wrap-around, the visiting sequence reads the list in
order. -/
theorem offerSeq_take (fa : List (ℚ × KeywordType)) :
    ∀ (k idx : ℕ), idx + k ≤ fa.length →
      offerSeq fa idx k = ((fa.drop idx).take k).map Prod.snd := by
  intro k
  induction k with
  | zero => intro idx _; simp [offerSeq]
  | succ k ih =>
    intro idx hk
    have hlt : idx < fa.length := by omega
    have hentry : (fa.get? (idx % fa.length)).getD (0, KeywordType.core) =
        fa[idx] := by
      rw [Nat.mod_eq_of_lt hlt, List.get?_eq_getElem?,
        List.getElem?_eq_getElem hlt]
      rfl
    have hseg : (fa.drop idx).take (k + 1) =
        fa[idx] :: (fa.drop (idx + 1)).take k := by
      rw [List.drop_eq_getElem_cons hlt]
      rfl
    simp only [offerSeq, hentry, hseg, List.map_cons]
    rw [ih (idx + 1) (by omega)]

/-- Runs of full passes: the visiting sequence for `m` times the list
length is `m` rounds over the types in list order. -/
theorem offerSeq_sweeps (fa : List (ℚ × KeywordType)) (hne : 0 < fa.length) :
    ∀ m : ℕ, offerSeq fa 0 (m * fa.length) =
      (List.replicate m (fa.map Prod.snd)).flatten := by
  intro m
  induction m with
  | zero => simp [offerSeq]
  | succ m ih =>
    have h1 : (m + 1) * fa.length = fa.length + m * fa.length := by ring
    rw [h1, offerSeq_add fa fa.length 0 (m * fa.length)]
    have h2 : offerSeq fa 0 fa.length = fa.map Prod.snd := by
      rw [offerSeq_take fa fa.length 0 (by omega)]
      simp
    have h3 : offerSeq fa (0 + fa.length) (m * fa.length) =
        offerSeq fa 0 (m * fa.length) := by
      apply offerSeq_congr_mod
      simp [Nat.mod_self]
    rw [h2, h3, ih, List.replicate_succ, List.flatten_cons]

/-- The remainder loop is the acceptance pass over its cyclic visiting
sequence. -/
theorem remainderLoop_eq_acceptOffers (fa : List (ℚ × KeywordType))
    (cap : KeywordType → ℕ) (hne : fa ≠ []) :
    ∀ (fuel idx rem : ℕ) (alloc : KeywordType → ℕ),
      remainderLoop fa cap fuel idx rem alloc =
        acceptOffers cap (offerSeq fa idx fuel) alloc rem := by
  have hfane : fa.isEmpty = false := by
    cases fa
    · exact absurd rfl hne
    · rfl
  intro fuel
  induction fuel with
  | zero => intro idx rem alloc; rfl
  | succ fuel ih =>
    intro idx rem alloc
    by_cases hrem : rem = 0
    · subst hrem
      simp [remainderLoop, acceptOffers, offerSeq]
    · have hguard : ¬ (rem = 0 ∨ fa.isEmpty = true) := by
        simp [hrem, hfane]
      simp only [remainderLoop, offerSeq, acceptOffers, if_neg hguard,
        if_neg hrem]
      by_cases hc : alloc ((fa.get? (idx % fa.length)).getD
          (0, KeywordType.core)).2 <
          cap ((fa.get? (idx % fa.length)).getD (0, KeywordType.core)).2
      · rw [if_pos hc, if_pos hc, ih]
      · rw [if_neg hc, if_neg hc, ih]

/-- Characterization of one acceptance pass over a duplicate-free offer
list: the types with spare room take slots in order until the slots run
out. -/
theorem acceptOffers_char (cap : KeywordType → ℕ) :
    ∀ (q : List KeywordType), q.Nodup →
    ∀ (alloc : KeywordType → ℕ) (rem : ℕ),
      (acceptOffers cap q alloc rem).2 =
        rem - (q.filter (fun t => decide (alloc t < cap t))).length ∧
      ∀ t, (acceptOffers cap q alloc rem).1 t =
        if t ∈ (q.filter (fun t => decide (alloc t < cap t))).take rem
        then alloc t + 1 else alloc t := by
  intro q
  induction q with
  | nil =>
    intro _ alloc rem
    exact ⟨by simp [acceptOffers], fun t => by simp [acceptOffers]⟩
  | cons u rest ih =>
    intro hnd alloc rem
    have hu : u ∉ rest := (List.nodup_cons.mp hnd).1
    have hrest : rest.Nodup := (List.nodup_cons.mp hnd).2
    by_cases hrem : rem = 0
    · subst hrem
      have hred : acceptOffers cap (u :: rest) alloc 0 = (alloc, 0) := by
        simp [acceptOffers]
      rw [hred]
      exact ⟨by simp, fun t => by simp⟩
    · obtain ⟨r, rfl⟩ : ∃ r, rem = r + 1 := ⟨rem - 1, by omega⟩
      by_cases hc : alloc u < cap u
      · have hstep : acceptOffers cap (u :: rest) alloc (r + 1) =
            acceptOffers cap rest (bumpAlloc alloc u) r := by
          simp [acceptOffers, hc]
        have hfil : rest.filter (fun t => decide (bumpAlloc alloc u t < cap t)) =
            rest.filter (fun t => decide (alloc t < cap t)) := by
          apply List.filter_congr
          intro t ht
          have htu : t ≠ u := fun h => hu (h ▸ ht)
          simp [bumpAlloc, Function.update_noteq htu]
        have hfc : (u :: rest).filter (fun t => decide (alloc t < cap t)) =
            u :: rest.filter (fun t => decide (alloc t < cap t)) := by
          simp [List.filter_cons, hc]
        obtain ⟨i1, i2⟩ := ih hrest (bumpAlloc alloc u) r
        rw [hfil] at i1 i2
        rw [hstep]
        constructor
        · rw [i1, hfc, List.length_cons]
          omega
        · intro t
          rw [i2 t, hfc]
          by_cases htu : t = u
          · subst htu
            have hmemu : t ∈ ((t :: rest.filter
                (fun t => decide (alloc t < cap t))).take (r + 1)) := by
              rw [List.take_succ_cons]
              exact List.mem_cons_self _ _
            have hnotin : t ∉ (rest.filter
                (fun t => decide (alloc t < cap t))).take r := fun hmem =>
              hu (List.mem_of_mem_filter (List.mem_of_mem_take hmem))
            rw [if_neg hnotin, if_pos hmemu]
            simp [bumpAlloc]
          · have hb : bumpAlloc alloc u t = alloc t := by
              simp [bumpAlloc, Function.update_noteq htu]
            have hmemiff : (t ∈ (u :: rest.filter
                  (fun t => decide (alloc t < cap t))).take (r + 1)) ↔
                t ∈ (rest.filter (fun t => decide (alloc t < cap t))).take r := by
              rw [List.take_succ_cons]
              simp [List.mem_cons, htu]
            rw [hb]
            by_cases hm : t ∈ (rest.filter
                (fun t => decide (alloc t < cap t))).take r
            · rw [if_pos hm, if_pos (hmemiff.mpr hm)]
            · rw [if_neg hm, if_neg (fun h => hm (hmemiff.mp h))]
      · have hstep : acceptOffers cap (u :: rest) alloc (r + 1) =
            acceptOffers cap rest alloc (r + 1) := by
          simp [acceptOffers, hc]
        have hfc : (u :: rest).filter (fun t => decide (alloc t < cap t)) =
            rest.filter (fun t => decide (alloc t < cap t)) := by
          simp [List.filter_cons, hc]
        rw [hstep, hfc]
        exact ih hrest alloc (r + 1)

/-- Membership in a taken prefix of a filtered duplicate-free list, stated
through the count of matching predecessors. -/
theorem mem_take_filter_iff (pr : KeywordType → Bool) :
    ∀ (q : List KeywordType), q.Nodup → ∀ (r : ℕ) (t : KeywordType),
      (t ∈ (q.filter pr).take r ↔
        t ∈ q ∧ pr t = true ∧ (predTypes q t).countP pr < r) := by
  intro q
  induction q with
  | nil => intro _ r t; simp
  | cons u rest ih =>
    intro hnd r t
    have hrest := (List.nodup_cons.mp hnd).2
    by_cases htu : t = u
    · subst htu
      have hpt : predTypes (t :: rest) t = [] := by
        simp [predTypes, List.takeWhile_cons]
      by_cases hpr : pr t = true
      · have hfc : (t :: rest).filter pr = t :: rest.filter pr := by
          simp [List.filter_cons, hpr]
        rw [hfc, hpt]
        constructor
        · intro hm
          refine ⟨List.mem_cons_self _ _, hpr, ?_⟩
          cases r with
          | zero => simp at hm
          | succ n => simp
        · rintro ⟨-, -, hlt⟩
          simp only [List.countP_nil] at hlt
          obtain ⟨n, rfl⟩ : ∃ n, r = n + 1 := ⟨r - 1, by omega⟩
          rw [List.take_succ_cons]
          exact List.mem_cons_self _ _
      · have hfc : (t :: rest).filter pr = rest.filter pr := by
          simp [List.filter_cons, hpr]
        rw [hfc]
        constructor
        · intro hm
          exact absurd (List.of_mem_filter (List.mem_of_mem_take hm)) hpr
        · rintro ⟨-, hpr', -⟩
          exact absurd hpr' hpr
    · have hpt : predTypes (u :: rest) t = u :: predTypes rest t := by
        have hbe : (u == t) = false := by
          simp [htu]
          exact fun h => htu h.symm
        simp [predTypes, List.takeWhile_cons, hbe]
      rw [hpt, List.countP_cons]
      by_cases hpru : pr u = true
      · have hfc : (u :: rest).filter pr = u :: rest.filter pr := by
          simp [List.filter_cons, hpru]
        rw [hfc]
        cases r with
        | zero => simp
        | succ n =>
          rw [List.take_succ_cons, List.mem_cons]
          constructor
          · intro hm
            rcases hm with h | hm
            · exact absurd h htu
            · obtain ⟨h1, h2, h3⟩ := (ih hrest n t).mp hm
              refine ⟨List.mem_cons_of_mem _ h1, h2, ?_⟩
              simp only [hpru, if_true]
              omega
          · rintro ⟨hmem, hprt, hlt⟩
            have h1 : t ∈ rest := by
              rcases List.mem_cons.mp hmem with h | h
              · exact absurd h htu
              · exact h
            refine Or.inr ((ih hrest n t).mpr ⟨h1, hprt, ?_⟩)
            simp only [hpru, if_true] at hlt
            omega
      · have hfc : (u :: rest).filter pr = rest.filter pr := by
          simp [List.filter_cons, hpru]
        rw [hfc, ih hrest r t]
        simp only [hpru, if_false, Nat.add_zero, List.mem_cons]
        constructor
        · rintro ⟨h1, h2, h3⟩; exact ⟨Or.inr h1, h2, h3⟩
        · rintro ⟨h1, h2, h3⟩
          rcases h1 with h | h
          · exact absurd h htu
          · exact ⟨h, h2, h3⟩

/-- Sums of pointwise sums of naturals split. -/
theorem list_sum_map_addN {α : Type} (L : List α) (f g : α → ℕ) :
    (L.map (fun x => f x + g x)).sum = (L.map f).sum + (L.map g).sum := by
  induction L with
  | nil => rfl
  | cons a rest ih =>
    simp only [List.map_cons, List.sum_cons, ih]
    omega

/-- A sum of indicator values is a match count. -/
theorem sum_map_ite_one (L : List KeywordType) (pr : KeywordType → Bool) :
    (L.map (fun t => if pr t then 1 else 0)).sum = L.countP pr := by
  induction L with
  | nil => rfl
  | cons a rest ih =>
    simp only [List.map_cons, List.sum_cons, List.countP_cons, ih]
    by_cases h : pr a = true
    · simp only [h, if_true]
      omega
    · simp only [h, if_false]
      omega

/-- Zero passes demand nothing. -/
theorem cycleDemand_zero (p : List KeywordType) (cap base : KeywordType → ℕ) :
    cycleDemand p cap base 0 = 0 := by
  simp [cycleDemand]

/-- One pass demands one slot per type with spare room. -/
theorem cycleDemand_one (p : List KeywordType) (cap base : KeywordType → ℕ) :
    cycleDemand p cap base 1 =
      p.countP (fun t => decide (base t < cap t)) := by
  unfold cycleDemand
  rw [← sum_map_ite_one]
  apply congrArg
  apply List.map_congr_left
  intro t _
  by_cases h : base t < cap t
  · rw [Nat.min_eq_right (by omega)]
    simp [h]
  · have h0 : cap t - base t = 0 := by omega
    simp [h0, h]

/-- The pass demand grows with the pass count. -/
theorem cycleDemand_mono (p : List KeywordType) (cap base : KeywordType → ℕ)
    {c c' : ℕ} (h : c ≤ c') :
    cycleDemand p cap base c ≤ cycleDemand p cap base c' := by
  apply List.sum_le_sum
  intro t _
  exact min_le_min (le_refl _) h

/-- Characterization of `M` full passes over the cycle order `p`: if the
total demand fits into the slots, every type reaches its `M`-pass water
mark; otherwise the passes stop at the last affordable level `L` and the
leftover slots go one each to the first types, in `p` order, that still
have room for an `(L+1)`-th slot. -/
theorem sweeps_char (cap : KeywordType → ℕ) (p : List KeywordType)
    (hp : p.Nodup) :
    ∀ (M : ℕ) (base : KeywordType → ℕ) (rem : ℕ),
      (cycleDemand p cap base M ≤ rem →
        ((acceptOffers cap (List.replicate M p).flatten base rem).2 =
            rem - cycleDemand p cap base M ∧
         ∀ t, (acceptOffers cap (List.replicate M p).flatten base rem).1 t =
           base t + if t ∈ p then min (cap t - base t) M else 0)) ∧
      (∀ L, L < M → cycleDemand p cap base L ≤ rem →
        ¬ cycleDemand p cap base (L + 1) ≤ rem →
        ((acceptOffers cap (List.replicate M p).flatten base rem).2 = 0 ∧
         ∀ t, (acceptOffers cap (List.replicate M p).flatten base rem).1 t =
           base t + if t ∈ p then
             min (cap t - base t) L +
               (if L + 1 ≤ cap t - base t ∧
                   rankOf p t (fun u => decide (L + 1 ≤ cap u - base u)) <
                     rem - cycleDemand p cap base L
                then 1 else 0)
           else 0)) := by
  intro M
  induction M with
  | zero =>
    intro base rem
    refine ⟨fun _ => ⟨?_, fun t => ?_⟩,
      fun L hL _ _ => absurd hL (Nat.not_lt_zero L)⟩
    · simp [acceptOffers, cycleDemand_zero]
    · simp [acceptOffers]
  | succ M ih =>
    intro base rem
    have hflat : (List.replicate (M + 1) p).flatten =
        p ++ (List.replicate M p).flatten := by
      rw [List.replicate_succ, List.flatten_cons]
    have hsplit : acceptOffers cap (List.replicate (M + 1) p).flatten base rem =
        acceptOffers cap (List.replicate M p).flatten
          (acceptOffers cap p base rem).1 (acceptOffers cap p base rem).2 := by
      rw [hflat, acceptOffers_append]
    obtain ⟨c1, c2⟩ := acceptOffers_char cap p hp base rem
    have hlenf : (p.filter (fun t => decide (base t < cap t))).length =
        cycleDemand p cap base 1 := by
      rw [cycleDemand_one, List.countP_eq_length_filter]
    by_cases hfull1 : cycleDemand p cap base 1 ≤ rem
    · have htake : (p.filter (fun t => decide (base t < cap t))).take rem =
          p.filter (fun t => decide (base t < cap t)) :=
        List.take_of_length_le (by omega)
      have hst1 : ∀ t, (acceptOffers cap p base rem).1 t =
          if t ∈ p.filter (fun t => decide (base t < cap t))
          then base t + 1 else base t := by
        intro t
        rw [c2 t, htake]
      have hrem1 : (acceptOffers cap p base rem).2 =
          rem - cycleDemand p cap base 1 := by
        rw [c1, hlenf]
      have hK1 : ∀ c, cycleDemand p cap (acceptOffers cap p base rem).1 c +
          cycleDemand p cap base 1 = cycleDemand p cap base (c + 1) := by
        intro c
        unfold cycleDemand
        rw [← list_sum_map_addN]
        apply congrArg
        apply List.map_congr_left
        intro t htp
        rw [hst1 t]
        by_cases hcb : base t < cap t
        · rw [if_pos (List.mem_filter.mpr ⟨htp, by simp [hcb]⟩)]
          omega
        · rw [if_neg (fun hmem => hcb
            (by simpa using (List.mem_filter.mp hmem).2))]
          have h0 : cap t - base t = 0 := by omega
          omega
      refine ⟨?_, ?_⟩
      · intro hdem
        have hK1M := hK1 M
        have hdemSt : cycleDemand p cap (acceptOffers cap p base rem).1 M ≤
            (acceptOffers cap p base rem).2 := by
          rw [hrem1]
          omega
        obtain ⟨f1, f2⟩ := (ih (acceptOffers cap p base rem).1
          (acceptOffers cap p base rem).2).1 hdemSt
        rw [hsplit]
        constructor
        · rw [f1, hrem1]
          omega
        · intro t
          rw [f2 t]
          by_cases htp : t ∈ p
          · rw [if_pos htp, if_pos htp, hst1 t]
            by_cases hcb : base t < cap t
            · rw [if_pos (List.mem_filter.mpr ⟨htp, by simp [hcb]⟩)]
              omega
            · rw [if_neg (fun hmem => hcb
                (by simpa using (List.mem_filter.mp hmem).2))]
              have h0 : cap t - base t = 0 := by omega
              omega
          · rw [if_neg htp, if_neg htp, hst1 t,
              if_neg (fun hmem => htp (List.mem_of_mem_filter hmem))]
      · intro L hL hle hgt
        obtain ⟨L₁, rfl⟩ : ∃ L₁, L = L₁ + 1 := by
          cases L with
          | zero => exact absurd hfull1 hgt
          | succ n => exact ⟨n, rfl⟩
        have hK1L := hK1 L₁
        have hK1L' := hK1 (L₁ + 1)
        have hpartSt1 : cycleDemand p cap (acceptOffers cap p base rem).1 L₁ ≤
            (acceptOffers cap p base rem).2 := by
          rw [hrem1]
          omega
        have hpartSt2 : ¬ cycleDemand p cap
            (acceptOffers cap p base rem).1 (L₁ + 1) ≤
            (acceptOffers cap p base rem).2 := by
          rw [hrem1]
          omega
        obtain ⟨f1, f2⟩ := (ih (acceptOffers cap p base rem).1
          (acceptOffers cap p base rem).2).2 L₁ (by omega) hpartSt1 hpartSt2
        rw [hsplit]
        refine ⟨f1, fun t => ?_⟩
        rw [f2 t]
        by_cases htp : t ∈ p
        · have hrank : rankOf p t (fun u => decide (L₁ + 1 ≤ cap u -
              (acceptOffers cap p base rem).1 u)) =
              rankOf p t (fun u => decide (L₁ + 1 + 1 ≤ cap u - base u)) := by
            unfold rankOf predTypes
            apply List.countP_congr
            intro u hu
            have hup : u ∈ p := (List.takeWhile_sublist _).subset hu
            rw [hst1 u]
            by_cases hcu : base u < cap u
            · rw [if_pos (List.mem_filter.mpr ⟨hup, by simp [hcu]⟩)]
              simp only [decide_eq_true_eq]
              omega
            · rw [if_neg (fun hmem => hcu
                (by simpa using (List.mem_filter.mp hmem).2))]
              simp only [decide_eq_true_eq]
              omega
          have hR : (acceptOffers cap p base rem).2 -
              cycleDemand p cap (acceptOffers cap p base rem).1 L₁ =
              rem - cycleDemand p cap base (L₁ + 1) := by
            rw [hrem1]
            omega
          rw [if_pos htp, if_pos htp, hrank, hR, hst1 t]
          by_cases hcb : base t < cap t
          · rw [if_pos (List.mem_filter.mpr ⟨htp, by simp [hcb]⟩)]
            have hAB : (L₁ + 1 ≤ cap t - (base t + 1) ∧
                rankOf p t (fun u => decide (L₁ + 1 + 1 ≤ cap u - base u)) <
                  rem - cycleDemand p cap base (L₁ + 1)) ↔
                (L₁ + 1 + 1 ≤ cap t - base t ∧
                rankOf p t (fun u => decide (L₁ + 1 + 1 ≤ cap u - base u)) <
                  rem - cycleDemand p cap base (L₁ + 1)) :=
              and_congr_left' (by omega)
            by_cases hB : L₁ + 1 + 1 ≤ cap t - base t ∧
                rankOf p t (fun u => decide (L₁ + 1 + 1 ≤ cap u - base u)) <
                  rem - cycleDemand p cap base (L₁ + 1)
            · rw [if_pos (hAB.mpr hB), if_pos hB]
              omega
            · rw [if_neg (fun h => hB (hAB.mp h)), if_neg hB]
              omega
          · rw [if_neg (fun hmem => hcb
              (by simpa using (List.mem_filter.mp hmem).2))]
            have h0 : cap t - base t = 0 := by omega
            rw [if_neg (fun h => by omega : ¬ (L₁ + 1 ≤ cap t - base t ∧
                rankOf p t (fun u => decide (L₁ + 1 + 1 ≤ cap u - base u)) <
                  rem - cycleDemand p cap base (L₁ + 1))),
              if_neg (fun h => by omega : ¬ (L₁ + 1 + 1 ≤ cap t - base t ∧
                rankOf p t (fun u => decide (L₁ + 1 + 1 ≤ cap u - base u)) <
                  rem - cycleDemand p cap base (L₁ + 1)))]
            omega
        · rw [if_neg htp, if_neg htp, hst1 t,
            if_neg (fun hmem => htp (List.mem_of_mem_filter hmem))]
    · -- the first pass already exhausts the slots
      have hrem0 : (acceptOffers cap p base rem).2 = 0 := by
        rw [c1]
        omega
      have hrest : acceptOffers cap (List.replicate M p).flatten
          (acceptOffers cap p base rem).1 (acceptOffers cap p base rem).2 =
          ((acceptOffers cap p base rem).1, 0) := by
        rw [hrem0, acceptOffers_rem_zero]
      refine ⟨?_, ?_⟩
      · intro hdem
        exact absurd (le_trans (cycleDemand_mono p cap base (by omega)) hdem)
          hfull1
      · intro L hL hle hgt
        have hL0 : L = 0 := by
          by_contra hne
          exact hfull1 (le_trans (cycleDemand_mono p cap base (by omega)) hle)
        subst hL0
        rw [hsplit, hrest]
        refine ⟨rfl, fun t => ?_⟩
        simp only []
        rw [c2 t]
        have hmti := mem_take_filter_iff (fun t => decide (base t < cap t))
          p hp rem t
        have hrank : (predTypes p t).countP (fun t => decide (base t < cap t)) =
            rankOf p t (fun u => decide (0 + 1 ≤ cap u - base u)) := by
          unfold rankOf
          apply List.countP_congr
          intro u _
          simp only [decide_eq_true_eq]
          omega
        by_cases htp : t ∈ p
        · rw [if_pos htp]
          rw [cycleDemand_zero, Nat.sub_zero, Nat.min_zero]
          by_cases hmem : t ∈ (p.filter
              (fun t => decide (base t < cap t))).take rem
          · obtain ⟨-, hprt, hcnt⟩ := hmti.mp hmem
            rw [if_pos hmem, if_pos ?hc]
            case hc =>
              refine ⟨by simp at hprt; omega, ?_⟩
              rw [← hrank]
              exact hcnt
          · rw [if_neg hmem, if_neg ?hnc]
            case hnc =>
              rintro ⟨h1, h2⟩
              apply hmem
              apply hmti.mpr
              refine ⟨htp, by simp; omega, ?_⟩
              rw [hrank]
              exact h2
            omega
        · rw [if_neg htp,
            if_neg (fun hmem => htp (List.mem_of_mem_filter
              (List.mem_of_mem_take hmem)))]
          omega

/-- A fallback fill with no slots left changes nothing. -/
theorem fallbackFill_rem_zero (cap : KeywordType → ℕ) :
    ∀ (P : List KeywordType) (alloc : KeywordType → ℕ),
      fallbackFill cap P alloc 0 = (alloc, 0) := by
  intro P
  induction P with
  | nil => intro alloc; rfl
  | cons t rest ih =>
    intro alloc
    have h : fallbackFill cap (t :: rest) alloc 0 = fallbackFill cap rest alloc 0 := by
      simp [fallbackFill, Function.update_eq_self]
    rw [h]
    exact ih alloc

/-- The fallback fill never touches an unlisted type. -/
theorem fallbackFill_untouched (cap : KeywordType → ℕ) :
    ∀ (P : List KeywordType) (alloc : KeywordType → ℕ) (rem : ℕ)
      (t : KeywordType), t ∉ P → (fallbackFill cap P alloc rem).1 t = alloc t := by
  intro P
  induction P with
  | nil => intro alloc rem t _; rfl
  | cons v rest ih =>
    intro alloc rem t ht
    simp only [fallbackFill]
    rw [ih _ _ t (fun h => ht (List.mem_cons_of_mem _ h)),
      Function.update_noteq (fun h : t = v => ht (by rw [h]; exact List.mem_cons_self v rest))]

/-- Characterization of the fallback fill at a listed type: it absorbs its
spare room capped by whatever the types listed before it leave over. -/
theorem fallbackFill_char (cap : KeywordType → ℕ) :
    ∀ (P : List KeywordType), P.Nodup → ∀ (t0 : KeywordType), t0 ∈ P →
    ∀ (alloc : KeywordType → ℕ) (rem : ℕ),
      (fallbackFill cap P alloc rem).1 t0 =
        alloc t0 + min (cap t0 - alloc t0)
          (rem - ((predTypes P t0).map (fun u => cap u - alloc u)).sum) := by
  intro P
  induction P with
  | nil => intro _ t0 h; exact absurd h (List.not_mem_nil t0)
  | cons v rest ih =>
    intro hnd t0 ht0 alloc rem
    have hv : v ∉ rest := (List.nodup_cons.mp hnd).1
    have hrest : rest.Nodup := (List.nodup_cons.mp hnd).2
    by_cases hvt : v = t0
    · subst hvt
      have hpt : predTypes (v :: rest) v = [] := by
        simp [predTypes, List.takeWhile_cons]
      rw [hpt]
      simp only [List.map_nil, List.sum_nil, Nat.sub_zero]
      have hval : (fallbackFill cap (v :: rest) alloc rem).1 v =
          Function.update alloc v (alloc v + min rem (cap v - alloc v)) v := by
        simp only [fallbackFill]
        exact fallbackFill_untouched cap rest _ _ v hv
      rw [hval, Function.update_same, Nat.min_comm]
    · have ht0r : t0 ∈ rest := by
        rcases List.mem_cons.mp ht0 with h | h
        · exact absurd h.symm hvt
        · exact h
      have hbe : (v == t0) = false := by
        simp only [beq_eq_false_iff_ne, ne_eq]
        exact hvt
      have hpt : predTypes (v :: rest) t0 = v :: predTypes rest t0 := by
        simp [predTypes, List.takeWhile_cons, hbe]
      rw [hpt]
      simp only [List.map_cons, List.sum_cons]
      simp only [fallbackFill]
      rw [ih hrest t0 ht0r]
      have hupd : Function.update alloc v
          (alloc v + min rem (cap v - alloc v)) t0 = alloc t0 :=
        Function.update_noteq (Ne.symm hvt) _ _
      have hsum : ((predTypes rest t0).map (fun u => cap u -
          Function.update alloc v (alloc v + min rem (cap v - alloc v)) u)).sum =
          ((predTypes rest t0).map (fun u => cap u - alloc u)).sum := by
        apply congrArg
        apply List.map_congr_left
        intro u hu
        have hur : u ∈ rest := (List.takeWhile_sublist _).subset hu
        have huv : u ≠ v := fun h => hv (h ▸ hur)
        rw [Function.update_noteq huv]
      rw [hupd, hsum]
      omega

/-- Every slot count between two pass demands pins down a last affordable
level. -/
theorem exists_level (p : List KeywordType) (cap base : KeywordType → ℕ)
    (rem : ℕ) :
    ∀ M : ℕ, ¬ cycleDemand p cap base M ≤ rem →
      ∃ L, L < M ∧ cycleDemand p cap base L ≤ rem ∧
        ¬ cycleDemand p cap base (L + 1) ≤ rem := by
  intro M
  induction M with
  | zero =>
    intro hnf
    exact absurd (by rw [cycleDemand_zero]; omega) hnf
  | succ M ih =>
    intro hnf
    by_cases h : cycleDemand p cap base M ≤ rem
    · exact ⟨M, by omega, h, hnf⟩
    · obtain ⟨L, h1, h2, h3⟩ := ih h
      exact ⟨L, by omega, h2, h3⟩

/-- The composite value at a cycle-listed type when the slots cover all `M`
passes: the water mark plus the fallback's leftover give. -/
theorem phases_char_full (cap : KeywordType → ℕ) (p fb : List KeywordType)
    (hp : p.Nodup) (hfbnd : fb.Nodup) (hfb : ∀ u, u ∈ fb ↔ u ∈ p)
    (M : ℕ) (base : KeywordType → ℕ) (rem : ℕ) (t0 : KeywordType)
    (ht0 : t0 ∈ p) (hfull : cycleDemand p cap base M ≤ rem) :
    (phases cap p fb M base rem).1 t0 =
      base t0 + min (cap t0 - base t0) M +
        min ((cap t0 - base t0) - M)
          ((rem - cycleDemand p cap base M) -
            ((predTypes fb t0).map (fun u => (cap u - base u) - M)).sum) := by
  obtain ⟨f1, f2⟩ := (sweeps_char cap p hp M base rem).1 hfull
  unfold phases
  rw [fallbackFill_char cap fb hfbnd t0 ((hfb t0).mpr ht0)]
  have hval : (acceptOffers cap (List.replicate M p).flatten base rem).1 t0 =
      base t0 + min (cap t0 - base t0) M := by
    rw [f2 t0, if_pos ht0]
  have hcapd : cap t0 - (acceptOffers cap
      (List.replicate M p).flatten base rem).1 t0 =
      (cap t0 - base t0) - M := by
    rw [hval]
    omega
  have hsum : ((predTypes fb t0).map (fun u => cap u -
      (acceptOffers cap (List.replicate M p).flatten base rem).1 u)).sum =
      ((predTypes fb t0).map (fun u => (cap u - base u) - M)).sum := by
    apply congrArg
    apply List.map_congr_left
    intro u hu
    have hup : u ∈ p := (hfb u).mp ((List.takeWhile_sublist _).subset hu)
    rw [f2 u, if_pos hup]
    omega
  rw [hval, hsum, f1]
  omega

/-- The composite value at a cycle-listed type when the passes stop at
level `L`: the fallback gets nothing and the value is the level plus at
most one leftover slot, granted by rank. -/
theorem phases_char_stopped (cap : KeywordType → ℕ) (p fb : List KeywordType)
    (hp : p.Nodup) (M : ℕ) (base : KeywordType → ℕ) (rem : ℕ)
    (t0 : KeywordType) (ht0 : t0 ∈ p) (L : ℕ) (hL : L < M)
    (hle : cycleDemand p cap base L ≤ rem)
    (hgt : ¬ cycleDemand p cap base (L + 1) ≤ rem) :
    (phases cap p fb M base rem).1 t0 =
      base t0 + min (cap t0 - base t0) L +
        (if L + 1 ≤ cap t0 - base t0 ∧
            rankOf p t0 (fun u => decide (L + 1 ≤ cap u - base u)) <
              rem - cycleDemand p cap base L
         then 1 else 0) := by
  obtain ⟨f1, f2⟩ := (sweeps_char cap p hp M base rem).2 L hL hle hgt
  simp only [phases]
  rw [f1, fallbackFill_rem_zero]
  rw [f2 t0, if_pos ht0]
  exact (Nat.add_assoc _ _ _).symm

/-! ## C7 groundwork: counting and demand comparison helpers -/

/-- Members of a `takeWhile` prefix satisfy the scanned predicate. -/
theorem pred_of_mem_takeWhile {pr : KeywordType → Bool} :
    ∀ {l : List KeywordType} {a : KeywordType},
      a ∈ l.takeWhile pr → pr a = true := by
  intro l
  induction l with
  | nil => intro a h; simp at h
  | cons u rest ih =>
    intro a h
    rw [List.takeWhile_cons] at h
    by_cases hu : pr u = true
    · rw [if_pos hu] at h
      rcases List.mem_cons.mp h with rfl | h
      · exact hu
      · exact ih h
    · rw [if_neg hu] at h
      simp at h

/-- A type listed before `t0` differs from `t0`. -/
theorem ne_of_mem_predTypes {P : List KeywordType} {t0 u : KeywordType}
    (h : u ∈ predTypes P t0) : u ≠ t0 := by
  have hp := pred_of_mem_takeWhile h
  simpa using hp

/-- The strict predecessors inherit freedom from duplicates. -/
theorem predTypes_nodup {P : List KeywordType} (h : P.Nodup)
    (t0 : KeywordType) : (predTypes P t0).Nodup :=
  (List.takeWhile_sublist _).nodup h

/-- The pass demand only depends on the set of listed types. -/
theorem cycleDemand_perm {p p' : List KeywordType}
    (h : List.Perm p' p) (cap base : KeywordType → ℕ) (c : ℕ) :
    cycleDemand p' cap base c = cycleDemand p cap base c :=
  (h.map _).sum_eq

/-- The pass demand only reads the base on listed types. -/
theorem cycleDemand_congr {p : List KeywordType} {b1 b2 : KeywordType → ℕ}
    (h : ∀ t ∈ p, b1 t = b2 t) (cap : KeywordType → ℕ) (c : ℕ) :
    cycleDemand p cap b1 c = cycleDemand p cap b2 c := by
  unfold cycleDemand
  apply congrArg
  apply List.map_congr_left
  intro t ht
  rw [h t ht]

/-- Demand change under a single-type base update, as an additive
identity. -/
theorem cycleDemand_update_add (cap : KeywordType → ℕ) :
    ∀ (p : List KeywordType), p.Nodup →
    ∀ (t : KeywordType), t ∈ p → ∀ (base : KeywordType → ℕ) (v c : ℕ),
      cycleDemand p cap (Function.update base t v) c +
        min (cap t - base t) c =
      cycleDemand p cap base c + min (cap t - v) c := by
  intro p
  induction p with
  | nil => intro _ t ht; exact absurd ht (List.not_mem_nil t)
  | cons u rest ih =>
    intro hnd t ht base v c
    have hu : u ∉ rest := (List.nodup_cons.mp hnd).1
    have hrest : rest.Nodup := (List.nodup_cons.mp hnd).2
    simp only [cycleDemand, List.map_cons, List.sum_cons] at *
    by_cases hut : u = t
    · subst hut
      have hcongr : ∀ x ∈ rest, Function.update base u v x = base x := by
        intro x hx
        exact Function.update_noteq (fun h : x = u => hu (h ▸ hx)) _ _
      have hrw : (rest.map (fun t =>
          min (cap t - Function.update base u v t) c)).sum =
          (rest.map (fun t => min (cap t - base t) c)).sum := by
        apply congrArg
        apply List.map_congr_left
        intro x hx
        rw [hcongr x hx]
      rw [Function.update_same, hrw]
      omega
    · have htr : t ∈ rest := by
        rcases List.mem_cons.mp ht with h | h
        · exact absurd h.symm hut
        · exact h
      have hih := ih hrest t htr base v c
      simp only [cycleDemand] at hih
      rw [Function.update_noteq hut]
      omega

/-- Raising bases pointwise lowers the pass demand. -/
theorem cycleDemand_le_pointwise {p : List KeywordType}
    {b b' : KeywordType → ℕ} (h : ∀ t ∈ p, b t ≤ b' t)
    (cap : KeywordType → ℕ) (c : ℕ) :
    cycleDemand p cap b' c ≤ cycleDemand p cap b c := by
  apply List.sum_le_sum
  intro t ht
  exact min_le_min (by have := h t ht; omega) (le_refl c)

/-- Pointwise-dominated sums that agree force agreement at every member. -/
theorem sum_map_eq_of_le_of_mem {f g : KeywordType → ℕ} :
    ∀ (l : List KeywordType), (∀ u ∈ l, f u ≤ g u) →
      (l.map f).sum = (l.map g).sum → ∀ t0 ∈ l, f t0 = g t0 := by
  intro l
  induction l with
  | nil => intro _ _ t0 h; exact absurd h (List.not_mem_nil t0)
  | cons u rest ih =>
    intro hle hsum t0 ht0
    have hrest : (rest.map f).sum ≤ (rest.map g).sum :=
      List.sum_le_sum (fun x hx => hle x (List.mem_cons_of_mem _ hx))
    have hu : f u ≤ g u := hle u (List.mem_cons_self _ _)
    simp only [List.map_cons, List.sum_cons] at hsum
    have hueq : f u = g u := by omega
    have hresteq : (rest.map f).sum = (rest.map g).sum := by omega
    rcases List.mem_cons.mp ht0 with rfl | h
    · exact hueq
    · exact ih (fun x hx => hle x (List.mem_cons_of_mem _ hx)) hresteq t0 h

/-- Matching predecessors can only be lost when moving to a list whose
matches embed into the old one. -/
theorem countP_le_of_mem_imp (pr : KeywordType → Bool)
    {l' l : List KeywordType} (hnd : l'.Nodup)
    (hsub : ∀ u ∈ l', pr u = true → u ∈ l) :
    l'.countP pr ≤ l.countP pr := by
  have h1 : (l'.filter pr).Nodup := hnd.filter _
  have h2 : l'.filter pr ⊆ l.filter pr := by
    intro x hx
    obtain ⟨hm, hp⟩ := List.mem_filter.mp hx
    exact List.mem_filter.mpr ⟨hsub x hm hp, hp⟩
  have h3 := (h1.subperm h2).length_le
  rw [List.countP_eq_length_filter, List.countP_eq_length_filter]
  exact h3

/-- Sum comparison for a duplicate-free list whose positive-value members
embed into another duplicate-free list. -/
theorem sum_le_of_mem_imp (f : KeywordType → ℕ) :
    ∀ (l' : List KeywordType), l'.Nodup → ∀ (l : List KeywordType), l.Nodup →
      (∀ u ∈ l', 0 < f u → u ∈ l) →
      (l'.map f).sum ≤ (l.map f).sum := by
  have hdrop : ∀ (m : List KeywordType),
      (m.map f).sum = ((m.filter (fun u => decide (0 < f u))).map f).sum := by
    intro m
    induction m with
    | nil => rfl
    | cons a rest ih =>
      rw [List.filter_cons]
      by_cases ha : 0 < f a
      · rw [if_pos (by simpa using ha)]
        simp only [List.map_cons, List.sum_cons]
        omega
      · have h0 : f a = 0 := by omega
        rw [if_neg (by simpa using ha)]
        simp only [List.map_cons, List.sum_cons, h0]
        omega
  intro l' hnd' l hnd hsub
  rw [hdrop l', hdrop l]
  have h1 : (l'.filter (fun u => decide (0 < f u))).Nodup := hnd'.filter _
  have h2 : l'.filter (fun u => decide (0 < f u)) ⊆
      l.filter (fun u => decide (0 < f u)) := by
    intro x hx
    obtain ⟨hm, hp⟩ := List.mem_filter.mp hx
    exact List.mem_filter.mpr ⟨hsub x hm (by simpa using hp), hp⟩
  obtain ⟨m, hmperm, hmsub⟩ := h1.subperm h2
  calc ((l'.filter (fun u => decide (0 < f u))).map f).sum
      = (m.map f).sum := ((hmperm.map f).sum_eq).symm
    _ ≤ ((l.filter (fun u => decide (0 < f u))).map f).sum := by
        apply List.Sublist.sum_le_sum (hmsub.map f)
        intro a _
        exact Nat.zero_le a

/-- Count comparison that tolerates one designated exceptional type. -/
theorem countP_le_special {l' l : List KeywordType} (j : KeywordType)
    (pr pr' : KeywordType → Bool) (hnd : l'.Nodup)
    (hagree : ∀ u, u ≠ j → pr' u = pr u)
    (hsub : ∀ u ∈ l', u ≠ j → pr u = true → u ∈ l) :
    l'.countP pr' ≤ l.countP pr + (if pr' j = true then 1 else 0) := by
  by_cases hjl : j ∈ l'
  · have hperm : List.Perm l' (j :: l'.erase j) := List.perm_cons_erase hjl
    rw [hperm.countP_eq, List.countP_cons]
    have hnde : (l'.erase j).Nodup := hnd.erase j
    have hcongr : (l'.erase j).countP pr' = (l'.erase j).countP pr := by
      apply List.countP_congr
      intro a ha
      have hane : a ≠ j := ((List.Nodup.mem_erase_iff hnd).mp ha).1
      rw [hagree a hane]
    have hle : (l'.erase j).countP pr ≤ l.countP pr := by
      apply countP_le_of_mem_imp pr hnde
      intro u hu hpu
      obtain ⟨hune, hul'⟩ := (List.Nodup.mem_erase_iff hnd).mp hu
      exact hsub u hul' hune hpu
    omega
  · have hcongr : l'.countP pr' = l'.countP pr := by
      apply List.countP_congr
      intro a ha
      rw [hagree a (fun h : a = j => hjl (h ▸ ha))]
    have hle : l'.countP pr ≤ l.countP pr := by
      apply countP_le_of_mem_imp pr hnd
      intro u hu hpu
      exact hsub u hu (fun h => hjl (h ▸ hu)) hpu
    omega

/-- Sum comparison for functions that agree except at one type whose value
may grow. -/
theorem sum_map_le_update {f f' : KeywordType → ℕ} (j : KeywordType)
    (hagree : ∀ u, u ≠ j → f' u = f u) (hj : f j ≤ f' j) :
    ∀ (l : List KeywordType), l.Nodup →
      (l.map f').sum ≤ (l.map f).sum + (f' j - f j) := by
  intro l
  induction l with
  | nil => intro _; simp
  | cons u rest ih =>
    intro hnd
    have hu : u ∉ rest := (List.nodup_cons.mp hnd).1
    have hrest := (List.nodup_cons.mp hnd).2
    simp only [List.map_cons, List.sum_cons]
    by_cases huj : u = j
    · subst huj
      have hcongr : (rest.map f').sum = (rest.map f).sum := by
        apply congrArg
        apply List.map_congr_left
        intro x hx
        exact hagree x (fun h => hu (h ▸ hx))
      rw [hcongr]
      omega
    · rw [hagree u huj]
      have := ih hrest
      omega

/-! ## C7 groundwork: elementary monotonicity steps -/

/-- With bases and slots fixed, an order change that keeps every roomy type
that `t0` preceded still behind it (in both the cycle and the fallback
order) cannot cost `t0` anything. -/
theorem phases_mono_reorder (cap : KeywordType → ℕ) (M : ℕ)
    (p p' fb fb' : List KeywordType) (base : KeywordType → ℕ) (rem : ℕ)
    (t0 : KeywordType)
    (hp : p.Nodup) (hp' : p'.Nodup) (hfbnd : fb.Nodup) (hfbnd' : fb'.Nodup)
    (hmp : ∀ u, u ∈ p' ↔ u ∈ p) (hfb : ∀ u, u ∈ fb ↔ u ∈ p)
    (hfb' : ∀ u, u ∈ fb' ↔ u ∈ p)
    (ht0 : t0 ∈ p)
    (hcyc : ∀ u, u ∈ predTypes p' t0 → 1 ≤ cap u - base u →
      u ∈ predTypes p t0)
    (hfbo : ∀ u, u ∈ predTypes fb' t0 → 1 ≤ cap u - base u →
      u ∈ predTypes fb t0) :
    (phases cap p fb M base rem).1 t0 ≤
      (phases cap p' fb' M base rem).1 t0 := by
  have hperm : List.Perm p' p := (List.perm_ext_iff_of_nodup hp' hp).mpr hmp
  have hdem : ∀ c, cycleDemand p' cap base c = cycleDemand p cap base c :=
    fun c => cycleDemand_perm hperm cap base c
  have ht0' : t0 ∈ p' := (hmp t0).mpr ht0
  have hfb'p' : ∀ u, u ∈ fb' ↔ u ∈ p' := fun u => (hfb' u).trans (hmp u).symm
  by_cases hfull : cycleDemand p cap base M ≤ rem
  · rw [phases_char_full cap p fb hp hfbnd hfb M base rem t0 ht0 hfull,
      phases_char_full cap p' fb' hp' hfbnd' hfb'p' M base rem t0 ht0'
        (by rw [hdem]; exact hfull)]
    rw [hdem]
    have hsum : ((predTypes fb' t0).map (fun u => (cap u - base u) - M)).sum ≤
        ((predTypes fb t0).map (fun u => (cap u - base u) - M)).sum :=
      sum_le_of_mem_imp _ _ (predTypes_nodup hfbnd' t0) _
        (predTypes_nodup hfbnd t0)
        (fun u hu hpos => hfbo u hu (by omega))
    omega
  · obtain ⟨L, hL, hle, hgt⟩ := exists_level p cap base rem M hfull
    rw [phases_char_stopped cap p fb hp M base rem t0 ht0 L hL hle hgt,
      phases_char_stopped cap p' fb' hp' M base rem t0 ht0' L hL
        (by rw [hdem]; exact hle) (by rw [hdem]; exact hgt)]
    rw [hdem]
    have hrank : rankOf p' t0 (fun u => decide (L + 1 ≤ cap u - base u)) ≤
        rankOf p t0 (fun u => decide (L + 1 ≤ cap u - base u)) := by
      unfold rankOf
      apply countP_le_of_mem_imp _ (predTypes_nodup hp' t0)
      intro u hu hpu
      exact hcyc u hu (by simp at hpu; omega)
    by_cases hA : L + 1 ≤ cap t0 - base t0 ∧
        rankOf p t0 (fun u => decide (L + 1 ≤ cap u - base u)) <
          rem - cycleDemand p cap base L
    · rw [if_pos hA, if_pos ⟨hA.1, by omega⟩]
    · rw [if_neg hA]
      omega

/-- Banking one slot into `t0`'s base while the cycle order changes freely
and the fallback order keeps `t0`'s roomy predecessors cannot cost `t0`
anything. -/
theorem phases_mono_bump (cap : KeywordType → ℕ) (M : ℕ)
    (p p' fb fb' : List KeywordType) (base : KeywordType → ℕ) (rem : ℕ)
    (t0 : KeywordType)
    (hp : p.Nodup) (hp' : p'.Nodup) (hfbnd : fb.Nodup) (hfbnd' : fb'.Nodup)
    (hmp : ∀ u, u ∈ p' ↔ u ∈ p) (hfb : ∀ u, u ∈ fb ↔ u ∈ p)
    (hfb' : ∀ u, u ∈ fb' ↔ u ∈ p)
    (ht0 : t0 ∈ p)
    (hfbo : ∀ u, u ∈ predTypes fb' t0 → 1 ≤ cap u - base u →
      u ∈ predTypes fb t0)
    (hrem : 1 ≤ rem) (hcap0 : base t0 < cap t0) :
    (phases cap p fb M base rem).1 t0 ≤
      (phases cap p' fb' M (Function.update base t0 (base t0 + 1))
        (rem - 1)).1 t0 := by
  have hperm : List.Perm p' p := (List.perm_ext_iff_of_nodup hp' hp).mpr hmp
  have ht0' : t0 ∈ p' := (hmp t0).mpr ht0
  have hfb'p' : ∀ u, u ∈ fb' ↔ u ∈ p' := fun u => (hfb' u).trans (hmp u).symm
  have hdem'p : ∀ c, cycleDemand p' cap
      (Function.update base t0 (base t0 + 1)) c =
      cycleDemand p cap (Function.update base t0 (base t0 + 1)) c :=
    fun c => cycleDemand_perm hperm cap _ c
  have hupd : ∀ c, cycleDemand p cap
      (Function.update base t0 (base t0 + 1)) c +
        min (cap t0 - base t0) c =
      cycleDemand p cap base c + min (cap t0 - (base t0 + 1)) c :=
    fun c => cycleDemand_update_add cap p hp t0 ht0 base (base t0 + 1) c
  have hmono : ∀ c, cycleDemand p cap
      (Function.update base t0 (base t0 + 1)) c ≤
      cycleDemand p cap base c := by
    intro c
    apply cycleDemand_le_pointwise
    intro t _
    by_cases htt : t = t0
    · subst htt
      rw [Function.update_same]
      omega
    · rw [Function.update_noteq htt]
  -- fallback predecessor sums read the original base
  have hfbsum : ∀ (Q : List KeywordType),
      ((predTypes Q t0).map (fun u => (cap u -
        Function.update base t0 (base t0 + 1) u) - M)).sum =
      ((predTypes Q t0).map (fun u => (cap u - base u) - M)).sum := by
    intro Q
    apply congrArg
    apply List.map_congr_left
    intro u hu
    rw [Function.update_noteq (ne_of_mem_predTypes hu)]
  by_cases hfullB : cycleDemand p cap
      (Function.update base t0 (base t0 + 1)) M ≤ rem - 1
  · have hfullA : cycleDemand p cap base M ≤ rem := by
      have := hupd M
      omega
    rw [phases_char_full cap p fb hp hfbnd hfb M base rem t0 ht0 hfullA,
      phases_char_full cap p' fb' hp' hfbnd' hfb'p' M
        (Function.update base t0 (base t0 + 1)) (rem - 1) t0 ht0'
        (by rw [hdem'p]; exact hfullB)]
    rw [hdem'p, hfbsum fb', Function.update_same]
    have hsum : ((predTypes fb' t0).map (fun u => (cap u - base u) - M)).sum ≤
        ((predTypes fb t0).map (fun u => (cap u - base u) - M)).sum :=
      sum_le_of_mem_imp _ _ (predTypes_nodup hfbnd' t0) _
        (predTypes_nodup hfbnd t0)
        (fun u hu hpos => hfbo u hu (by omega))
    have := hupd M
    omega
  · obtain ⟨L', hL', hle', hgt'⟩ := exists_level p cap
      (Function.update base t0 (base t0 + 1)) (rem - 1) M hfullB
    by_cases hfullA : cycleDemand p cap base M ≤ rem
    · -- the primed run falls just short of full passes: everything is tight
      have hchain1 : cycleDemand p cap
          (Function.update base t0 (base t0 + 1)) M =
          cycleDemand p cap base M ∧ cycleDemand p cap base M = rem := by
        have h1 := hmono M
        omega
      have hchain2 : cycleDemand p cap
          (Function.update base t0 (base t0 + 1)) (L' + 1) =
          cycleDemand p cap
            (Function.update base t0 (base t0 + 1)) M := by
        have h1 := cycleDemand_mono p cap
          (Function.update base t0 (base t0 + 1)) (show L' + 1 ≤ M by omega)
        omega
      have hpt1 : min (cap t0 - Function.update base t0 (base t0 + 1) t0) M =
          min (cap t0 - base t0) M := by
        have heq := hchain1.1
        unfold cycleDemand at heq
        exact sum_map_eq_of_le_of_mem p
          (fun u hu => by
            by_cases huu : u = t0
            · subst huu
              rw [Function.update_same]
              exact min_le_min (by omega) (le_refl M)
            · rw [Function.update_noteq huu])
          heq t0 ht0
      have hrho : cap t0 - base t0 ≥ M + 1 := by
        rw [Function.update_same] at hpt1
        omega
      have hpt2 : min (cap t0 - Function.update base t0 (base t0 + 1) t0)
          (L' + 1) =
          min (cap t0 - Function.update base t0 (base t0 + 1) t0) M := by
        have heq := hchain2
        unfold cycleDemand at heq
        exact sum_map_eq_of_le_of_mem p
          (fun u hu => min_le_min (le_refl _) (by omega)) heq t0 ht0
      have hLM : L' + 1 = M := by
        rw [Function.update_same] at hpt2
        omega
      rw [phases_char_full cap p fb hp hfbnd hfb M base rem t0 ht0 hfullA,
        phases_char_stopped cap p' fb' hp' M
          (Function.update base t0 (base t0 + 1)) (rem - 1) t0 ht0' L' hL'
          (by rw [hdem'p]; exact hle') (by rw [hdem'p]; exact hgt')]
      rw [Function.update_same]
      have hdemM := hchain1.1
      have hdemrem := hchain1.2
      omega
    · obtain ⟨L, hL, hle, hgt⟩ := exists_level p cap base rem M hfullA
      have hL'leL : L' ≤ L := by
        by_contra hc
        have h1 : L + 1 ≤ L' := by omega
        have h2 := cycleDemand_mono p cap base h1
        have h3 := hupd L'
        have h4 := hmono L'
        omega
      by_cases hLL : L' = L
      · subst hLL
        rw [phases_char_stopped cap p fb hp M base rem t0 ht0 L' hL hle hgt,
          phases_char_stopped cap p' fb' hp' M
            (Function.update base t0 (base t0 + 1)) (rem - 1) t0 ht0' L' hL'
            (by rw [hdem'p]; exact hle') (by rw [hdem'p]; exact hgt')]
        rw [Function.update_same]
        by_cases hA : L' + 1 ≤ cap t0 - base t0 ∧
            rankOf p t0 (fun u => decide (L' + 1 ≤ cap u - base u)) <
              rem - cycleDemand p cap base L'
        · rw [if_pos hA]
          have h1 := hA.1
          omega
        · rw [if_neg hA]
          omega
      · -- the primed level sits exactly one below
        have hL'ltL : L' < L := by omega
        have hd'L : ¬ cycleDemand p cap
            (Function.update base t0 (base t0 + 1)) L ≤ rem - 1 := by
          intro hcon
          have h1 := cycleDemand_mono p cap
            (Function.update base t0 (base t0 + 1)) (show L' + 1 ≤ L by omega)
          omega
        have htight : cycleDemand p cap
            (Function.update base t0 (base t0 + 1)) L =
            cycleDemand p cap base L ∧ cycleDemand p cap base L = rem := by
          have h1 := hmono L
          omega
        have hptL : min (cap t0 - Function.update base t0 (base t0 + 1) t0) L =
            min (cap t0 - base t0) L := by
          have heq := htight.1
          unfold cycleDemand at heq
          exact sum_map_eq_of_le_of_mem p
            (fun u hu => by
              by_cases huu : u = t0
              · subst huu
                rw [Function.update_same]
                exact min_le_min (by omega) (le_refl L)
              · rw [Function.update_noteq huu])
            heq t0 ht0
        have hrho : cap t0 - base t0 ≥ L + 1 := by
          rw [Function.update_same] at hptL
          omega
        have hltdem : cycleDemand p cap base (L - 1) <
            cycleDemand p cap base L := by
          by_cases heq : cycleDemand p cap base (L - 1) =
              cycleDemand p cap base L
          · exfalso
            unfold cycleDemand at heq
            have := sum_map_eq_of_le_of_mem p
              (fun u hu => min_le_min (le_refl _) (show L - 1 ≤ L by omega))
              heq t0 ht0
            omega
          · exact lt_of_le_of_ne
              (cycleDemand_mono p cap base (show L - 1 ≤ L by omega)) heq
        have hd'L1 : cycleDemand p cap
            (Function.update base t0 (base t0 + 1)) (L - 1) ≤ rem - 1 := by
          have h1 := hupd (L - 1)
          have h2 := htight.2
          omega
        have hL'eq : L' + 1 = L := by
          by_contra hc
          have h1 : L - 1 ≥ L' + 1 := by omega
          have h2 := cycleDemand_mono p cap
            (Function.update base t0 (base t0 + 1)) h1
          omega
        rw [phases_char_stopped cap p fb hp M base rem t0 ht0 L hL hle hgt,
          phases_char_stopped cap p' fb' hp' M
            (Function.update base t0 (base t0 + 1)) (rem - 1) t0 ht0' L' hL'
            (by rw [hdem'p]; exact hle') (by rw [hdem'p]; exact hgt')]
        rw [Function.update_same]
        rw [if_neg (fun h : _ ∧ _ => absurd h.2 (by
          have h2 := htight.2
          omega))]
        omega

/-- Releasing one base slot of another type `j` into the pool while the
cycle order may only lose `j` from `t0`'s followers and the fallback order
keeps `t0`'s roomy predecessors cannot cost `t0` anything. -/
theorem phases_mono_drop (cap : KeywordType → ℕ) (M : ℕ)
    (p p' fb fb' : List KeywordType) (base : KeywordType → ℕ) (rem : ℕ)
    (t0 j : KeywordType)
    (hp : p.Nodup) (hp' : p'.Nodup) (hfbnd : fb.Nodup) (hfbnd' : fb'.Nodup)
    (hmp : ∀ u, u ∈ p' ↔ u ∈ p) (hfb : ∀ u, u ∈ fb ↔ u ∈ p)
    (hfb' : ∀ u, u ∈ fb' ↔ u ∈ p)
    (ht0 : t0 ∈ p) (hj : j ∈ p) (hjne : j ≠ t0)
    (hjpos : 1 ≤ base j) (hjle : base j ≤ cap j)
    (hcyc : ∀ u, u ∈ predTypes p' t0 → u ≠ j → 1 ≤ cap u - base u →
      u ∈ predTypes p t0)
    (hfbo : ∀ u, u ∈ predTypes fb' t0 →
      1 ≤ cap u - Function.update base j (base j - 1) u →
      u ∈ predTypes fb t0) :
    (phases cap p fb M base rem).1 t0 ≤
      (phases cap p' fb' M (Function.update base j (base j - 1))
        (rem + 1)).1 t0 := by
  have hperm : List.Perm p' p := (List.perm_ext_iff_of_nodup hp' hp).mpr hmp
  have ht0' : t0 ∈ p' := (hmp t0).mpr ht0
  have hfb'p' : ∀ u, u ∈ fb' ↔ u ∈ p' := fun u => (hfb' u).trans (hmp u).symm
  have hbt0 : Function.update base j (base j - 1) t0 = base t0 :=
    Function.update_noteq (Ne.symm hjne) _ _
  have hbj : Function.update base j (base j - 1) j = base j - 1 :=
    Function.update_same _ _ _
  have hdem'p : ∀ c, cycleDemand p' cap
      (Function.update base j (base j - 1)) c =
      cycleDemand p cap (Function.update base j (base j - 1)) c :=
    fun c => cycleDemand_perm hperm cap _ c
  have hupd : ∀ c, cycleDemand p cap
      (Function.update base j (base j - 1)) c +
        min (cap j - base j) c =
      cycleDemand p cap base c + min (cap j - (base j - 1)) c :=
    fun c => cycleDemand_update_add cap p hp j hj base (base j - 1) c
  have hge : ∀ c, cycleDemand p cap base c ≤
      cycleDemand p cap (Function.update base j (base j - 1)) c := by
    intro c
    apply cycleDemand_le_pointwise
    intro t _
    by_cases htt : t = j
    · subst htt
      rw [Function.update_same]
      omega
    · rw [Function.update_noteq htt]
  by_cases hfullA : cycleDemand p cap base M ≤ rem
  · have hfullB : cycleDemand p cap
        (Function.update base j (base j - 1)) M ≤ rem + 1 := by
      have := hupd M
      omega
    rw [phases_char_full cap p fb hp hfbnd hfb M base rem t0 ht0 hfullA,
      phases_char_full cap p' fb' hp' hfbnd' hfb'p' M
        (Function.update base j (base j - 1)) (rem + 1) t0 ht0'
        (by rw [hdem'p]; exact hfullB)]
    rw [hdem'p, hbt0]
    have hsum1 : ((predTypes fb' t0).map (fun u => (cap u -
        Function.update base j (base j - 1) u) - M)).sum ≤
        ((predTypes fb t0).map (fun u => (cap u -
          Function.update base j (base j - 1) u) - M)).sum :=
      sum_le_of_mem_imp _ _ (predTypes_nodup hfbnd' t0) _
        (predTypes_nodup hfbnd t0)
        (fun u hu hpos => hfbo u hu (by omega))
    have hsum2 : ((predTypes fb t0).map (fun u => (cap u -
        Function.update base j (base j - 1) u) - M)).sum ≤
        ((predTypes fb t0).map (fun u => (cap u - base u) - M)).sum +
          ((cap j - (base j - 1)) - M - ((cap j - base j) - M)) := by
      have hagree : ∀ u, u ≠ j → (cap u -
          Function.update base j (base j - 1) u) - M =
          (cap u - base u) - M := by
        intro u huj
        rw [Function.update_noteq huj]
      have hjge : (cap j - base j) - M ≤ (cap j -
          Function.update base j (base j - 1) j) - M := by
        rw [hbj]
        omega
      have := sum_map_le_update j hagree hjge (predTypes fb t0)
        (predTypes_nodup hfbnd t0)
      rw [hbj] at this
      exact this
    have := hupd M
    omega
  · obtain ⟨L, hL, hle, hgt⟩ := exists_level p cap base rem M hfullA
    by_cases hfullB : cycleDemand p cap
        (Function.update base j (base j - 1)) M ≤ rem + 1
    · -- the extra slot exactly completes the passes
      have htight : cycleDemand p cap base (L + 1) = rem + 1 ∧
          cycleDemand p cap base M = rem + 1 := by
        have h1 := hge M
        have h2 := cycleDemand_mono p cap base (show L + 1 ≤ M by omega)
        omega
      rw [phases_char_stopped cap p fb hp M base rem t0 ht0 L hL hle hgt,
        phases_char_full cap p' fb' hp' hfbnd' hfb'p' M
          (Function.update base j (base j - 1)) (rem + 1) t0 ht0'
          (by rw [hdem'p]; exact hfullB)]
      rw [hdem'p, hbt0]
      by_cases hA : L + 1 ≤ cap t0 - base t0 ∧
          rankOf p t0 (fun u => decide (L + 1 ≤ cap u - base u)) <
            rem - cycleDemand p cap base L
      · rw [if_pos hA]
        have h1 := hA.1
        omega
      · rw [if_neg hA]
        omega
    · obtain ⟨L', hL', hle', hgt'⟩ := exists_level p cap
        (Function.update base j (base j - 1)) (rem + 1) M hfullB
      have hLleL' : L ≤ L' := by
        by_contra hc
        have h1 : L' + 1 ≤ L := by omega
        have h2 := cycleDemand_mono p cap
          (Function.update base j (base j - 1)) h1
        have h3 := hupd L
        omega
      have hL'leL1 : L' ≤ L + 1 := by
        by_contra hc
        have h1 : L + 1 ≤ L' := by omega
        have h2 := cycleDemand_mono p cap base h1
        have h3 := hge L'
        have heq1 : cycleDemand p cap base L' =
            cycleDemand p cap (Function.update base j (base j - 1)) L' := by
          omega
        have heq2 : cycleDemand p cap base (L + 1) =
            cycleDemand p cap base L' := by
          omega
        have hptj1 : min (cap j - base j) L' =
            min (cap j - Function.update base j (base j - 1) j) L' := by
          have heq := heq1
          unfold cycleDemand at heq
          exact sum_map_eq_of_le_of_mem p
            (fun u hu => by
              by_cases huu : u = j
              · subst huu
                rw [Function.update_same]
                exact min_le_min (by omega) (le_refl L')
              · rw [Function.update_noteq huu])
            heq j hj
        have hroomj : L' ≤ cap j - base j := by
          rw [hbj] at hptj1
          omega
        have hptj2 : min (cap j - base j) (L + 1) =
            min (cap j - base j) L' := by
          have heq := heq2
          unfold cycleDemand at heq
          exact sum_map_eq_of_le_of_mem p
            (fun u hu => min_le_min (le_refl _) (by omega)) heq j hj
        omega
      by_cases hLL : L' = L
      · subst hLL
        rw [phases_char_stopped cap p fb hp M base rem t0 ht0 L' hL hle hgt,
          phases_char_stopped cap p' fb' hp' M
            (Function.update base j (base j - 1)) (rem + 1) t0 ht0' L' hL'
            (by rw [hdem'p]; exact hle') (by rw [hdem'p]; exact hgt')]
        rw [hdem'p, hbt0]
        by_cases hA : L' + 1 ≤ cap t0 - base t0 ∧
            rankOf p t0 (fun u => decide (L' + 1 ≤ cap u - base u)) <
              rem - cycleDemand p cap base L'
        · have hrankb : rankOf p' t0 (fun u => decide (L' + 1 ≤ cap u -
              Function.update base j (base j - 1) u)) ≤
              rankOf p t0 (fun u => decide (L' + 1 ≤ cap u - base u)) +
                (if decide (L' + 1 ≤ cap j -
                  Function.update base j (base j - 1) j) = true
                 then 1 else 0) := by
            unfold rankOf
            apply countP_le_special j _ _ (predTypes_nodup hp' t0)
            · intro u huj
              rw [Function.update_noteq huj]
            · intro u hu hune hpu
              have hcu : L' + 1 ≤ cap u - base u := of_decide_eq_true hpu
              exact hcyc u hu hune (by omega)
          rw [if_pos hA, if_pos ?hcB]
          case hcB =>
            refine ⟨hA.1, ?_⟩
            have hA2 := hA.2
            have hupdL := hupd L'
            by_cases hprj : decide (L' + 1 ≤ cap j -
                Function.update base j (base j - 1) j) = true
            · rw [if_pos hprj] at hrankb
              have hroom : L' + 1 ≤ cap j - (base j - 1) := by
                have := of_decide_eq_true hprj
                rw [hbj] at this
                exact this
              omega
            · rw [if_neg hprj] at hrankb
              omega
        · rw [if_neg hA]
          omega
      · have hL'eq : L' = L + 1 := by omega
        subst hL'eq
        rw [phases_char_stopped cap p fb hp M base rem t0 ht0 L hL hle hgt,
          phases_char_stopped cap p' fb' hp' M
            (Function.update base j (base j - 1)) (rem + 1) t0 ht0' (L + 1)
            hL' (by rw [hdem'p]; exact hle') (by rw [hdem'p]; exact hgt')]
        rw [hbt0]
        by_cases hA : L + 1 ≤ cap t0 - base t0 ∧
            rankOf p t0 (fun u => decide (L + 1 ≤ cap u - base u)) <
              rem - cycleDemand p cap base L
        · rw [if_pos hA]
          have h1 := hA.1
          omega
        · rw [if_neg hA]
          omega

/-! ## C7 groundwork: composing the elementary steps -/

/-- The predecessor list of a pivot-headed list is empty. -/
theorem predTypes_head_self (t0 : KeywordType) (l : List KeywordType) :
    predTypes (t0 :: l) t0 = [] := by
  simp [predTypes, List.takeWhile_cons]

/-- The predecessor list of a fronted type. -/
theorem predTypes_cons_of_ne {j t0 : KeywordType} (h : j ≠ t0)
    (l : List KeywordType) :
    predTypes (j :: l) t0 = j :: predTypes l t0 := by
  have hbe : (j == t0) = false := by
    simp only [beq_eq_false_iff_ne, ne_eq]
    exact h
  simp [predTypes, List.takeWhile_cons, hbe]

/-- Erasing a type other than the pivot only shrinks the predecessor
list's membership. -/
theorem predTypes_erase_subset {j t0 : KeywordType} (hjt : j ≠ t0) :
    ∀ (l : List KeywordType) (u : KeywordType),
      u ∈ predTypes (l.erase j) t0 → u ∈ predTypes l t0 := by
  intro l
  induction l with
  | nil => intro u h; simpa [predTypes] using h
  | cons v rest ih =>
    intro u h
    by_cases hvj : v = j
    · subst hvj
      rw [List.erase_cons_head] at h
      rw [predTypes_cons_of_ne hjt]
      exact List.mem_cons_of_mem _ h
    · rw [List.erase_cons_tail (by simpa using hvj)] at h
      by_cases hvt : v = t0
      · subst hvt
        rw [predTypes_head_self] at h
        exact absurd h (List.not_mem_nil u)
      · rw [predTypes_cons_of_ne hvt] at h
        rw [predTypes_cons_of_ne hvt]
        rcases List.mem_cons.mp h with rfl | h
        · exact List.mem_cons_self _ _
        · exact List.mem_cons_of_mem _ (ih u h)

/-- A predecessor other than the erased type stays a predecessor after the
erasure. -/
theorem predTypes_erase_superset (j t0 : KeywordType) :
    ∀ (l : List KeywordType) (u : KeywordType), u ≠ j →
      u ∈ predTypes l t0 → u ∈ predTypes (l.erase j) t0 := by
  intro l
  induction l with
  | nil => intro u _ h; simpa [predTypes] using h
  | cons v rest ih =>
    intro u huj h
    by_cases hvj : v = j
    · subst hvj
      rw [List.erase_cons_head]
      by_cases hjt0 : v = t0
      · subst hjt0
        rw [predTypes_head_self] at h
        exact absurd h (List.not_mem_nil u)
      · rw [predTypes_cons_of_ne hjt0] at h
        rcases List.mem_cons.mp h with rfl | h
        · exact absurd rfl huj
        · exact h
    · rw [List.erase_cons_tail (by simpa using hvj)]
      by_cases hvt : v = t0
      · subst hvt
        rw [predTypes_head_self] at h
        exact absurd h (List.not_mem_nil u)
      · rw [predTypes_cons_of_ne hvt] at h
        rw [predTypes_cons_of_ne hvt]
        rcases List.mem_cons.mp h with rfl | h
        · exact List.mem_cons_self _ _
        · exact List.mem_cons_of_mem _ (ih u huj h)

/-- Iterated drops: lowering other types' bases one slot at a time, each
freed slot returning to the pool, while every dropped type moves ahead of
`t0` in the cycle order. -/
theorem phases_drops (cap : KeywordType → ℕ) (M : ℕ)
    (p fb : List KeywordType) (t0 : KeywordType)
    (hfbnd : fb.Nodup) (ht0p : t0 ∈ p) :
    ∀ (D : ℕ) (q : List KeywordType) (base baseT : KeywordType → ℕ) (rem : ℕ),
      q.Nodup → (∀ u, u ∈ q ↔ u ∈ p) → (∀ u, u ∈ fb ↔ u ∈ p) →
      (∀ u, u ∉ q → baseT u = base u) →
      (baseT t0 = base t0) →
      (∀ u, u ∈ q → baseT u ≤ base u) →
      (∀ u, u ∈ q → base u ≤ cap u) →
      ((q.map base).sum = (q.map baseT).sum + D) →
      ∃ pT : List KeywordType, pT.Nodup ∧ (∀ u, u ∈ pT ↔ u ∈ p) ∧
        (∀ u, u ∈ predTypes q t0 → u ∈ predTypes pT t0) ∧
        (∀ u, u ∈ q → baseT u < base u → u ∈ predTypes pT t0) ∧
        (phases cap q fb M base rem).1 t0 ≤
          (phases cap pT fb M baseT (rem + D)).1 t0 := by
  intro D
  induction D with
  | zero =>
    intro q base baseT rem hq hqp hfbp hout hbt0 hle hcap hsum
    have heqq : ∀ u ∈ q, baseT u = base u := by
      intro u hu
      exact sum_map_eq_of_le_of_mem q hle (by omega) u hu
    have hfun : baseT = base := by
      funext u
      by_cases huq : u ∈ q
      · exact heqq u huq
      · exact hout u huq
    refine ⟨q, hq, hqp, fun u h => h, ?_, ?_⟩
    · intro u hu hlt
      rw [heqq u hu] at hlt
      omega
    · rw [hfun, Nat.add_zero]
  | succ D ih =>
    intro q base baseT rem hq hqp hfbp hout hbt0 hle hcap hsum
    have hex : ∃ j, j ∈ q ∧ baseT j < base j := by
      by_contra hno
      push_neg at hno
      have heq : ∀ u ∈ q, base u = baseT u := fun u hu =>
        le_antisymm (hno u hu) (hle u hu)
      have : (q.map base).sum = (q.map baseT).sum :=
        congrArg List.sum (List.map_congr_left heq)
      omega
    obtain ⟨j, hjq, hjlt⟩ := hex
    have hjne : j ≠ t0 := by
      intro h
      rw [h, hbt0] at hjlt
      omega
    have ht0q : t0 ∈ q := (hqp t0).mpr ht0p
    have hq₁nd : (j :: q.erase j).Nodup :=
      List.nodup_cons.mpr
        ⟨fun h => ((hq.mem_erase_iff).mp h).1 rfl, hq.erase j⟩
    have hq₁mem : ∀ u, u ∈ j :: q.erase j ↔ u ∈ q := by
      intro u
      constructor
      · intro h
        rcases List.mem_cons.mp h with rfl | h
        · exact hjq
        · exact ((hq.mem_erase_iff).mp h).2
      · intro h
        by_cases huj : u = j
        · subst huj
          exact List.mem_cons_self _ _
        · exact List.mem_cons_of_mem _ ((hq.mem_erase_iff).mpr ⟨huj, h⟩)
    have hfbq : ∀ u, u ∈ fb ↔ u ∈ q := fun u =>
      (hfbp u).trans (hqp u).symm
    have hstep := phases_mono_drop cap M q (j :: q.erase j) fb fb base rem t0 j
      hq hq₁nd hfbnd hfbnd hq₁mem hfbq hfbq ht0q hjq hjne
      (by omega) (hcap j hjq)
      (by
        intro u hu hune hroom
        rw [predTypes_cons_of_ne hjne] at hu
        rcases List.mem_cons.mp hu with rfl | hu
        · exact absurd rfl hune
        · exact predTypes_erase_subset hjne q u hu)
      (fun u hu _ => hu)
    have hbase_eq : Function.update
        (Function.update base j (base j - 1)) j
        (Function.update base j (base j - 1) j + 1) = base := by
      funext u
      by_cases huj : u = j
      · subst huj
        simp only [Function.update_same]
        omega
      · simp only [Function.update_noteq huj]
    have hsum_drop : (q.map base).sum =
        (q.map (Function.update base j (base j - 1))).sum + 1 := by
      have := sum_map_update_add q hq
        (Function.update base j (base j - 1)) j hjq 1
      rw [hbase_eq] at this
      omega
    have hperm₁ : List.Perm (j :: q.erase j) q :=
      (List.perm_cons_erase hjq).symm
    have hsum₁ : ((j :: q.erase j).map
        (Function.update base j (base j - 1))).sum =
        ((j :: q.erase j).map baseT).sum + D := by
      rw [(hperm₁.map (Function.update base j (base j - 1))).sum_eq,
        (hperm₁.map baseT).sum_eq]
      omega
    obtain ⟨pT, h1, h2, h3, h4, h5⟩ := ih (j :: q.erase j)
      (Function.update base j (base j - 1)) baseT (rem + 1)
      hq₁nd (fun u => (hq₁mem u).trans (hqp u)) hfbp
      (by
        intro u hu
        have huq : u ∉ q := fun h => hu ((hq₁mem u).mpr h)
        have huj : u ≠ j := fun h => hu (h ▸ List.mem_cons_self j _)
        rw [Function.update_noteq huj]
        exact hout u huq)
      (by rw [Function.update_noteq (Ne.symm hjne)]; exact hbt0)
      (by
        intro u hu
        by_cases huj : u = j
        · subst huj
          rw [Function.update_same]
          omega
        · rw [Function.update_noteq huj]
          exact hle u ((hq₁mem u).mp hu))
      (by
        intro u hu
        by_cases huj : u = j
        · rw [huj, Function.update_same]
          have := hcap j hjq
          omega
        · rw [Function.update_noteq huj]
          exact hcap u ((hq₁mem u).mp hu))
      hsum₁
    refine ⟨pT, h1, h2, ?_, ?_, ?_⟩
    · intro u hu
      apply h3
      rw [predTypes_cons_of_ne hjne]
      by_cases huj : u = j
      · subst huj
        exact List.mem_cons_self _ _
      · exact List.mem_cons_of_mem _
          (predTypes_erase_superset j t0 q u huj hu)
    · intro u huq hult
      by_cases huj : u = j
      · subst huj
        apply h3
        rw [predTypes_cons_of_ne hjne]
        exact List.mem_cons_self _ _
      · refine h4 u ((hq₁mem u).mpr huq) ?_
        rw [Function.update_noteq huj]
        exact hult
    · calc (phases cap q fb M base rem).1 t0
          ≤ (phases cap (j :: q.erase j) fb M
              (Function.update base j (base j - 1)) (rem + 1)).1 t0 := hstep
        _ ≤ (phases cap pT fb M baseT (rem + 1 + D)).1 t0 := h5
        _ = (phases cap pT fb M baseT (rem + (D + 1))).1 t0 := by
            rw [show rem + 1 + D = rem + (D + 1) from by omega]

/-- Iterated bumps: banking `k` pool slots into `t0`'s base, orders
unchanged. -/
theorem phases_bumps (cap : KeywordType → ℕ) (M : ℕ)
    (q fb : List KeywordType) (t0 : KeywordType)
    (hq : q.Nodup) (hfbnd : fb.Nodup)
    (hfbq : ∀ u, u ∈ fb ↔ u ∈ q) (ht0 : t0 ∈ q) :
    ∀ (k : ℕ) (base : KeywordType → ℕ) (rem : ℕ),
      k ≤ rem → base t0 + k ≤ cap t0 →
      (phases cap q fb M base rem).1 t0 ≤
        (phases cap q fb M (Function.update base t0 (base t0 + k))
          (rem - k)).1 t0 := by
  intro k
  induction k with
  | zero =>
    intro base rem _ _
    have hfun : Function.update base t0 (base t0 + 0) = base := by
      funext u
      by_cases h : u = t0
      · rw [h, Function.update_same]
        omega
      · rw [Function.update_noteq h]
    rw [hfun, Nat.sub_zero]
  | succ k ih =>
    intro base rem hkr hkc
    have h1 := ih base rem (by omega) (by omega)
    have h2 := phases_mono_bump cap M q q fb fb
      (Function.update base t0 (base t0 + k)) (rem - k) t0
      hq hq hfbnd hfbnd (fun u => Iff.rfl) hfbq hfbq ht0
      (fun u hu _ => hu)
      (by omega)
      (by rw [Function.update_same]; omega)
    have hfun : Function.update (Function.update base t0 (base t0 + k)) t0
        (Function.update base t0 (base t0 + k) t0 + 1) =
        Function.update base t0 (base t0 + (k + 1)) := by
      funext u
      by_cases h : u = t0
      · subst h
        simp only [Function.update_same]
        omega
      · simp only [Function.update_noteq h]
    have harm : rem - k - 1 = rem - (k + 1) := by omega
    rw [hfun, harm] at h2
    exact le_trans h1 h2

/-- Abstract monotonicity of the loop-plus-fallback composite: raising
`t0`'s base within capacity, lowering the others, conserving the combined
budget, with order changes limited to the code's sort behaviour (`t0` keeps
its precedence over any type whose base did not change and has spare room,
unless `t0`'s own base grew; the fallback order can only improve for `t0`),
never lowers `t0`'s final allocation. -/
theorem phases_mono_main (cap : KeywordType → ℕ) (M : ℕ)
    (p p' fb fb' : List KeywordType) (base base' : KeywordType → ℕ)
    (rem rem' : ℕ) (t0 : KeywordType)
    (hp : p.Nodup) (hp' : p'.Nodup) (hfbnd : fb.Nodup) (hfbnd' : fb'.Nodup)
    (hmp : ∀ u, u ∈ p' ↔ u ∈ p) (hfb : ∀ u, u ∈ fb ↔ u ∈ p)
    (hfb' : ∀ u, u ∈ fb' ↔ u ∈ p) (ht0 : t0 ∈ p)
    (hbup : base t0 ≤ base' t0) (hbcap : base' t0 ≤ cap t0)
    (hoth : ∀ u, u ≠ t0 → base' u ≤ base u)
    (hcapb : ∀ u, base u ≤ cap u)
    (hout : ∀ u, u ∉ p → base' u = base u)
    (hbal : rem' + (p.map base').sum = rem + (p.map base).sum)
    (hcyc : ∀ u, u ∈ predTypes p' t0 → base' t0 = base t0 →
      base' u = base u → base' u < cap u → u ∈ predTypes p t0)
    (hfbo : ∀ u, u ∈ predTypes fb' t0 → 1 ≤ cap u - base' u →
      u ∈ predTypes fb t0) :
    (phases cap p fb M base rem).1 t0 ≤
      (phases cap p' fb' M base' rem').1 t0 := by
  have hDle : ∀ u ∈ p, Function.update base' t0 (base t0) u ≤ base u := by
    intro u _
    by_cases hu : u = t0
    · rw [hu, Function.update_same]
    · rw [Function.update_noteq hu]
      exact hoth u hu
  have hsum_le : (p.map (Function.update base' t0 (base t0))).sum ≤
      (p.map base).sum :=
    List.sum_le_sum hDle
  obtain ⟨pT, hTnd, hTmem, hTpred, hTdrop, hTle⟩ :=
    phases_drops cap M p fb t0 hfbnd ht0
      ((p.map base).sum - (p.map (Function.update base' t0 (base t0))).sum)
      p base (Function.update base' t0 (base t0)) rem hp (fun _ => Iff.rfl)
      hfb
      (by
        intro u hup
        have hune : u ≠ t0 := fun h => hup (h ▸ ht0)
        rw [Function.update_noteq hune]
        exact hout u hup)
      (Function.update_same _ _ _)
      hDle
      (fun u _ => hcapb u)
      (by omega)
  have hfix : Function.update (Function.update base' t0 (base t0)) t0
      (Function.update base' t0 (base t0) t0 + (base' t0 - base t0)) =
      base' := by
    funext u
    by_cases hu : u = t0
    · rw [hu]
      simp only [Function.update_same]
      omega
    · simp only [Function.update_noteq hu]
  have hsum' : (p.map base').sum =
      (p.map (Function.update base' t0 (base t0))).sum +
        (base' t0 - base t0) := by
    have := sum_map_update_add p hp (Function.update base' t0 (base t0))
      t0 ht0 (base' t0 - base t0)
    rw [hfix] at this
    omega
  have ht0T : t0 ∈ pT := (hTmem t0).mpr ht0
  have hfbT : ∀ u, u ∈ fb ↔ u ∈ pT := fun u =>
    (hfb u).trans (hTmem u).symm
  by_cases hΔ0 : base' t0 = base t0
  · have hbaseD_eq : Function.update base' t0 (base t0) = base' := by
      funext u
      by_cases hu : u = t0
      · rw [hu, Function.update_same, hΔ0]
      · rw [Function.update_noteq hu]
    have hremD : rem +
        ((p.map base).sum -
          (p.map (Function.update base' t0 (base t0))).sum) = rem' := by
      omega
    rw [hremD, hbaseD_eq] at hTle
    refine le_trans hTle ?_
    apply phases_mono_reorder cap M pT p' fb fb' base' rem' t0
      hTnd hp' hfbnd hfbnd'
      (fun u => (hmp u).trans (hTmem u).symm) hfbT
      (fun u => (hfb' u).trans (hTmem u).symm) ht0T
    · intro u hu hroom
      have hune : u ≠ t0 := ne_of_mem_predTypes hu
      have hup : u ∈ p := (hmp u).mp ((List.takeWhile_sublist _).subset hu)
      by_cases hbu : base' u = base u
      · exact hTpred u (hcyc u hu hΔ0 hbu (by omega))
      · refine hTdrop u hup ?_
        rw [Function.update_noteq hune]
        have := hoth u hune
        omega
    · intro u hu hroom
      exact hfbo u hu hroom
  · have hbump := phases_bumps cap M pT fb t0 hTnd hfbnd hfbT ht0T
      (base' t0 - base t0 - 1) (Function.update base' t0 (base t0))
      (rem + ((p.map base).sum -
        (p.map (Function.update base' t0 (base t0))).sum))
      (by omega)
      (by rw [Function.update_same]; omega)
    have hfinal := phases_mono_bump cap M pT p' fb fb'
      (Function.update (Function.update base' t0 (base t0)) t0
        (Function.update base' t0 (base t0) t0 + (base' t0 - base t0 - 1)))
      (rem + ((p.map base).sum -
        (p.map (Function.update base' t0 (base t0))).sum) -
          (base' t0 - base t0 - 1)) t0
      hTnd hp' hfbnd hfbnd'
      (fun u => (hmp u).trans (hTmem u).symm) hfbT
      (fun u => (hfb' u).trans (hTmem u).symm) ht0T
      (by
        intro u hu hroom
        have hune : u ≠ t0 := ne_of_mem_predTypes hu
        rw [Function.update_noteq hune, Function.update_noteq hune] at hroom
        exact hfbo u hu hroom)
      (by omega)
      (by simp only [Function.update_same]; omega)
    have hfin2 : Function.update
        (Function.update (Function.update base' t0 (base t0)) t0
          (Function.update base' t0 (base t0) t0 +
            (base' t0 - base t0 - 1))) t0
        (Function.update (Function.update base' t0 (base t0)) t0
          (Function.update base' t0 (base t0) t0 +
            (base' t0 - base t0 - 1)) t0 + 1) = base' := by
      funext u
      by_cases hu : u = t0
      · rw [hu]
        simp only [Function.update_same]
        omega
      · simp only [Function.update_noteq hu]
    have hrem2 : rem + ((p.map base).sum -
        (p.map (Function.update base' t0 (base t0))).sum) -
          (base' t0 - base t0 - 1) - 1 = rem' := by
      omega
    rw [hfin2, hrem2] at hfinal
    exact le_trans hTle (le_trans hbump hfinal)

/-! ## C7 groundwork: the two sort comparators are total preorders -/

/-- No two enum value strings are mutually smaller. -/
theorem value_lt_asymm (t u : KeywordType) :
    ¬(t.value < u.value ∧ u.value < t.value) := by
  cases t <;> cases u <;> with_unfolding_all decide

/-- Distinct enum members have strictly ordered value strings. -/
theorem value_lt_total (t u : KeywordType) :
    t = u ∨ t.value < u.value ∨ u.value < t.value := by
  cases t <;> cases u <;> with_unfolding_all decide

/-- Non-strictness of the value-string order composes. -/
theorem value_not_lt_trans (t u v : KeywordType) :
    ¬ t.value < u.value → ¬ u.value < v.value → ¬ t.value < v.value := by
  cases t <;> cases u <;> cases v <;> with_unfolding_all decide

/-- The descending fractional comparator is total. -/
theorem fracGe_total (a b : ℚ × KeywordType) : fracGe a b || fracGe b a := by
  unfold fracGe
  simp only [Bool.or_eq_true, Bool.and_eq_true, decide_eq_true_eq,
    Bool.not_eq_true', decide_eq_false_iff_not]
  rcases lt_trichotomy a.1 b.1 with h | h | h
  · exact Or.inr (Or.inl h)
  · by_cases hv : a.2.value < b.2.value
    · refine Or.inr (Or.inr ⟨h.symm, ?_⟩)
      intro hv'
      exact value_lt_asymm a.2 b.2 ⟨hv, hv'⟩
    · exact Or.inl (Or.inr ⟨h, hv⟩)
  · exact Or.inl (Or.inl h)

/-- The descending fractional comparator is transitive. -/
theorem fracGe_trans (a b c : ℚ × KeywordType) :
    fracGe a b → fracGe b c → fracGe a c := by
  unfold fracGe
  simp only [Bool.or_eq_true, Bool.and_eq_true, decide_eq_true_eq,
    Bool.not_eq_true', decide_eq_false_iff_not]
  rintro (h1 | ⟨h1e, h1v⟩) (h2 | ⟨h2e, h2v⟩)
  · exact Or.inl (lt_trans h2 h1)
  · exact Or.inl (h2e ▸ h1)
  · exact Or.inl (h1e ▸ h2)
  · exact Or.inr ⟨h1e.trans h2e, value_not_lt_trans a.2 b.2 c.2 h1v h2v⟩

/-- The graceful-fallback comparator is total. -/
theorem fallbackGe_total (kws : List Keyword) (w : KeywordType → ℚ)
    (a b : KeywordType) :
    fallbackGe kws w a b || fallbackGe kws w b a := by
  unfold fallbackGe
  simp only [Bool.or_eq_true, Bool.and_eq_true, decide_eq_true_eq]
  rcases lt_trichotomy (normalizedWeights kws w a) (normalizedWeights kws w b)
    with h | h | h
  · exact Or.inr (Or.inl h)
  · rcases le_total ((bucketOf kws b).length) ((bucketOf kws a).length)
      with hl | hl
    · exact Or.inl (Or.inr ⟨h, hl⟩)
    · exact Or.inr (Or.inr ⟨h.symm, hl⟩)
  · exact Or.inl (Or.inl h)

/-- The graceful-fallback comparator is transitive. -/
theorem fallbackGe_trans (kws : List Keyword) (w : KeywordType → ℚ)
    (a b c : KeywordType) :
    fallbackGe kws w a b → fallbackGe kws w b c → fallbackGe kws w a c := by
  unfold fallbackGe
  simp only [Bool.or_eq_true, Bool.and_eq_true, decide_eq_true_eq]
  rintro (h1 | ⟨h1e, h1l⟩) (h2 | ⟨h2e, h2l⟩)
  · exact Or.inl (lt_trans h2 h1)
  · exact Or.inl (h2e ▸ h1)
  · exact Or.inl (h1e ▸ h2)
  · exact Or.inr ⟨h1e.trans h2e, le_trans h2l h1l⟩

/-! ## C7 groundwork: order facts about sorted outputs -/

/-- A pairwise relation holds from any predecessor to the pivot. -/
theorem rel_of_predTypes {R : KeywordType → KeywordType → Prop} :
    ∀ (l : List KeywordType), l.Pairwise R → ∀ {u t0 : KeywordType},
      u ∈ predTypes l t0 → t0 ∈ l → R u t0 := by
  intro l
  induction l with
  | nil => intro _ u t0 h _; simpa [predTypes] using h
  | cons v rest ih =>
    intro hpw u t0 hu ht0
    obtain ⟨hv, hrest⟩ := List.pairwise_cons.mp hpw
    by_cases hvt : v = t0
    · subst hvt
      rw [predTypes_head_self] at hu
      exact absurd hu (List.not_mem_nil u)
    · rw [predTypes_cons_of_ne hvt] at hu
      have ht0rest : t0 ∈ rest := by
        rcases List.mem_cons.mp ht0 with h | h
        · exact absurd h.symm hvt
        · exact h
      rcases List.mem_cons.mp hu with rfl | hu
      · exact hv t0 ht0rest
      · exact ih hrest hu ht0rest

/-- Two distinct listed types: one precedes the other. -/
theorem mem_predTypes_or : ∀ (l : List KeywordType) {u t0 : KeywordType},
    u ≠ t0 → u ∈ l → t0 ∈ l →
    u ∈ predTypes l t0 ∨ t0 ∈ predTypes l u := by
  intro l
  induction l with
  | nil => intro u t0 _ h _; exact absurd h (List.not_mem_nil u)
  | cons v rest ih =>
    intro u t0 hne hu ht0
    by_cases hvt : v = t0
    · subst hvt
      right
      rw [predTypes_cons_of_ne (Ne.symm hne)]
      exact List.mem_cons_self _ _
    · by_cases hvu : v = u
      · subst hvu
        left
        rw [predTypes_cons_of_ne hne]
        exact List.mem_cons_self _ _
      · have hu' : u ∈ rest :=
          (List.mem_cons.mp hu).resolve_left (fun h => hvu h.symm)
        have ht0' : t0 ∈ rest :=
          (List.mem_cons.mp ht0).resolve_left (fun h => hvt h.symm)
        rcases ih hne hu' ht0' with h | h
        · left
          rw [predTypes_cons_of_ne hvt]
          exact List.mem_cons_of_mem _ h
        · right
          rw [predTypes_cons_of_ne hvu]
          exact List.mem_cons_of_mem _ h

/-- A predecessor and the pivot form an ordered pair sublist. -/
theorem pair_sublist_of_predTypes : ∀ (l : List KeywordType)
    {u t0 : KeywordType}, u ∈ predTypes l t0 → t0 ∈ l → List.Sublist [u, t0] l := by
  intro l
  induction l with
  | nil => intro u t0 h _; simpa [predTypes] using h
  | cons v rest ih =>
    intro u t0 hu ht0
    by_cases hvt : v = t0
    · subst hvt
      rw [predTypes_head_self] at hu
      exact absurd hu (List.not_mem_nil u)
    · rw [predTypes_cons_of_ne hvt] at hu
      have ht0' : t0 ∈ rest :=
        (List.mem_cons.mp ht0).resolve_left (fun h => hvt h.symm)
      rcases List.mem_cons.mp hu with rfl | hu
      · exact List.Sublist.cons₂ _ (List.singleton_sublist.mpr ht0')
      · exact List.Sublist.cons _ (ih hu ht0')

/-- In a duplicate-free list, an ordered pair sublist makes the first
component a predecessor of the second. -/
theorem predTypes_of_pair_sublist : ∀ (l : List KeywordType), l.Nodup →
    ∀ {u t0 : KeywordType}, List.Sublist [u, t0] l → u ∈ predTypes l t0 := by
  intro l
  induction l with
  | nil =>
    intro _ u t0 h
    have := h.subset (List.mem_cons_self u _)
    exact absurd this (List.not_mem_nil u)
  | cons v rest ih =>
    intro hnd u t0 h
    have hv : v ∉ rest := (List.nodup_cons.mp hnd).1
    have hrest : rest.Nodup := (List.nodup_cons.mp hnd).2
    cases h with
    | cons _ h =>
      have hm := ih hrest h
      by_cases hvt : v = t0
      · exfalso
        apply hv
        rw [hvt]
        exact h.subset (by simp)
      · rw [predTypes_cons_of_ne hvt]
        exact List.mem_cons_of_mem _ hm
    | cons₂ _ h =>
      have ht0rest : t0 ∈ rest := List.singleton_sublist.mp h
      have hvt : v ≠ t0 := fun he => hv (he ▸ ht0rest)
      rw [predTypes_cons_of_ne hvt]
      exact List.mem_cons_self _ _

/-- Precedence is asymmetric. -/
theorem predTypes_asymm : ∀ (l : List KeywordType) {u t0 : KeywordType},
    u ∈ predTypes l t0 → t0 ∈ predTypes l u → False := by
  intro l
  induction l with
  | nil => intro u t0 h _; simpa [predTypes] using h
  | cons v rest ih =>
    intro u t0 h1 h2
    by_cases hvt : v = t0
    · subst hvt
      rw [predTypes_head_self] at h1
      exact absurd h1 (List.not_mem_nil u)
    · by_cases hvu : v = u
      · subst hvu
        rw [predTypes_head_self] at h2
        exact absurd h2 (List.not_mem_nil t0)
      · rw [predTypes_cons_of_ne hvt] at h1
        rw [predTypes_cons_of_ne hvu] at h2
        rcases List.mem_cons.mp h1 with h | h1
        · exact hvu h.symm
        · rcases List.mem_cons.mp h2 with h | h2
          · exact hvt h.symm
          · exact ih h1 h2

/-! ## C7 groundwork: weight-map monotonicity along the pipeline -/

/-- The normalizer's two branches as one conditional formula. -/
theorem normalizedWeights_eq_ite (kws : List Keyword) (wx : KeywordType → ℚ)
    (t : KeywordType) :
    normalizedWeights kws wx t =
      if ((availableTypes kws).map (fun t => max (wx t) 0)).sum ≤ 0
      then 1 / ((availableTypes kws).length : ℚ)
      else max (wx t) 0 /
        ((availableTypes kws).map (fun t => max (wx t) 0)).sum := by
  unfold normalizedWeights
  by_cases h : ((availableTypes kws).map (fun t => max (wx t) 0)).sum ≤ 0
  · rw [if_pos h, if_pos h]
  · rw [if_neg h, if_neg h]

/-- Raising one category's raw weight raises its normalized weight and
lowers every other listed category's normalized weight. -/
theorem normalizedWeights_mono (kws : List Keyword) (w w' : KeywordType → ℚ)
    (t0 : KeywordType) (hw : w t0 ≤ w' t0)
    (hoth : ∀ u, u ≠ t0 → w' u = w u) (ht0 : t0 ∈ availableTypes kws) :
    normalizedWeights kws w t0 ≤ normalizedWeights kws w' t0 ∧
    ∀ u, u ≠ t0 → u ∈ availableTypes kws →
      normalizedWeights kws w' u ≤ normalizedWeights kws w u := by
  have hnodup := availableTypes_nodup kws
  have hperm : List.Perm (availableTypes kws)
      (t0 :: (availableTypes kws).erase t0) := List.perm_cons_erase ht0
  have hsplit : ∀ wx : KeywordType → ℚ,
      ((availableTypes kws).map (fun t => max (wx t) 0)).sum =
      max (wx t0) 0 +
        (((availableTypes kws).erase t0).map (fun t => max (wx t) 0)).sum := by
    intro wx
    rw [(hperm.map (fun t => max (wx t) 0)).sum_eq]
    simp
  have hRR : (((availableTypes kws).erase t0).map
      (fun t => max (w' t) 0)).sum =
      (((availableTypes kws).erase t0).map (fun t => max (w t) 0)).sum := by
    apply congrArg
    apply List.map_congr_left
    intro u hu
    rw [hoth u ((hnodup.mem_erase_iff).mp hu).1]
  have hR0 : 0 ≤ (((availableTypes kws).erase t0).map
      (fun t => max (w t) 0)).sum :=
    List.sum_nonneg (by
      intro x hx
      obtain ⟨u, _, rfl⟩ := List.mem_map.mp hx
      exact le_max_right _ _)
  have hm : max (w t0) 0 ≤ max (w' t0) 0 := max_le_max hw (le_refl 0)
  have hm0 : (0 : ℚ) ≤ max (w t0) 0 := le_max_right _ _
  have hm'0 : (0 : ℚ) ≤ max (w' t0) 0 := le_max_right _ _
  have hS0 : (0 : ℚ) ≤ ((availableTypes kws).map (fun t => max (w t) 0)).sum :=
    List.sum_nonneg (by
      intro x hx
      obtain ⟨u, _, rfl⟩ := List.mem_map.mp hx
      exact le_max_right _ _)
  have hSS' : ((availableTypes kws).map (fun t => max (w t) 0)).sum ≤
      ((availableTypes kws).map (fun t => max (w' t) 0)).sum := by
    rw [hsplit w, hsplit w', hRR]
    linarith
  have hn1 : (1 : ℚ) ≤ ((availableTypes kws).length : ℚ) := by
    have : availableTypes kws ≠ [] := fun h => by
      rw [h] at ht0
      exact List.not_mem_nil t0 ht0
    have hlen : 1 ≤ (availableTypes kws).length := by
      cases h : availableTypes kws
      · exact absurd h this
      · simp
    exact_mod_cast hlen
  by_cases hS'le : ((availableTypes kws).map (fun t => max (w' t) 0)).sum ≤ 0
  · have hSle : ((availableTypes kws).map (fun t => max (w t) 0)).sum ≤ 0 :=
      le_trans hSS' hS'le
    constructor
    · rw [normalizedWeights_eq_ite, normalizedWeights_eq_ite,
        if_pos hSle, if_pos hS'le]
    · intro u _ _
      rw [normalizedWeights_eq_ite, normalizedWeights_eq_ite,
        if_pos hSle, if_pos hS'le]
  · by_cases hSle : ((availableTypes kws).map (fun t => max (w t) 0)).sum ≤ 0
    · have hSzero : ((availableTypes kws).map (fun t => max (w t) 0)).sum = 0 :=
        le_antisymm hSle hS0
      have hS'pos : 0 < ((availableTypes kws).map
          (fun t => max (w' t) 0)).sum := lt_of_not_le hS'le
      constructor
      · rw [normalizedWeights_eq_ite, normalizedWeights_eq_ite,
          if_pos hSle, if_neg hS'le]
        have hm'S : max (w' t0) 0 = ((availableTypes kws).map
            (fun t => max (w' t) 0)).sum := by
          rw [hsplit w', hRR]
          have : max (w t0) 0 +
              (((availableTypes kws).erase t0).map
                (fun t => max (w t) 0)).sum = 0 := by
            rw [← hsplit w]
            exact hSzero
          linarith
        rw [← hm'S, div_self (by linarith : max (w' t0) 0 ≠ 0)]
        exact div_le_one_of_le hn1 (by linarith)
      · intro u hune hu
        rw [normalizedWeights_eq_ite, normalizedWeights_eq_ite,
          if_pos hSle, if_neg hS'le]
        have humem : max (w u) 0 ≤ ((availableTypes kws).map
            (fun t => max (w t) 0)).sum := by
          apply List.single_le_sum (by
            intro x hx
            obtain ⟨v, _, rfl⟩ := List.mem_map.mp hx
            exact le_max_right _ _)
          exact List.mem_map_of_mem _ hu
        have huz : max (w u) 0 = 0 :=
          le_antisymm (by linarith) (le_max_right _ _)
        rw [hoth u hune, huz, zero_div]
        positivity
    · have hSpos : 0 < ((availableTypes kws).map
          (fun t => max (w t) 0)).sum := lt_of_not_le hSle
      have hS'pos : 0 < ((availableTypes kws).map
          (fun t => max (w' t) 0)).sum := lt_of_not_le hS'le
      constructor
      · rw [normalizedWeights_eq_ite, normalizedWeights_eq_ite,
          if_neg hSle, if_neg hS'le]
        rw [div_le_div_iff hSpos hS'pos]
        have h1 := hsplit w
        have h2 := hsplit w'
        rw [hRR] at h2
        nlinarith [mul_le_mul_of_nonneg_right hm hR0]
      · intro u hune _
        rw [normalizedWeights_eq_ite, normalizedWeights_eq_ite,
          if_neg hSle, if_neg hS'le]
        rw [hoth u hune]
        apply div_le_div_of_nonneg_left (le_max_right _ _) hSpos hSS'

/-- Raising one category's weight raises its desired share. -/
theorem desiredShare_mono (kws : List Keyword) (w w' : KeywordType → ℚ)
    (b : ℕ) (t0 : KeywordType) (hw : w t0 ≤ w' t0)
    (hoth : ∀ u, u ≠ t0 → w' u = w u) (ht0 : t0 ∈ availableTypes kws) :
    desiredShare kws w b t0 ≤ desiredShare kws w' b t0 := by
  unfold desiredShare
  exact mul_le_mul_of_nonneg_left
    ((normalizedWeights_mono kws w w' t0 hw hoth ht0).1)
    (by positivity)

/-- Raising one category's weight lowers the other categories' desired
shares. -/
theorem desiredShare_anti (kws : List Keyword) (w w' : KeywordType → ℚ)
    (b : ℕ) (t0 u : KeywordType) (hw : w t0 ≤ w' t0)
    (hoth : ∀ v, v ≠ t0 → w' v = w v) (ht0 : t0 ∈ availableTypes kws)
    (hune : u ≠ t0) (hu : u ∈ availableTypes kws) :
    desiredShare kws w' b u ≤ desiredShare kws w b u := by
  unfold desiredShare
  exact mul_le_mul_of_nonneg_left
    ((normalizedWeights_mono kws w w' t0 hw hoth ht0).2 u hune hu)
    (by positivity)

/-- Base takes follow the desired shares upward at the raised category. -/
theorem baseAlloc_mono (kws : List Keyword) (w w' : KeywordType → ℚ)
    (b : ℕ) (t0 : KeywordType) (hw : w t0 ≤ w' t0)
    (hoth : ∀ u, u ≠ t0 → w' u = w u) (ht0 : t0 ∈ availableTypes kws) :
    baseAlloc kws w b t0 ≤ baseAlloc kws w' b t0 := by
  unfold baseAlloc
  apply min_le_min (le_refl _)
  apply Int.toNat_le_toNat
  exact Int.floor_le_floor (desiredShare_mono kws w w' b t0 hw hoth ht0)

/-- Base takes follow the desired shares downward at every other
category. -/
theorem baseAlloc_anti (kws : List Keyword) (w w' : KeywordType → ℚ)
    (b : ℕ) (t0 u : KeywordType) (hw : w t0 ≤ w' t0)
    (hoth : ∀ v, v ≠ t0 → w' v = w v) (ht0 : t0 ∈ availableTypes kws)
    (hune : u ≠ t0) :
    baseAlloc kws w' b u ≤ baseAlloc kws w b u := by
  by_cases hu : u ∈ availableTypes kws
  · unfold baseAlloc
    apply min_le_min (le_refl _)
    apply Int.toNat_le_toNat
    exact Int.floor_le_floor (desiredShare_anti kws w w' b t0 u hw hoth ht0
      hune hu)
  · have hempty : bucketOf kws u = [] := by
      by_contra h
      exact hu ((mem_availableTypes kws u).mpr h)
    unfold baseAlloc
    rw [hempty]
    simp

/-- Categories without keywords always get base take zero. -/
theorem baseAlloc_out (kws : List Keyword) (w : KeywordType → ℚ) (b : ℕ)
    (u : KeywordType) (hu : u ∉ availableTypes kws) :
    baseAlloc kws w b u = 0 := by
  have hempty : bucketOf kws u = [] := by
    by_contra h
    exact hu ((mem_availableTypes kws u).mpr h)
  unfold baseAlloc
  rw [hempty]
  simp

/-! ## C7 groundwork: the selector's allocation as a `phases` run -/

/-- The fractional list's length is the number of available types. -/
theorem fracList_length (kws : List Keyword) (w : KeywordType → ℚ) (b : ℕ) :
    (fracList kws w b).length = (availableTypes kws).length := by
  unfold fracList
  rw [List.length_map]

/-- The base-plus-remainder-loop state is an acceptance run over five
rounds of the sorted fractional order. -/
theorem allocAfterRemainder_eq_acceptOffers (kws : List Keyword)
    (w : KeywordType → ℚ) (b : ℕ) (hne : kws ≠ []) :
    allocAfterRemainder kws w b =
      acceptOffers (fun t => (bucketOf kws t).length)
        (List.replicate 5 (((fracList kws w b).mergeSort fracGe).map
          Prod.snd)).flatten (baseAlloc kws w b)
        (b - ((availableTypes kws).map (baseAlloc kws w b)).sum) := by
  have hlen : 0 < ((fracList kws w b).mergeSort fracGe).length := by
    rw [List.length_mergeSort, fracList_length]
    have hnil := availableTypes_ne_nil kws hne
    cases h : availableTypes kws
    · exact absurd h hnil
    · simp
  have hfane : (fracList kws w b).mergeSort fracGe ≠ [] := by
    intro h
    rw [h] at hlen
    simp at hlen
  have hmax : max (5 * ((fracList kws w b).mergeSort fracGe).length) 1 =
      5 * ((fracList kws w b).mergeSort fracGe).length := by omega
  unfold allocAfterRemainder
  by_cases hrem : 0 < b - ((availableTypes kws).map (baseAlloc kws w b)).sum
  · rw [if_pos hrem]
    show remainderLoop ((fracList kws w b).mergeSort fracGe)
        (fun t => (bucketOf kws t).length)
        (max (5 * ((fracList kws w b).mergeSort fracGe).length) 1) 0
        (b - ((availableTypes kws).map (baseAlloc kws w b)).sum)
        (baseAlloc kws w b) = _
    rw [hmax, remainderLoop_eq_acceptOffers _ _ hfane,
      offerSeq_sweeps _ hlen 5]
  · rw [if_neg hrem]
    have h0 : b - ((availableTypes kws).map (baseAlloc kws w b)).sum = 0 := by
      omega
    show (baseAlloc kws w b,
        b - ((availableTypes kws).map (baseAlloc kws w b)).sum) = _
    rw [h0, acceptOffers_rem_zero]

/-- Skipping the fallback pass on a zero remainder changes nothing, so the
guarded fallback equals the unguarded one. -/
theorem fallbackFill_if_guard (cap : KeywordType → ℕ) (fb : List KeywordType)
    (st : (KeywordType → ℕ) × ℕ) :
    (if 0 < st.2 then (fallbackFill cap fb st.1 st.2).1 else st.1) =
      (fallbackFill cap fb st.1 st.2).1 := by
  by_cases h : 0 < st.2
  · rw [if_pos h]
  · rw [if_neg h]
    have h0 : st.2 = 0 := by omega
    rw [h0, fallbackFill_rem_zero]

/-- The complete allocation of lines 108–155 is the composite `phases`
run on the code's two sorted orders. -/
theorem finalAlloc_eq_phases (kws : List Keyword) (w : KeywordType → ℚ)
    (b : ℕ) (hne : kws ≠ []) :
    finalAlloc kws w b = (phases (fun t => (bucketOf kws t).length)
      (((fracList kws w b).mergeSort fracGe).map Prod.snd)
      (prioritizedTypes kws w) 5 (baseAlloc kws w b)
      (b - ((availableTypes kws).map (baseAlloc kws w b)).sum)).1 := by
  unfold finalAlloc phases
  rw [allocAfterRemainder_eq_acceptOffers kws w b hne]
  exact fallbackFill_if_guard (fun t => (bucketOf kws t).length)
    (prioritizedTypes kws w)
    (acceptOffers (fun t => (bucketOf kws t).length)
      (List.replicate 5 (((fracList kws w b).mergeSort fracGe).map
        Prod.snd)).flatten (baseAlloc kws w b)
      (b - ((availableTypes kws).map (baseAlloc kws w b)).sum))

/-- The sorted cycle order lists exactly the available types. -/
theorem sortedTypes_perm (kws : List Keyword) (w : KeywordType → ℚ) (b : ℕ) :
    List.Perm (((fracList kws w b).mergeSort fracGe).map Prod.snd)
      (availableTypes kws) := by
  have h1 : List.Perm (((fracList kws w b).mergeSort fracGe).map Prod.snd)
      ((fracList kws w b).map Prod.snd) :=
    (List.mergeSort_perm _ _).map _
  have h2 : (fracList kws w b).map Prod.snd = availableTypes kws := by
    unfold fracList
    rw [List.map_map]
    have hid : (Prod.snd ∘ fun t : KeywordType =>
        (desiredShare kws w b t - (baseAlloc kws w b t : ℚ), t)) =
        (id : KeywordType → KeywordType) := rfl
    rw [hid, List.map_id]
  rw [h2] at h1
  exact h1

/-- Every fractional-list entry is its type's share-minus-base pair. -/
theorem fracList_entry (kws : List Keyword) (w : KeywordType → ℚ) (b : ℕ)
    {e : ℚ × KeywordType} (he : e ∈ fracList kws w b) :
    e = (desiredShare kws w b e.2 - (baseAlloc kws w b e.2 : ℚ), e.2) := by
  unfold fracList at he
  obtain ⟨t, _, rfl⟩ := List.mem_map.mp he
  rfl

/-- The sorted cycle order is pairwise decreasing in share fractions. -/
theorem sortedTypes_pairwise (kws : List Keyword) (w : KeywordType → ℚ)
    (b : ℕ) :
    (((fracList kws w b).mergeSort fracGe).map Prod.snd).Pairwise
      (fun u v : KeywordType =>
        fracGe (desiredShare kws w b u - (baseAlloc kws w b u : ℚ), u)
          (desiredShare kws w b v - (baseAlloc kws w b v : ℚ), v) = true) := by
  have hs := List.sorted_mergeSort
    (fun a b c => fracGe_trans a b c) (fun a b => fracGe_total a b)
    (fracList kws w b)
  rw [List.pairwise_map]
  refine List.Pairwise.imp_of_mem ?_ hs
  intro a c ha hc hac
  rw [← fracList_entry kws w b (List.mem_mergeSort.mp ha),
    ← fracList_entry kws w b (List.mem_mergeSort.mp hc)]
  exact hac

/-- The fallback order is pairwise decreasing in the weight-size key. -/
theorem prioritizedTypes_pairwise (kws : List Keyword)
    (w : KeywordType → ℚ) :
    (prioritizedTypes kws w).Pairwise
      (fun u v : KeywordType => fallbackGe kws w u v = true) := by
  exact List.sorted_mergeSort
    (fun a b c => fallbackGe_trans kws w a b c)
    (fun a b => fallbackGe_total kws w a b) (availableTypes kws)

/-! ## C7 groundwork: the two order constraints satisfied by the real sorts -/

/-- With the boosted weights, a type that keeps its base allocation and
precedes the boosted type in the new cycle order already preceded it in the
old cycle order. -/
theorem cycle_order_constraint (kws : List Keyword) (w w' : KeywordType → ℚ)
    (b : ℕ) (t0 u : KeywordType) (hw : w t0 ≤ w' t0)
    (hoth : ∀ v, v ≠ t0 → w' v = w v) (ht0 : t0 ∈ availableTypes kws)
    (hu : u ∈ predTypes (((fracList kws w' b).mergeSort fracGe).map
      Prod.snd) t0)
    (hbt0 : baseAlloc kws w' b t0 = baseAlloc kws w b t0)
    (hbu : baseAlloc kws w' b u = baseAlloc kws w b u) :
    u ∈ predTypes (((fracList kws w b).mergeSort fracGe).map Prod.snd) t0 := by
  have hperm := sortedTypes_perm kws w b
  have hperm' := sortedTypes_perm kws w' b
  have hune : u ≠ t0 := ne_of_mem_predTypes hu
  have huavail : u ∈ availableTypes kws :=
    hperm'.subset ((List.takeWhile_sublist _).subset hu)
  have ht0p' : t0 ∈ ((fracList kws w' b).mergeSort fracGe).map Prod.snd :=
    hperm'.mem_iff.mpr ht0
  have ht0p : t0 ∈ ((fracList kws w b).mergeSort fracGe).map Prod.snd :=
    hperm.mem_iff.mpr ht0
  have hup : u ∈ ((fracList kws w b).mergeSort fracGe).map Prod.snd :=
    hperm.mem_iff.mpr huavail
  have hrel' := rel_of_predTypes _ (sortedTypes_pairwise kws w' b) hu ht0p'
  rcases mem_predTypes_or _ hune hup ht0p with hgoal | hcontra
  · exact hgoal
  · exfalso
    have hrel := rel_of_predTypes _ (sortedTypes_pairwise kws w b) hcontra hup
    have hs0 := desiredShare_mono kws w w' b t0 hw hoth ht0
    have hsu := desiredShare_anti kws w w' b t0 u hw hoth ht0 hune huavail
    have hcast0 : (baseAlloc kws w' b t0 : ℚ) = (baseAlloc kws w b t0 : ℚ) := by
      exact_mod_cast hbt0
    have hcastu : (baseAlloc kws w' b u : ℚ) = (baseAlloc kws w b u : ℚ) := by
      exact_mod_cast hbu
    unfold fracGe at hrel' hrel
    simp only [Bool.or_eq_true, Bool.and_eq_true, decide_eq_true_eq,
      Bool.not_eq_true', decide_eq_false_iff_not] at hrel' hrel
    rcases hrel' with h1 | ⟨h1, hv1⟩ <;> rcases hrel with h2 | ⟨h2, hv2⟩
    · linarith
    · linarith
    · linarith
    · rcases value_lt_total u t0 with he | hl | hl
      · exact hune he
      · exact hv1 hl
      · exact hv2 hl

/-- With the boosted weights, a type preceding the boosted type in the new
fallback order already preceded it in the old fallback order. -/
theorem fallback_order_constraint (kws : List Keyword)
    (w w' : KeywordType → ℚ) (t0 u : KeywordType) (hw : w t0 ≤ w' t0)
    (hoth : ∀ v, v ≠ t0 → w' v = w v) (ht0 : t0 ∈ availableTypes kws)
    (hu : u ∈ predTypes (prioritizedTypes kws w') t0) :
    u ∈ predTypes (prioritizedTypes kws w) t0 := by
  have hperm := prioritizedTypes_perm kws w
  have hperm' := prioritizedTypes_perm kws w'
  have hune : u ≠ t0 := ne_of_mem_predTypes hu
  have huavail : u ∈ availableTypes kws :=
    hperm'.subset ((List.takeWhile_sublist _).subset hu)
  have hup : u ∈ prioritizedTypes kws w := hperm.mem_iff.mpr huavail
  have ht0p : t0 ∈ prioritizedTypes kws w := hperm.mem_iff.mpr ht0
  have ht0p' : t0 ∈ prioritizedTypes kws w' := hperm'.mem_iff.mpr ht0
  have hrel' := rel_of_predTypes _ (prioritizedTypes_pairwise kws w') hu ht0p'
  rcases mem_predTypes_or _ hune hup ht0p with hgoal | hcontra
  · exact hgoal
  · have hrel := rel_of_predTypes _ (prioritizedTypes_pairwise kws w)
      hcontra hup
    have hmono := normalizedWeights_mono kws w w' t0 hw hoth ht0
    have hnw0 := hmono.1
    have hnwu := hmono.2 u hune huavail
    unfold fallbackGe at hrel' hrel
    simp only [Bool.or_eq_true, Bool.and_eq_true, decide_eq_true_eq]
      at hrel' hrel
    rcases hrel' with h1 | ⟨h1, hl1⟩ <;> rcases hrel with h2 | ⟨h2, hl2⟩
    · exact (by linarith : False).elim
    · exact (by linarith : False).elim
    · exact (by linarith : False).elim
    · rcases mem_predTypes_or (availableTypes kws) hune huavail ht0
        with ha | ha
      · have hsub := pair_sublist_of_predTypes _ ha ht0
        have hcmp : fallbackGe kws w u t0 = true := by
          unfold fallbackGe
          simp only [Bool.or_eq_true, Bool.and_eq_true, decide_eq_true_eq]
          exact Or.inr ⟨h2.symm, hl1⟩
        have hpair := List.pair_sublist_mergeSort
          (fun a b c => fallbackGe_trans kws w a b c)
          (fun a b => fallbackGe_total kws w a b) hcmp hsub
        exact predTypes_of_pair_sublist _
          (hperm.nodup_iff.mpr (availableTypes_nodup kws)) hpair
      · exfalso
        have hsub := pair_sublist_of_predTypes _ ha huavail
        have hcmp : fallbackGe kws w' t0 u = true := by
          unfold fallbackGe
          simp only [Bool.or_eq_true, Bool.and_eq_true, decide_eq_true_eq]
          exact Or.inr ⟨h1.symm, hl2⟩
        have hpair := List.pair_sublist_mergeSort
          (fun a b c => fallbackGe_trans kws w' a b c)
          (fun a b => fallbackGe_total kws w' a b) hcmp hsub
        have ht0pred : t0 ∈ predTypes (prioritizedTypes kws w') u :=
          predTypes_of_pair_sublist _
            (hperm'.nodup_iff.mpr (availableTypes_nodup kws)) hpair
        exact predTypes_asymm _ hu ht0pred

/-! ## C7: weight monotonicity of the selector -/

/-- Per-type count of the concatenated bucket prefixes: the capped
allocation of that type when listed, zero otherwise. -/
theorem bucketTakes_filter_length (kws : List Keyword)
    (alloc : KeywordType → ℕ) (t0 : KeywordType) :
    ∀ (L : List KeywordType), L.Nodup →
    ((bucketTakes kws alloc L).filter
      (fun kw => kw.keyword_type == t0)).length =
    if t0 ∈ L then min (alloc t0) (bucketOf kws t0).length else 0 := by
  intro L
  induction L with
  | nil => intro _; simp [bucketTakes]
  | cons t rest ih =>
    intro hnd
    have hBT : bucketTakes kws alloc (t :: rest) =
        (sortedBucket kws t).take
          (min (alloc t) (sortedBucket kws t).length) ++
        bucketTakes kws alloc rest := by
      simp [bucketTakes]
    rw [hBT, List.filter_append, List.length_append,
      ih (List.Nodup.of_cons hnd)]
    have hsb : (sortedBucket kws t).length = (bucketOf kws t).length := by
      unfold sortedBucket
      exact List.length_mergeSort _
    by_cases ht : t = t0
    · subst ht
      have hnot : t ∉ rest := (List.nodup_cons.mp hnd).1
      rw [if_neg hnot, if_pos (List.mem_cons_self t rest)]
      have hfil : ((sortedBucket kws t).take
          (min (alloc t) (sortedBucket kws t).length)).filter
          (fun kw => kw.keyword_type == t) =
          (sortedBucket kws t).take
            (min (alloc t) (sortedBucket kws t).length) := by
        apply List.filter_eq_self.mpr
        intro kw hkw
        have h1 := (mem_sortedBucket kws t kw (List.mem_of_mem_take hkw)).1
        simp [h1]
      rw [hfil, List.length_take, hsb]
      omega
    · have hfil : ((sortedBucket kws t).take
          (min (alloc t) (sortedBucket kws t).length)).filter
          (fun kw => kw.keyword_type == t0) = [] := by
        rw [List.filter_eq_nil_iff]
        intro kw hkw
        have h1 := (mem_sortedBucket kws t kw (List.mem_of_mem_take hkw)).1
        simp [h1, ht]
      rw [hfil]
      simp only [List.length_nil, Nat.zero_add]
      by_cases hr : t0 ∈ rest
      · rw [if_pos hr, if_pos (List.mem_cons_of_mem t hr)]
      · rw [if_neg hr, if_neg ?_]
        intro hm
        rcases List.mem_cons.mp hm with he | hm'
        · exact ht he.symm
        · exact hr hm'

/-- The selection phase contributes exactly the final allocation of each
type to the per-type mix counts. -/
theorem selectPhase_filter_count (kws : List Keyword) (w : KeywordType → ℚ)
    (b : ℕ) (t0 : KeywordType) (hne : kws ≠ [])
    (hids : (kws.map Keyword.id).Nodup) (hble : b ≤ kws.length) :
    ((selectPhase kws (finalAlloc kws w b)).filter
      (fun kw => kw.keyword_type == t0)).length = finalAlloc kws w b t0 := by
  rw [selectPhase_eq_bucketTakes kws _ hids,
    bucketTakes_filter_length kws (finalAlloc kws w b) t0
      (availableTypes kws) (availableTypes_nodup kws)]
  obtain ⟨hcap, _⟩ := finalAlloc_spec kws w b hne hble
  by_cases ht : t0 ∈ availableTypes kws
  · rw [if_pos ht]
    have := hcap t0
    omega
  · rw [if_neg ht]
    have hemp : bucketOf kws t0 = [] := by
      by_contra h
      exact ht ((mem_availableTypes kws t0).mpr h)
    have hc := hcap t0
    rw [hemp] at hc
    simp at hc
    omega

/-- The selector's success value, written out: the selection phase over the
final allocation, with the per-type filter counts as the mix. -/
theorem selectKeywordsForRotation_eq (kws : List Keyword) (b : ℕ)
    (w : KeywordType → ℚ) (hne : kws ≠ [])
    (hids : (kws.map Keyword.id).Nodup) (hb : 0 < b)
    (hble : b ≤ kws.length) :
    selectKeywordsForRotation kws b w =
      .ok (selectPhase kws (finalAlloc kws w b),
        fun t => ((selectPhase kws (finalAlloc kws w b)).filter
          (fun kw => kw.keyword_type == t)).length) := by
  obtain ⟨hcap, hsum⟩ := finalAlloc_spec kws w b hne hble
  have hlen : (selectPhase kws (finalAlloc kws w b)).length = b := by
    rw [selectPhase_length kws _ hids hcap, hsum]
  have htop : topUp kws (finalAlloc kws w b) b
      (selectPhase kws (finalAlloc kws w b)) =
      selectPhase kws (finalAlloc kws w b) := by
    unfold topUp
    rw [if_neg]
    rw [hlen]
    exact lt_irrefl b
  have hempty : kws.isEmpty = false := by
    cases kws
    · exact absurd rfl hne
    · rfl
  have hmin : min kws.length b = b := Nat.min_eq_right hble
  have havailne : (availableTypes kws).isEmpty = false := by
    cases hav : availableTypes kws
    · exact absurd hav (availableTypes_ne_nil kws hne)
    · rfl
  have hselne : (selectPhase kws (finalAlloc kws w b)).isEmpty = false := by
    cases hs : selectPhase kws (finalAlloc kws w b)
    · rw [hs] at hlen
      simp at hlen
      omega
    · rfl
  simp only [selectKeywordsForRotation, hempty, Bool.false_eq_true, if_false,
    hmin]
  rw [if_neg (Nat.pos_iff_ne_zero.mp hb)]
  simp only [havailne, Bool.false_eq_true, if_false]
  rw [htop]
  simp only [hselne, Bool.false_eq_true, if_false]

/-- Raising one available type's weight, all others held fixed, never
lowers that type's final allocation. -/
theorem finalAlloc_mono (kws : List Keyword) (w w' : KeywordType → ℚ)
    (b : ℕ) (t0 : KeywordType) (hne : kws ≠ []) (hw : w t0 ≤ w' t0)
    (hoth : ∀ v, v ≠ t0 → w' v = w v) (ht0 : t0 ∈ availableTypes kws) :
    finalAlloc kws w b t0 ≤ finalAlloc kws w' b t0 := by
  have hpermp := sortedTypes_perm kws w b
  have hpermp' := sortedTypes_perm kws w' b
  have hpermfb := prioritizedTypes_perm kws w
  have hpermfb' := prioritizedTypes_perm kws w'
  have hand := availableTypes_nodup kws
  have havail := availableTypes_ne_nil kws hne
  rw [finalAlloc_eq_phases kws w b hne, finalAlloc_eq_phases kws w' b hne]
  apply phases_mono_main (fun t => (bucketOf kws t).length) 5
    (((fracList kws w b).mergeSort fracGe).map Prod.snd)
    (((fracList kws w' b).mergeSort fracGe).map Prod.snd)
    (prioritizedTypes kws w) (prioritizedTypes kws w')
    (baseAlloc kws w b) (baseAlloc kws w' b)
    (b - ((availableTypes kws).map (baseAlloc kws w b)).sum)
    (b - ((availableTypes kws).map (baseAlloc kws w' b)).sum) t0
    (hpermp.nodup_iff.mpr hand) (hpermp'.nodup_iff.mpr hand)
    (hpermfb.nodup_iff.mpr hand) (hpermfb'.nodup_iff.mpr hand)
    (fun u => hpermp'.mem_iff.trans hpermp.mem_iff.symm)
    (fun u => hpermfb.mem_iff.trans hpermp.mem_iff.symm)
    (fun u => hpermfb'.mem_iff.trans hpermp.mem_iff.symm)
    (hpermp.mem_iff.mpr ht0)
    (baseAlloc_mono kws w w' b t0 hw hoth ht0)
    (baseAlloc_le_cap kws w' b t0)
    (fun u hu => baseAlloc_anti kws w w' b t0 u hw hoth ht0 hu)
    (baseAlloc_le_cap kws w b)
    ?_ ?_ ?_ ?_
  · intro u hu
    have huav : u ∉ availableTypes kws := fun hm =>
      hu (hpermp.mem_iff.mpr hm)
    rw [baseAlloc_out kws w' b u huav, baseAlloc_out kws w b u huav]
  · have h1 : ((((fracList kws w b).mergeSort fracGe).map Prod.snd).map
        (baseAlloc kws w' b)).sum =
        ((availableTypes kws).map (baseAlloc kws w' b)).sum :=
      (hpermp.map _).sum_eq
    have h2 : ((((fracList kws w b).mergeSort fracGe).map Prod.snd).map
        (baseAlloc kws w b)).sum =
        ((availableTypes kws).map (baseAlloc kws w b)).sum :=
      (hpermp.map _).sum_eq
    have hle1 := sum_baseAlloc_le kws w b havail
    have hle2 := sum_baseAlloc_le kws w' b havail
    rw [h1, h2]
    omega
  · intro u hu hbt0 hbu _
    exact cycle_order_constraint kws w w' b t0 u hw hoth ht0 hu hbt0 hbu
  · intro u hu _
    exact fallback_order_constraint kws w w' t0 u hw hoth ht0 hu

/-- C7: for every fixed keyword set, budget and weight map, increasing one
category's weight while holding all other categories' weights fixed (with
normalization recomputed internally) never decreases the number of keywords
allocated to that category. -/
theorem select_keywords_weight_monotone (kws : List Keyword) (b : ℕ)
    (w w' : KeywordType → ℚ) (t0 : KeywordType) (hne : kws ≠ [])
    (hids : (kws.map Keyword.id).Nodup) (hb : 0 < b) (hble : b ≤ kws.length)
    (hw : w t0 ≤ w' t0) (hoth : ∀ v, v ≠ t0 → w' v = w v) :
    ∃ sel mix sel' mix',
      selectKeywordsForRotation kws b w = .ok (sel, mix) ∧
      selectKeywordsForRotation kws b w' = .ok (sel', mix') ∧
      mix t0 ≤ mix' t0 := by
  refine ⟨selectPhase kws (finalAlloc kws w b),
    fun t => ((selectPhase kws (finalAlloc kws w b)).filter
      (fun kw => kw.keyword_type == t)).length,
    selectPhase kws (finalAlloc kws w' b),
    fun t => ((selectPhase kws (finalAlloc kws w' b)).filter
      (fun kw => kw.keyword_type == t)).length,
    selectKeywordsForRotation_eq kws b w hne hids hb hble,
    selectKeywordsForRotation_eq kws b w' hne hids hb hble, ?_⟩
  show ((selectPhase kws (finalAlloc kws w b)).filter
      (fun kw => kw.keyword_type == t0)).length ≤
    ((selectPhase kws (finalAlloc kws w' b)).filter
      (fun kw => kw.keyword_type == t0)).length
  rw [selectPhase_filter_count kws w b t0 hne hids hble,
    selectPhase_filter_count kws w' b t0 hne hids hble]
  by_cases ht : t0 ∈ availableTypes kws
  · exact finalAlloc_mono kws w w' b t0 hne hw hoth ht
  · have hemp : bucketOf kws t0 = [] := by
      by_contra h
      exact ht ((mem_availableTypes kws t0).mpr h)
    obtain ⟨hcap, _⟩ := finalAlloc_spec kws w b hne hble
    have hc := hcap t0
    rw [hemp] at hc
    simp at hc
    omega

/-- Witness for C7 at a concrete keyword list, budget and weight bump. -/
theorem select_keywords_weight_monotone_witness :
    ∃ sel mix sel' mix',
      selectKeywordsForRotation sampleKeywords 5 sampleWeights =
        .ok (sel, mix) ∧
      selectKeywordsForRotation sampleKeywords 5 sampleWeightsBoosted =
        .ok (sel', mix') ∧
      mix KeywordType.core ≤ mix' KeywordType.core :=
  select_keywords_weight_monotone sampleKeywords 5 sampleWeights
    sampleWeightsBoosted KeywordType.core (by simp [sampleKeywords])
    (by decide) (by decide) (by decide) (by with_unfolding_all decide)
    (by intro v hv; cases v <;> first | rfl | exact absurd rfl hv)

end YT
